import Mathlib

/-!
# pink: the HTTP connection codec and the reactor thread

A shallow embedding of `HttpRequest`, `HttpResponse` and `HttpConn` (`src/http_conn.cc`)
and of the handlers of `HolyThread` (`include/holy_thread.h`).

* `std::string` is `List Char`; `std::map<std::string, std::string>` is an association
  list with unique keys (`mapAssign` is `m[k] = v`, `mapFind` is `m.find(k)`).
* A `const char*` is the list of bytes stored behind the pointer.  The parser is handed a
  pointer and a separate `size`, and it does read at indices `>= size`, so its argument is
  the whole buffer; bytes beyond the end of the list (never written) read as NUL (`peek`).
* `int` and `long` values are `Int`, `size_t` and `uint32_t` values are `Nat`; narrowing
  conversions and `uint32_t` arithmetic are written out with `% 2 ^ 32`.  The sizes and
  indices of the header parser are not reduced: `HttpConn` hands it at most 64 KiB + 3.
* The socket is a list of pending events, one consumed per `read` or `write` (a `read` of
  0 bytes returns 0 and consumes none); the handler `DealMessage` and `slash::string2l`
  are parameters.
* Loops run on fuel; a result `none` means that the C++ call does not return normally
  (an exception, or a `memcpy` with a negative length).  The fuel is always enough:
  `ParseParameters_eq`, `ParseHeadFromArray_returns`, `GetRequest_fuel`.
* `HolyThread` is taken at `Conn = HttpConn`.  Its state carries the registry `conns_`,
  the demultiplexer, the heap of connection objects and the open descriptors; an event
  mask is the `int` of `epoll`, with the bits of `<sys/epoll.h>`.  The demultiplexer
  `PinkEpoll` (its table of interests, and which events its wait reports) and `accept`
  are not among the source files and follow the specification.
  The time stamp `last_interaction` is left out.
-/

namespace pink

/-- The constant `kHttpMaxMessage` (8 MiB). -/
def kHttpMaxMessage : Nat := 1024 * 1024 * 8

/-- The constant `kHttpMaxHeader` (64 KiB). -/
def kHttpMaxHeader : Nat := 1024 * 64

/-- The type `std::string`. -/
abbrev Str := List Char

/-- The type `std::map<std::string, std::string>`: an association list with unique keys. -/
abbrev StrMap := List (Str × Str)

/-- The lookup `m.find(k)`: the mapped value, `none` for `m.end()`. -/
def mapFind : StrMap → Str → Option Str
  | [], _ => none
  | (k1, v1) :: m, k => if k1 = k then some v1 else mapFind m k

/-- The assignment `m[k] = v`: overwrite the entry of `k`, or add one. -/
def mapAssign : StrMap → Str → Str → StrMap
  | [], k, v => [(k, v)]
  | (k1, v1) :: m, k, v => if k1 = k then (k, v) :: m else (k1, v1) :: mapAssign m k v

/-- The read `data[i]`; a byte beyond the stored ones reads as NUL. -/
def peek (data : List Char) (i : Nat) : Char := data.getD i '\x00'

/-- The store `buf[pos .. pos + bs.size()) = bs` (as `read` and `memcpy` do it); bytes
below `pos` that were never written are NUL. -/
def poke (buf : List Char) (pos : Nat) (bs : List Char) : List Char :=
  (buf.take pos ++ List.replicate (pos - buf.length) '\x00') ++ bs ++ buf.drop (pos + bs.length)

/-- The bytes `buf[lo .. hi)`. -/
def slice (buf : List Char) (lo hi : Nat) : List Char :=
  (List.range' lo (hi - lo)).map (peek buf)

/-- Conversion of a `size_t` or `uint32_t` value to `int` (two's complement, 32 bits). -/
def toInt32 (n : Nat) : Int :=
  if n % 2 ^ 32 < 2 ^ 31 then ((n % 2 ^ 32 : Nat) : Int) else ((n % 2 ^ 32 : Nat) : Int) - 2 ^ 32

/-- Conversion of a `long` value to `int` (two's complement, 32 bits). -/
def longToInt32 (z : Int) : Int := toInt32 (z % 2 ^ 32).toNat

/-- Conversion of an `int` value to `uint32_t`. -/
def toUInt32 (z : Int) : Nat := (z % 2 ^ 32).toNat

/-- The function `find_lf(data + start, size)`: the number of bytes before the first LF
among `data[start .. start + size)`, `size` when there is none. -/
def find_lf (data : List Char) (start : Nat) : Nat → Nat
  | 0 => 0
  | size + 1 => if peek data start = '\n' then 0 else find_lf data (start + 1) size + 1

/-- The enum `ParseStatus`; `kOther` stands for any enumerator that `ParseHeadLine`
does not name (its `default:` branch). -/
inductive ParseStatus
  | kHeaderMethod
  | kHeaderPath
  | kHeaderVersion
  | kHeaderParamKey
  | kHeaderParamValue
  | kOther
deriving DecidableEq, Repr

/-- The class `HttpRequest`, with the fields that `http_conn.cc` uses. -/
structure HttpRequest where
  method : Str
  path : Str
  version : Str
  headers : StrMap
  query_params : StrMap
  content : Str
deriving DecidableEq, Repr

/-- The class `HttpResponse`, with the field that `http_conn.cc` uses. -/
structure HttpResponse where
  content : Str
deriving DecidableEq, Repr

namespace HttpRequest

/-- The constructor `HttpRequest::HttpRequest()`. -/
def new : HttpRequest :=
  { method := "GET".toList, path := "/index".toList, version := [], headers := [],
    query_params := [], content := [] }

/-- The loop state of `ParseHeadLine`: `*parseStatus`, the locals `param_key` and
`param_value`, and the request. -/
structure LineState where
  status : ParseStatus
  param_key : Str
  param_value : Str
  req : HttpRequest
deriving DecidableEq, Repr

/-- One pass of the `for` body of `ParseHeadLine` on the byte `c = data[i]`; the `Bool`
is `false` for `return false`. -/
def lineStep (s : LineState) (c : Char) : Bool × LineState :=
  match s.status with
  | .kHeaderMethod =>
    if c ≠ ' ' then (true, { s with req := { s.req with method := s.req.method ++ [c] } })
    else (true, { s with status := .kHeaderPath })
  | .kHeaderPath =>
    if c ≠ ' ' then (true, { s with req := { s.req with path := s.req.path ++ [c] } })
    else (true, { s with status := .kHeaderVersion })
  | .kHeaderVersion =>
    if c ≠ '\r' ∧ c ≠ '\n' then
      (true, { s with req := { s.req with version := s.req.version ++ [c] } })
    else if c = '\n' then (true, { s with status := .kHeaderParamKey })
    else (true, s)
  | .kHeaderParamKey =>
    if c ≠ ':' ∧ c ≠ ' ' then (true, { s with param_key := s.param_key ++ [c] })
    else if c = ' ' then (true, { s with status := .kHeaderParamValue })
    else (true, s)
  | .kHeaderParamValue =>
    if c ≠ '\r' ∧ c ≠ '\n' then (true, { s with param_value := s.param_value ++ [c] })
    else if c = '\r' then
      (true, { s with
        status := .kHeaderParamKey
        req := { s.req with headers := mapAssign s.req.headers s.param_key s.param_value } })
    else (true, s)
  | .kOther => (false, s)

/-- The `for` loop of `ParseHeadLine` over the bytes it reads, in order; the `Bool` is
`false` when the loop was left by `return false`. -/
def lineLoop : LineState → List Char → Bool × LineState
  | s, [] => (true, s)
  | s, c :: cs =>
    match lineStep s c with
    | (false, s1) => (false, s1)
    | (true, s1) => lineLoop s1 cs

/-- The method `HttpRequest::ParseHeadLine(data, line_start, line_end, parseStatus)`: it
reads `data[line_start .. line_end]`, both ends included, and gives the returned `bool`,
the new `*parseStatus` and the request. -/
def ParseHeadLine (req : HttpRequest) (data : List Char) (line_start line_end : Int)
    (parseStatus : ParseStatus) : Bool × ParseStatus × HttpRequest :=
  let r := lineLoop { status := parseStatus, param_key := [], param_value := [], req := req }
    (slice data line_start.toNat (line_end + 1).toNat)
  (r.1, r.2.status, r.2.req)

/-- The call `data.find(c, pos)`: the first index `>= pos` that holds `c`, if any
(`none` is `std::string::npos`). -/
def strFind (data : Str) (c : Char) (pos : Nat) : Option Nat :=
  if c ∈ data.drop pos then some (pos + ((data.drop pos).takeWhile (· ≠ c)).length) else none

/-- The call `data.substr(pos, n)` for `pos <= data.size()`. -/
def substr (data : Str) (pos n : Nat) : Str := (data.drop pos).take n

/-- The `while` loop of `ParseParameters`, from `pre`; `none` when the fuel runs out. -/
def paramLoop (data : Str) : Nat → Nat → StrMap → Option StrMap
  | 0, pre, qp => if pre < data.length then none else some qp
  | fuel + 1, pre, qp =>
    if pre < data.length then
      let mid := (strFind data '=' pre).getD data.length
      let endp := (strFind data '&' pre).getD data.length
      if endp ≤ mid then
        paramLoop data fuel (endp + 1) (mapAssign qp (substr data pre (endp - pre)) [])
      else
        paramLoop data fuel (endp + 1)
          (mapAssign qp (substr data pre (mid - pre)) (substr data (mid + 1) (endp - mid - 1)))
    else some qp

/-- The method `HttpRequest::ParseParameters(data, line_start)`: the returned `bool` (its
one `return` gives `true`) and the request (`none`: no return). -/
def ParseParameters (req : HttpRequest) (data : Str) (line_start : Nat) :
    Option (Bool × HttpRequest) :=
  match paramLoop data (data.length + 1) line_start req.query_params with
  | none => none
  | some qp => some (true, { req with query_params := qp })

/-- The method `HttpRequest::ParseGetUrl()`: the returned `bool` and the request. -/
def ParseGetUrl (req : HttpRequest) : Option (Bool × HttpRequest) :=
  match strFind req.path '?' 0 with
  | none => some (true, req)
  | some n =>
    match ParseParameters req req.path (n + 1) with
    | none => none
    | some (false, r) => some (false, r)
    | some (true, r) => some (true, { r with path := r.path.take n })

/-- The `while (remain_size > 4)` loop of `ParseHeadFromArray`; the `Bool` is `false`
when the loop body does `return false`; `none` when the fuel runs out. -/
def headLoop (data : List Char) :
    Nat → Int → Int → Int → ParseStatus → HttpRequest → Option (Bool × HttpRequest)
  | 0, remain_size, _, _, _, req => if remain_size > 4 then none else some (true, req)
  | fuel + 1, remain_size, line_start, line_end, parseStatus, req =>
    if remain_size > 4 then
      let line_end1 := line_end + (find_lf data line_start.toNat remain_size.toNat : Nat) + 1
      if line_end1 < line_start then some (false, req)
      else
        match ParseHeadLine req data line_start line_end1 parseStatus with
        | (false, _, req1) => some (false, req1)
        | (true, st, req1) =>
          headLoop data fuel (remain_size - (line_end1 - line_start)) (line_end1 + 1) line_end1
            st req1
    else some (true, req)

/-- The method `HttpRequest::ParseHeadFromArray(data, size)`: the returned `bool` and the
request it leaves (`none`: no return). -/
def ParseHeadFromArray (req : HttpRequest) (data : List Char) (size : Int) :
    Option (Bool × HttpRequest) :=
  if size ≤ 5 then some (false, req)
  else
    match headLoop data (data.length + 2) size 0 0 .kHeaderMethod req with
    | none => none
    | some (false, r) => some (false, r)
    | some (true, r) => if r.method = "GET".toList then ParseGetUrl r else some (true, r)

/-- The method `HttpRequest::Clear()`; `content` is not among the fields it clears. -/
def Clear (req : HttpRequest) : HttpRequest :=
  { req with version := [], path := [], method := [], query_params := [], headers := [] }

/-- The method `HttpRequest::ParseBodyFromArray(data, size)`: the returned `bool` and the
request.  `content.assign(data, size)` throws `std::length_error` for a negative `size`
(converted to `size_t`), hence `none`; `ParseParameters(content)` starts at offset 0. -/
def ParseBodyFromArray (req : HttpRequest) (data : List Char) (size : Int) :
    Option (Bool × HttpRequest) :=
  if size < 0 then none
  else
    let req1 := { req with content := slice data 0 size.toNat }
    if req1.method = "POST".toList then ParseParameters req1 req1.content 0
    else some (true, req1)

end HttpRequest

namespace HttpResponse

/-- The method `HttpResponse::Clear()`. -/
def Clear (_resp : HttpResponse) : HttpResponse := { content := [] }

/-- The method `HttpResponse::SerializeToArray(data, size)`: the array after the `memcpy`
and the returned `uint32_t`.  The length `std::min((int)content.size(), size)` is
converted to `size_t` for `memcpy`; when it is negative the copy runs off both buffers,
hence `none`. -/
def SerializeToArray (resp : HttpResponse) (data : List Char) (size : Int) :
    Option (List Char × Nat) :=
  let n := min (toInt32 resp.content.length) size
  if n < 0 then none
  else some (poke data 0 (resp.content.take n.toNat), toUInt32 n)

end HttpResponse

/-- The enum `ConnStatus`; `kOther` stands for any enumerator that `GetRequest` does not
name (its `default:` branch). -/
inductive ConnStatus
  | kHeader
  | kPacket
  | kComplete
  | kOther
deriving DecidableEq, Repr

/-- The enum `ReadStatus`: the values that `http_conn.cc` and `holy_thread.h` name. -/
inductive ReadStatus
  | kReadHalf
  | kReadAll
  | kReadError
  | kReadClose
  | kFullError
  | kParseError
deriving DecidableEq, Repr

/-- The enum `WriteStatus`: the values that `http_conn.cc` and `holy_thread.h` name. -/
inductive WriteStatus
  | kWriteHalf
  | kWriteAll
  | kWriteError
deriving DecidableEq, Repr

/-- What a `read` on the non-blocking socket finds next. -/
inductive ReadEvent
  | bytes (bs : List Char)
  | again
  | closed
  | failed
deriving DecidableEq, Repr

/-- What a `write` on the non-blocking socket finds next: room for `k` bytes, `EAGAIN`,
or another error. -/
inductive WriteEvent
  | room (k : Nat)
  | again
  | failed
deriving DecidableEq, Repr

/-- The result of one `read(fd, buf, count)`: the returned `nread`, whether `errno` is
`EAGAIN`, and the bytes stored in `buf`. -/
structure ReadResult where
  nread : Int
  eagain : Bool
  data : List Char
deriving DecidableEq, Repr

/-- The call `read(fd, buf, count)` against the pending socket events.  A `read` of 0
bytes returns 0 without looking at the socket, whatever is pending.  Otherwise at most
`count` of the waiting bytes are taken, the others stay, and a socket with nothing pending
would block. -/
def sockRead (sock : List ReadEvent) (count : Nat) : ReadResult × List ReadEvent :=
  if count = 0 then ({ nread := 0, eagain := false, data := [] }, sock)
  else
    match sock with
    | [] => ({ nread := -1, eagain := true, data := [] }, [])
    | .again :: rest => ({ nread := -1, eagain := true, data := [] }, rest)
    | .failed :: rest => ({ nread := -1, eagain := false, data := [] }, rest)
    | .closed :: rest => ({ nread := 0, eagain := false, data := [] }, rest)
    | .bytes bs :: rest =>
      if bs.length ≤ count then ({ nread := bs.length, eagain := false, data := bs }, rest)
      else ({ nread := count, eagain := false, data := bs.take count },
        .bytes (bs.drop count) :: rest)

/-- The number of bytes waiting in the socket events. -/
def sockBytes : List ReadEvent → Nat
  | [] => 0
  | .bytes bs :: rest => bs.length + sockBytes rest
  | _ :: rest => sockBytes rest

/-- The call `strstr(buf, "\r\n\r\n")` as an offset: the search stops at the first NUL. -/
def strstr : List Char → Option Nat
  | [] => none
  | c :: cs =>
    if c = '\x00' then none
    else if (c :: cs).take 4 = ['\r', '\n', '\r', '\n'] then some 0
    else (strstr cs).map (· + 1)

/-- Modelled from the spec: `slash::string2l` is declared in `slash_string.h`, which is
not among the source files.  A signed decimal conversion: an optional `-` and one or
more digits give `some` value, anything else `none` (the target is then left as it
was). -/
def string2l (s : Str) : Option Int :=
  let digits (ds : List Char) : Option Nat :=
    if ds ≠ [] ∧ ds.all Char.isDigit then
      some (ds.foldl (fun acc d => 10 * acc + (d.toNat - 48)) 0)
    else none
  match s with
  | '-' :: ds => (digits ds).map (fun n => -(n : Int))
  | ds => (digits ds).map (fun n => (n : Int))

/-- The class `HttpConn` with the fields that `http_conn.cc` uses, and the `is_reply` flag
of its base `PinkConn`.  `remain_packet_len` is a `long` (`BuildRequestHeader` takes its
address as a `long*`); `rbuf_pos`, `wbuf_len`, `wbuf_pos` and `header_len` are taken to be
`uint32_t`, like the constants and the `SerializeToArray` result they are used with.
`dealt` is not a field of the class: it records the requests that `DealMessage` has been
invoked on, in order. -/
structure HttpConn where
  conn_status : ConnStatus
  rbuf : List Char
  rbuf_pos : Nat
  wbuf : List Char
  wbuf_len : Nat
  wbuf_pos : Nat
  header_len : Nat
  remain_packet_len : Int
  request : HttpRequest
  response : HttpResponse
  is_reply : Bool
  dealt : List HttpRequest
deriving DecidableEq, Repr

/-- The user hook `DealMessage(request, response)`: it fills the response in place. -/
abbrev Handler := HttpRequest → HttpResponse → HttpResponse

namespace HttpConn

/-- The constructor `HttpConn::HttpConn(fd, ip_port)`; the two buffers are allocated and
not written to.  The flag `is_reply` belongs to the base class `PinkConn`, whose
constructor is not among the source files; it is taken to start clear, no reply being
queued on a new connection. -/
def new : HttpConn :=
  { conn_status := .kHeader, rbuf := [], rbuf_pos := 0, wbuf := [], wbuf_len := 0,
    wbuf_pos := 0, header_len := 0, remain_packet_len := 0, request := HttpRequest.new,
    response := { content := [] }, is_reply := false, dealt := [] }

/-- The method `HttpConn::BuildResponseBuf()`; its one `return` gives `true`. -/
def BuildResponseBuf (c : HttpConn) : Option HttpConn :=
  match c.response.SerializeToArray c.wbuf kHttpMaxMessage with
  | none => none
  | some (wbuf, n) => some { c with wbuf := wbuf, wbuf_len := n }

/-- The method `HttpConn::BuildRequestHeader()`: the returned `bool` and the connection.
`conv` is `slash::string2l`; when it fails `remain_packet_len_` keeps its value. -/
def BuildRequestHeader (conv : Str → Option Int) (c : HttpConn) : Option (Bool × HttpConn) :=
  match (c.request.Clear).ParseHeadFromArray c.rbuf (toInt32 c.header_len) with
  | none => none
  | some (false, r) => some (false, { c with request := r })
  | some (true, r) =>
    let remain : Int :=
      match mapFind r.headers "Content-Length".toList with
      | none => 0
      | some v => (conv v).getD c.remain_packet_len
    let remain1 : Int :=
      if c.rbuf_pos > c.header_len then remain - ((c.rbuf_pos - c.header_len : Nat) : Int)
      else remain
    some (true, { c with request := r, remain_packet_len := remain1 })

/-- The method `HttpConn::BuildRequestBody()`: the returned `bool` and the connection. -/
def BuildRequestBody (c : HttpConn) : Option (Bool × HttpConn) :=
  match c.request.ParseBodyFromArray (c.rbuf.drop c.header_len)
      (longToInt32 ((c.rbuf_pos : Int) + c.remain_packet_len - (c.header_len : Int))) with
  | none => none
  | some (b, r) => some (b, { c with request := r })

/-- The method `HttpConn::HandleMessage()`. -/
def HandleMessage (deal : Handler) (c : HttpConn) : Option HttpConn :=
  BuildResponseBuf
    { c with
      response := deal c.request c.response.Clear
      is_reply := true
      dealt := c.dealt ++ [c.request] }

/-- The outcome of one pass through the body of the `while (true)` loop of `GetRequest`:
a `return`, another pass, or no return at all. -/
inductive Pass
  | ret (st : ReadStatus) (c : HttpConn) (sock : List ReadEvent)
  | next (c : HttpConn) (sock : List ReadEvent)
  | stuck

/-- The `case kHeader` of `GetRequest`. -/
def getHeader (conv : Str → Option Int) (c : HttpConn) (sock : List ReadEvent) : Pass :=
  let count := (kHttpMaxHeader + 2 ^ 32 - c.rbuf_pos % 2 ^ 32) % 2 ^ 32
  let r := (sockRead sock count).1
  let sock1 := (sockRead sock count).2
  if r.nread = -1 ∧ r.eagain = true then .ret .kReadHalf c sock1
  else if r.nread ≤ 0 then .ret .kReadClose c sock1
  else
    let pos := (c.rbuf_pos + r.nread.toNat) % 2 ^ 32
    let c1 := { c with rbuf := poke (poke c.rbuf c.rbuf_pos r.data) pos ['\x00'],
                       rbuf_pos := pos }
    match strstr c1.rbuf with
    | none => .next c1 sock1
    | some sep =>
      match BuildRequestHeader conv { c1 with header_len := (sep + 4) % 2 ^ 32 } with
      | none => .stuck
      | some (false, c2) => .ret .kReadError c2 sock1
      | some (true, c2) => .next { c2 with conn_status := .kPacket } sock1

/-- The end of `case kPacket`: `if (remain_packet_len_ <= 0)`; the `bool` that
`BuildRequestBody` returns is not looked at. -/
def packetEnd (c : HttpConn) (sock : List ReadEvent) : Pass :=
  if c.remain_packet_len ≤ 0 then
    match BuildRequestBody c with
    | none => .stuck
    | some (_, c1) => .next { c1 with conn_status := .kComplete } sock
  else .next c sock

/-- The `case kPacket` of `GetRequest`. -/
def getPacket (c : HttpConn) (sock : List ReadEvent) : Pass :=
  if c.remain_packet_len >
      (((kHttpMaxMessage + 2 ^ 32 - c.rbuf_pos % 2 ^ 32) % 2 ^ 32 : Nat) : Int) then
    .ret .kReadError c sock
  else if c.remain_packet_len > 0 then
    let r := (sockRead sock c.remain_packet_len.toNat).1
    let sock1 := (sockRead sock c.remain_packet_len.toNat).2
    if r.nread = -1 ∧ r.eagain = true then .ret .kReadHalf c sock1
    else if r.nread ≤ 0 then .ret .kReadClose c sock1
    else
      packetEnd
        { c with rbuf := poke c.rbuf c.rbuf_pos r.data,
                 rbuf_pos := (c.rbuf_pos + r.nread.toNat) % 2 ^ 32,
                 remain_packet_len := c.remain_packet_len - r.nread } sock1
  else packetEnd c sock

/-- The `case kComplete` of `GetRequest`. -/
def getComplete (deal : Handler) (c : HttpConn) (sock : List ReadEvent) : Pass :=
  match HandleMessage deal c with
  | none => .stuck
  | some c1 => .ret .kReadAll { c1 with conn_status := .kHeader, rbuf_pos := 0 } sock

/-- One pass through the `switch (conn_status_)` of `GetRequest`. -/
def getPass (deal : Handler) (conv : Str → Option Int) (c : HttpConn)
    (sock : List ReadEvent) : Pass :=
  match c.conn_status with
  | .kHeader => getHeader conv c sock
  | .kPacket => getPacket c sock
  | .kComplete => getComplete deal c sock
  | .kOther => .ret .kReadError c sock

/-- The `while (true)` loop of `GetRequest` against the pending socket events: the
returned status, the connection and the events left (`none`: no return). -/
def getLoop (deal : Handler) (conv : Str → Option Int) :
    Nat → HttpConn → List ReadEvent → Option (ReadStatus × HttpConn × List ReadEvent)
  | 0, _, _ => none
  | fuel + 1, c, sock =>
    match getPass deal conv c sock with
    | .ret st c1 sock1 => some (st, c1, sock1)
    | .next c1 sock1 => getLoop deal conv fuel c1 sock1
    | .stuck => none

/-- The method `HttpConn::GetRequest()`; a pass that does not return takes bytes from the
socket, except for the last pass through `kPacket`. -/
def GetRequest (deal : Handler) (conv : Str → Option Int) (c : HttpConn)
    (sock : List ReadEvent) : Option (ReadStatus × HttpConn × List ReadEvent) :=
  getLoop deal conv (sockBytes sock + 3) c sock

/-- The state of the `while (wbuf_len_ > 0)` loop of `SendReply` when it is left: the
connection, the last `nwritten`, whether `errno` is `EAGAIN`, the socket events left and
the bytes that went out. -/
structure SendState where
  conn : HttpConn
  nwritten : Int
  eagain : Bool
  sock : List WriteEvent
  out : List Char
deriving DecidableEq, Repr

/-- The `while (wbuf_len_ > 0)` loop of `SendReply`; `write(fd, p, count)` sends
`min(k, count)` bytes when the socket has room for `k`, and a socket with nothing
pending would block. -/
def sendLoop (c : HttpConn) (nwritten : Int) (out : List Char) : List WriteEvent → SendState
  | [] =>
    if c.wbuf_len > 0 then { conn := c, nwritten := -1, eagain := true, sock := [], out := out }
    else { conn := c, nwritten := nwritten, eagain := false, sock := [], out := out }
  | ev :: sock =>
    if c.wbuf_len > 0 then
      match ev with
      | .again => { conn := c, nwritten := -1, eagain := true, sock := sock, out := out }
      | .failed => { conn := c, nwritten := -1, eagain := false, sock := sock, out := out }
      | .room k =>
        let n := min k ((c.wbuf_len + 2 ^ 32 - c.wbuf_pos % 2 ^ 32) % 2 ^ 32)
        if (n : Int) ≤ 0 then
          { conn := c, nwritten := n, eagain := false, sock := sock, out := out }
        else
          let pos := (c.wbuf_pos + n) % 2 ^ 32
          let c1 :=
            if pos = c.wbuf_len then { c with wbuf_len := 0, wbuf_pos := 0 }
            else { c with wbuf_pos := pos }
          sendLoop c1 n (out ++ slice c.wbuf c.wbuf_pos (c.wbuf_pos + n)) sock
    else { conn := c, nwritten := nwritten, eagain := false, sock := ev :: sock, out := out }

/-- The method `HttpConn::SendReply()` against the pending socket events: the returned
status, the connection, the events left and the bytes written. -/
def SendReply (c : HttpConn) (sock : List WriteEvent) :
    WriteStatus × HttpConn × List WriteEvent × List Char :=
  let s := sendLoop c 0 [] sock
  if s.nwritten = -1 then
    if s.eagain then (.kWriteHalf, s.conn, s.sock, s.out)
    else (.kWriteError, s.conn, s.sock, s.out)
  else if s.conn.wbuf_len = 0 then (.kWriteAll, s.conn, s.sock, s.out)
  else (.kWriteHalf, s.conn, s.sock, s.out)

end HttpConn

/-- A call of one of the two public methods of `HttpConn`, with what the handler, the
conversion and the socket do during that call. -/
inductive Call
  | get (deal : Handler) (conv : Str → Option Int) (sock : List ReadEvent)
  | send (sock : List WriteEvent)

/-- The connection after a sequence of calls (`none`: one of them does not return). -/
def runCalls : HttpConn → List Call → Option HttpConn
  | c, [] => some c
  | c, .get deal conv sock :: calls =>
    match c.GetRequest deal conv sock with
    | none => none
    | some (_, c1, _) => runCalls c1 calls
  | c, .send sock :: calls => runCalls (c.SendReply sock).2.1 calls

/-- Whether a sequence of calls only calls `GetRequest` while `wbuf_pos_` is 0, that is
while no reply is partly written. -/
def disciplined : HttpConn → List Call → Bool
  | _, [] => true
  | c, .get deal conv sock :: calls =>
    decide (c.wbuf_pos = 0) &&
      (match c.GetRequest deal conv sock with
        | none => true
        | some (_, c1, _) => disciplined c1 calls)
  | c, .send sock :: calls => disciplined (c.SendReply sock).2.1 calls

/-- A handler that answers with the request's path. -/
def echoPath : Handler := fun req _ => { content := req.path }

/-- Driving the connection the way the reactor does while there is something to read:
`GetRequest`, and after `kReadAll` a `SendReply` on a socket that takes the whole reply,
then `GetRequest` again; any other status ends the run.  `rounds` bounds the number of
`GetRequest` calls. -/
def driveReads (deal : Handler) (conv : Str → Option Int) :
    Nat → HttpConn → List ReadEvent → Option HttpConn
  | 0, c, _ => some c
  | rounds + 1, c, sock =>
    match c.GetRequest deal conv sock with
    | none => none
    | some (.kReadAll, c1, sock1) =>
      driveReads deal conv rounds (c1.SendReply [.room c1.wbuf_len]).2.1 sock1
    | some (_, c1, _) => some c1

/-- The write outcomes that are a short or full write, `EAGAIN`, or a fatal error. -/
def WriteEvent.valid : WriteEvent → Prop
  | .room k => 1 ≤ k
  | .again => True
  | .failed => True

/-- Successive `SendReply` calls, one per list of socket events: the connection after
them and all the bytes written, in order. -/
def sendCalls (c : HttpConn) : List (List WriteEvent) → HttpConn × List Char
  | [] => (c, [])
  | ws :: rest =>
    ((sendCalls (c.SendReply ws).2.1 rest).1,
      (c.SendReply ws).2.2.2 ++ (sendCalls (c.SendReply ws).2.1 rest).2)

/-- Form-encoded pairs, step 1 of the reference: drop a final empty segment. -/
def dropFinalEmpty (segs : List Str) : List Str :=
  if segs.getLast? = some [] then segs.dropLast else segs

/-- Form-encoded pairs, step 2 of the reference: a segment is split at its first `=`;
the key is the text before it (the whole segment when there is none), the value the text
after it (empty when there is none); the pair overrides an earlier one with that key. -/
def addSegment (m : StrMap) (seg : Str) : StrMap :=
  mapAssign m (seg.takeWhile (· ≠ '=')) ((seg.dropWhile (· ≠ '=')).drop 1)

/-- The reference for `ParseParameters`: split the text on `&`, drop a final empty
segment, and add the segments to the map from left to right. -/
def formPairs (m : StrMap) (s : Str) : StrMap :=
  (dropFinalEmpty (s.splitOn '&')).foldl addSegment m

/-- Two requests agree on every field but `headers`. -/
def SameButHeaders (r r1 : HttpRequest) : Prop :=
  r1.method = r.method ∧ r1.path = r.path ∧ r1.version = r.version ∧
    r1.query_params = r.query_params ∧ r1.content = r.content

/-- The two states of `ParseHeadLine` that read header lines. -/
def ParseStatus.isParam (st : ParseStatus) : Prop :=
  st = .kHeaderParamKey ∨ st = .kHeaderParamValue

/-- The request after its first line `M SP P SP V` has been read. -/
def withLine (r : HttpRequest) (M P V : Str) : HttpRequest :=
  { r with method := r.method ++ M, path := r.path ++ P, version := r.version ++ V }

/-- The header block `M SP P SP V CRLF tail`. -/
def headBlock (M P V tail : Str) : Str :=
  M ++ ' ' :: (P ++ ' ' :: (V ++ '\r' :: '\n' :: tail))

/-- A bound on the number of passes that `GetRequest` still makes: every pass that does
not return takes bytes from the socket or moves on to the next state. -/
def passRank (c : HttpConn) (sock : List ReadEvent) : Nat :=
  sockBytes sock +
    match c.conn_status with
    | .kHeader => 3
    | .kPacket => 2
    | _ => 1

/-- The bounds that `GetRequest` keeps on the read position: the buffer capacity, and
the header limit while the header is being read. -/
def ReadInv (c : HttpConn) : Prop :=
  c.rbuf_pos ≤ kHttpMaxMessage ∧ (c.conn_status = .kHeader → c.rbuf_pos ≤ kHttpMaxHeader)

/-- The bounds on the write position and the write length. -/
def WriteInv (c : HttpConn) : Prop :=
  c.wbuf_pos ≤ c.wbuf_len ∧ c.wbuf_len ≤ kHttpMaxMessage

/-- What `GetRequest` can do to the write side: `wbuf_pos_` is left alone, `wbuf_len_` is
left alone or set to a length within the buffer. -/
def WriteFrame (c c1 : HttpConn) : Prop :=
  c1.wbuf_pos = c.wbuf_pos ∧ (c1.wbuf_len = c.wbuf_len ∨ c1.wbuf_len ≤ kHttpMaxMessage)

/-- The connection after a new one has read `GET /a HTTP/1.1\r\n\r\n` followed by
`GET /b HTTP/1.1\r\n\r\n` in one `GetRequest` call with the handler `echoPath`. -/
def afterTwoRequests : HttpConn :=
  { conn_status := .kHeader
    rbuf := "GET /a HTTP/1.1\r\n\r\nGET /b HTTP/1.1\r\n\r\n\x00".toList
    rbuf_pos := 0
    wbuf := "/a".toList
    wbuf_len := 2
    wbuf_pos := 0
    header_len := 19
    remain_packet_len := -19
    request :=
      { method := "GET".toList, path := "/a".toList, version := "HTTP/1.1".toList,
        headers := [], query_params := [], content := [] }
    response := { content := "/a".toList }
    is_reply := true
    dealt :=
      [{ method := "GET".toList, path := "/a".toList, version := "HTTP/1.1".toList,
         headers := [], query_params := [], content := [] }] }

/-- The connection after a new one has read, in one `GetRequest` call, a `POST` header
that announces a body of 9000000 bytes. -/
def afterLargePost : HttpConn :=
  { conn_status := .kPacket
    rbuf := "POST /f HTTP/1.1\r\nA: b\r\nContent-Length: 9000000\r\n\r\n\x00".toList
    rbuf_pos := 51
    wbuf := []
    wbuf_len := 0
    wbuf_pos := 0
    header_len := 51
    remain_packet_len := 9000000
    request :=
      { method := "POST".toList, path := "/f".toList, version := "HTTP/1.1".toList,
        headers := [([], "b".toList), ("Content-Length".toList, "9000000".toList)],
        query_params := [], content := [] }
    response := { content := [] }
    is_reply := false
    dealt := [] }

/-- The progress of a reply: `c0` is the connection when the reply was queued, `c` the
connection now and `out` the bytes written since.  `out` is `wbuf[wbuf_pos ..)` of `c0`
up to where `c` stands, and `c` has either bytes left to write or has been reset. -/
def Sent (c0 c : HttpConn) (out : List Char) : Prop :=
  c.wbuf = c0.wbuf ∧ out = slice c0.wbuf c0.wbuf_pos (c0.wbuf_pos + out.length) ∧
    ((c.wbuf_len = c0.wbuf_len ∧ c.wbuf_pos = c0.wbuf_pos + out.length ∧
        c.wbuf_pos < c.wbuf_len) ∨
      (c.wbuf_len = 0 ∧ c.wbuf_pos = 0 ∧ c0.wbuf_pos + out.length = c0.wbuf_len))

/-- The bytes written by the `SendReply` calls `scripts`, then by one more call `ws`. -/
def replyOut (c : HttpConn) (scripts : List (List WriteEvent)) (ws : List WriteEvent) :
    List Char :=
  (sendCalls c scripts).2 ++ ((sendCalls c scripts).1.SendReply ws).2.2.2

/-- The status that the call `ws` returns after the `SendReply` calls `scripts`. -/
def replyStatus (c : HttpConn) (scripts : List (List WriteEvent)) (ws : List WriteEvent) :
    WriteStatus :=
  ((sendCalls c scripts).1.SendReply ws).1

/-- The connection after the `SendReply` calls `scripts` and one more call `ws`. -/
def replyConn (c : HttpConn) (scripts : List (List WriteEvent)) (ws : List WriteEvent) :
    HttpConn :=
  ((sendCalls c scripts).1.SendReply ws).2.1

/-- The state in which the call `ws`, made after the calls `scripts`, leaves its loop: it
holds the result of the last `write`. -/
def replyLoop (c : HttpConn) (scripts : List (List WriteEvent)) (ws : List WriteEvent) :
    HttpConn.SendState :=
  HttpConn.sendLoop (sendCalls c scripts).1 0 [] ws

/-- A connection with the reply `hello world` queued. -/
def helloQueued : HttpConn :=
  { HttpConn.new with wbuf := "hello world".toList, wbuf_len := 11, wbuf_pos := 0 }

/-- A connection whose write position stands at the end of a 5-byte reply. -/
def helloAtEnd : HttpConn :=
  { HttpConn.new with wbuf := "hello".toList, wbuf_len := 5, wbuf_pos := 5 }

/-! ## The reactor thread (`include/holy_thread.h`) -/

/-- The lookup `m.find(k)` in a `std::map`, kept as a list of entries. -/
def tabFind {κ β : Type} [DecidableEq κ] : List (κ × β) → κ → Option β
  | [], _ => none
  | (k1, v1) :: m, k => if k1 = k then some v1 else tabFind m k

/-- The assignment `m[k] = v`: overwrite the entry of `k`, or add one. -/
def tabAssign {κ β : Type} [DecidableEq κ] : List (κ × β) → κ → β → List (κ × β)
  | [], k, v => [(k, v)]
  | (k1, v1) :: m, k, v => if k1 = k then (k, v) :: m else (k1, v1) :: tabAssign m k v

/-- The call `m.erase(k)`. -/
def tabErase {κ β : Type} [DecidableEq κ] (m : List (κ × β)) (k : κ) : List (κ × β) :=
  m.filter (fun e => e.1 ≠ k)

/-- The constant `EPOLLIN` of `<sys/epoll.h>`. -/
def EPOLLIN : Nat := 0x001

/-- The constant `EPOLLOUT` of `<sys/epoll.h>`. -/
def EPOLLOUT : Nat := 0x004

/-- The constant `EPOLLERR` of `<sys/epoll.h>`. -/
def EPOLLERR : Nat := 0x008

/-- The constant `EPOLLHUP` of `<sys/epoll.h>`. -/
def EPOLLHUP : Nat := 0x010

/-- The struct `PinkFiredEvent`: a descriptor and the mask of what fired on it. -/
structure PinkFiredEvent where
  fd : Int
  mask : Nat
deriving DecidableEq, Repr

/-- Modelled from the spec: the class `PinkEpoll` is declared in `src/pink_epoll.h`, which
is not among the source files.  The demultiplexer is the table of the watched descriptors,
each with its interest mask. -/
abbrev PinkEpoll := List (Int × Nat)

/-- Modelled from the spec: `PinkEpoll::PinkAddEvent`, not among the source files.
`Add(fd, mask)` registers the descriptor with the interest `mask`. -/
def PinkAddEvent (ep : PinkEpoll) (fd : Int) (mask : Nat) : PinkEpoll :=
  tabAssign ep fd mask

/-- Modelled from the spec: `PinkEpoll::PinkModEvent`, not among the source files.
`Mod(fd, add_mask, new_mask)` sets the interest of a watched descriptor to the two masks
together (`HandleConnEvent` passes 0 for the first: "mod the descriptor's interest to
`WRITABLE`", "mod interest back to `READABLE`"); a descriptor that is not watched stays
unwatched. -/
def PinkModEvent (ep : PinkEpoll) (fd : Int) (old_mask mask : Nat) : PinkEpoll :=
  match tabFind ep fd with
  | none => ep
  | some _ => tabAssign ep fd (old_mask ||| mask)

/-- Modelled from the spec: `PinkEpoll::PinkDelEvent`, not among the source files.
`Del(fd)` unregisters the descriptor. -/
def PinkDelEvent (ep : PinkEpoll) (fd : Int) : PinkEpoll :=
  tabErase ep fd

/-- Modelled from the spec: `PinkEpoll::PinkPoll`, the wait of the demultiplexer, is not
among the source files.  Whether the wait can report the event `pfe`: "Interest mask bits
are `READABLE` and `WRITABLE`; `ERROR` and `HANGUP` are always reported if present", and
the interest mask is "the set of conditions for which the demultiplexer will report a
descriptor".  So the descriptor is watched, the mask has `EPOLLIN` only if the interest of
the descriptor has it, and `EPOLLOUT` likewise; any other bit may come with any
interest. -/
def PinkPoll (ep : PinkEpoll) (pfe : PinkFiredEvent) : Bool :=
  match tabFind ep pfe.fd with
  | none => false
  | some interest =>
    (decide (pfe.mask &&& EPOLLIN = 0) || decide (interest &&& EPOLLIN ≠ 0)) &&
      (decide (pfe.mask &&& EPOLLOUT = 0) || decide (interest &&& EPOLLOUT ≠ 0))

/-- The class `HolyThread<HttpConn>` and the process state that its handlers act on.
`conns_` maps a descriptor to the address of its connection object (a `void *`; 0 is
`NULL`), `pink_epoll_` is the demultiplexer of the base class `ServerThread`.  Not fields
of the class: `heap` holds the connection objects that were allocated with `new` and not
deleted since, by address; `allocs` counts the allocations (the next object gets the
address `allocs + 1`); `fds` lists the descriptors of accepted connections that are
open.  The lock `rwlock_` is left out: the handlers run on the one reactor thread. -/
structure HolyThread where
  conns_ : List (Int × Nat)
  pink_epoll_ : PinkEpoll
  heap : List (Nat × HttpConn)
  allocs : Nat
  fds : List Int
deriving DecidableEq, Repr

/-- What the outside does during one `HandleConnEvent`: the user hook `DealMessage`,
`slash::string2l`, and what the `read`s and the `write`s on the descriptor find. -/
structure ConnIO where
  deal : Handler
  conv : Str → Option Int
  reads : List ReadEvent
  writes : List WriteEvent

/-- The call `close(fd)`; closing a descriptor that is not open changes nothing
(`EBADF`). -/
def closeFd (fds : List Int) (fd : Int) : List Int :=
  fds.filter (fun x => x ≠ fd)

/-- The expression `delete(in_conn)`: nothing happens for `NULL`, the object at a live
address is destroyed, and deleting any other address is undefined (`none`). -/
def deleteConn (heap : List (Nat × HttpConn)) (in_conn : Nat) : Option (List (Nat × HttpConn)) :=
  if in_conn = 0 then some heap
  else
    match tabFind heap in_conn with
    | none => none
    | some _ => some (tabErase heap in_conn)

namespace HolyThread

/-- The thread after its constructor: no connection yet. -/
def new : HolyThread :=
  { conns_ := [], pink_epoll_ := [], heap := [], allocs := 0, fds := [] }

/-- Modelled from the spec: the accept loop belongs to `ServerThread`
(`src/server_thread.h`), which is not among the source files.  `accept` yields a
descriptor that was not open and is open from now on; a descriptor that is open cannot
be the result (`none`). -/
def accept (t : HolyThread) (fd : Int) : Option HolyThread :=
  if fd ∈ t.fds then none else some { t with fds := fd :: t.fds }

/-- The method `HolyThread::HandleNewConn(connfd, ip_port)`: `new Conn(...)`,
`conns_[connfd] = tc` and `PinkAddEvent(connfd, EPOLLIN)`. -/
def HandleNewConn (t : HolyThread) (connfd : Int) : HolyThread :=
  let tc := t.allocs + 1
  { t with
    allocs := tc
    heap := tabAssign t.heap tc HttpConn.new
    conns_ := tabAssign t.conns_ connfd tc
    pink_epoll_ := PinkAddEvent t.pink_epoll_ connfd EPOLLIN }

/-- The state of `HandleConnEvent` between two of its `if` statements: the thread and the
locals `in_conn` and `should_close`. -/
structure EventState where
  t : HolyThread
  in_conn : Nat
  should_close : Int
deriving DecidableEq, Repr

/-- How a part of `HandleConnEvent` ends: with `return`, or by going on to the next
statement. -/
inductive Flow
  | ret (t : HolyThread)
  | go (s : EventState)
deriving DecidableEq, Repr

/-- The statement `if (pfe->mask & EPOLLIN) { ... }` of `HandleConnEvent`; `p` is
`iter->second`.  `none`: `GetRequest` does not return, or `p` holds no object. -/
def readPart (s : EventState) (pfe : PinkFiredEvent) (p : Nat) (io : ConnIO) : Option Flow :=
  if pfe.mask &&& EPOLLIN ≠ 0 then
    match tabFind s.t.heap p with
    | none => none
    | some in_conn =>
      match in_conn.GetRequest io.deal io.conv io.reads with
      | none => none
      | some (getRes, c1, _) =>
        let t1 := { s.t with heap := tabAssign s.t.heap p c1 }
        if getRes ≠ .kReadAll ∧ getRes ≠ .kReadHalf then
          some (.go { t := t1, in_conn := p, should_close := 1 })
        else if c1.is_reply then
          some (.go
            { t := { t1 with pink_epoll_ := PinkModEvent t1.pink_epoll_ pfe.fd 0 EPOLLOUT },
              in_conn := p, should_close := s.should_close })
        else some (.ret t1)
  else some (.go s)

/-- The statement `if (pfe->mask & EPOLLOUT) { ... }` of `HandleConnEvent`; `p` is
`iter->second`.  `none`: `p` holds no object. -/
def writePart (s : EventState) (pfe : PinkFiredEvent) (p : Nat) (io : ConnIO) : Option Flow :=
  if pfe.mask &&& EPOLLOUT ≠ 0 then
    match tabFind s.t.heap p with
    | none => none
    | some in_conn =>
      let c1 := (in_conn.SendReply io.writes).2.1
      match (in_conn.SendReply io.writes).1 with
      | .kWriteAll =>
        some (.go
          { t := { s.t with
                   heap := tabAssign s.t.heap p { c1 with is_reply := false }
                   pink_epoll_ := PinkModEvent s.t.pink_epoll_ pfe.fd 0 EPOLLIN },
            in_conn := p, should_close := s.should_close })
      | .kWriteHalf => some (.ret { s.t with heap := tabAssign s.t.heap p c1 })
      | .kWriteError =>
        some (.go
          { t := { s.t with heap := tabAssign s.t.heap p c1 }, in_conn := p, should_close := 1 })
  else some (.go s)

/-- The last statement of `HandleConnEvent`: `PinkDelEvent`, `close`, `delete(in_conn)`
and `conns_.erase` when the mask has `EPOLLERR` or `EPOLLHUP` or `should_close` is set. -/
def closePart (s : EventState) (pfe : PinkFiredEvent) : Option HolyThread :=
  if pfe.mask &&& EPOLLERR ≠ 0 ∨ pfe.mask &&& EPOLLHUP ≠ 0 ∨ s.should_close ≠ 0 then
    match deleteConn s.t.heap s.in_conn with
    | none => none
    | some heap =>
      some { s.t with
        pink_epoll_ := PinkDelEvent s.t.pink_epoll_ pfe.fd
        fds := closeFd s.t.fds pfe.fd
        heap := heap
        conns_ := tabErase s.t.conns_ pfe.fd }
  else some s.t

/-- The method `HolyThread::HandleConnEvent(pfe)`; `pfe` is `none` for `NULL`.  The
result is `none` when the call does not return normally. -/
def HandleConnEvent (t : HolyThread) (pfe : Option PinkFiredEvent) (io : ConnIO) :
    Option HolyThread :=
  match pfe with
  | none => some t
  | some pfe =>
    match tabFind t.conns_ pfe.fd with
    | none => some { t with pink_epoll_ := PinkDelEvent t.pink_epoll_ pfe.fd }
    | some p =>
      match readPart { t := t, in_conn := 0, should_close := 0 } pfe p io with
      | none => none
      | some (.ret t1) => some t1
      | some (.go s1) =>
        match writePart s1 pfe p io with
        | none => none
        | some (.ret t2) => some t2
        | some (.go s2) => closePart s2 pfe

end HolyThread

/-- A call that the server loop makes on the thread: a new connection (`accept` yields
`connfd`, then `HandleNewConn`), or `HandleConnEvent` on a fired event. -/
inductive ThreadCall
  | newConn (connfd : Int)
  | connEvent (pfe : Option PinkFiredEvent) (io : ConnIO)

/-- The thread after a sequence of calls of the server loop; `none` when a call does not
return, or when `accept` is asked for a descriptor that is open. -/
def runThread : HolyThread → List ThreadCall → Option HolyThread
  | t, [] => some t
  | t, .newConn connfd :: calls =>
    match t.accept connfd with
    | none => none
    | some t1 => runThread (t1.HandleNewConn connfd) calls
  | t, .connEvent pfe io :: calls =>
    match t.HandleConnEvent pfe io with
    | none => none
    | some t1 => runThread t1 calls

/-- No reads and no writes pending: every `read` and `write` would block. -/
def quietIO : ConnIO :=
  { deal := echoPath, conv := string2l, reads := [], writes := [] }

/-- The invariant of the reactor thread.  Every registered address is a live object, two
descriptors never share an object, a descriptor is registered exactly when it is watched
and exactly when it is open, and the interest of a registered descriptor follows the
`is_reply` flag of its connection. -/
structure ThreadInv (t : HolyThread) : Prop where
  live : ∀ fd p, tabFind t.conns_ fd = some p →
    p ≠ 0 ∧ p ≤ t.allocs ∧ ∃ c, tabFind t.heap p = some c
  apart : ∀ fd1 fd2 p, tabFind t.conns_ fd1 = some p → tabFind t.conns_ fd2 = some p →
    fd1 = fd2
  watched : ∀ fd, (tabFind t.conns_ fd).isSome ↔ (tabFind t.pink_epoll_ fd).isSome
  opened : ∀ fd, (tabFind t.conns_ fd).isSome ↔ fd ∈ t.fds
  interest : ∀ fd p c, tabFind t.conns_ fd = some p → tabFind t.heap p = some c →
    tabFind t.pink_epoll_ fd = some (if c.is_reply then EPOLLOUT else EPOLLIN)

/-- A request whose fields are all empty. -/
def HttpRequest.blank : HttpRequest :=
  { method := [], path := [], version := [], headers := [], query_params := [], content := [] }

/-- A request that was used before: a `POST` with the body `x=1`. -/
def usedRequest : HttpRequest :=
  { method := "POST".toList, path := "/f".toList, version := "HTTP/1.1".toList,
    headers := [("Content-Length".toList, "3".toList)],
    query_params := [("x".toList, "1".toList)], content := "x=1".toList }

/-- The value that `BuildRequestHeader` reads for the `Content-Length` entry of the
headers: 0 when there is no such entry, and `none` when `slash::string2l` cannot convert
the entry (`remain_packet_len_` then keeps whatever it held). -/
def declaredLength (conv : Str → Option Int) (headers : StrMap) : Option Int :=
  match mapFind headers "Content-Length".toList with
  | none => some 0
  | some v => conv v

/-- The connection and the socket after `n` passes through the loop of `GetRequest`, none
of which returned (`none` when one of them returns or does not come back). -/
def afterPasses (deal : Handler) (conv : Str → Option Int) :
    Nat → HttpConn → List ReadEvent → Option (HttpConn × List ReadEvent)
  | 0, c, sock => some (c, sock)
  | n + 1, c, sock =>
    match HttpConn.getPass deal conv c sock with
    | .next c1 sock1 => afterPasses deal conv n c1 sock1
    | _ => none

/-- Whether every `GetRequest` call of a sequence converts `Content-Length` with `conv`
(in the program it is always `slash::string2l`). -/
def usesConv (conv : Str → Option Int) : List Call → Prop
  | [] => True
  | .get _ conv1 _ :: calls => conv1 = conv ∧ usesConv conv calls
  | .send _ :: calls => usesConv conv calls

/-- What holds of the body length once the header has been parsed (`kPacket`), and of
the body once `BuildRequestBody` has returned (`kComplete`). -/
def BodyInv (conv : Str → Option Int) (c : HttpConn) : Prop :=
  (c.conn_status = .kPacket ∨ c.conn_status = .kComplete) →
    c.header_len ≤ c.rbuf_pos ∧
    (∀ N, declaredLength conv c.request.headers = some N →
      (c.rbuf_pos : Int) + c.remain_packet_len - (c.header_len : Int) = N) ∧
    (c.conn_status = .kComplete →
      c.remain_packet_len ≤ 0 ∧
      0 ≤ longToInt32 ((c.rbuf_pos : Int) + c.remain_packet_len - (c.header_len : Int)) ∧
      c.request.content = slice c.rbuf c.header_len
        (c.header_len +
          (longToInt32 ((c.rbuf_pos : Int) + c.remain_packet_len - (c.header_len : Int))).toNat))

/-- A handler that answers every request with `ok`. -/
def replyOk : Handler := fun _ _ => { content := "ok".toList }

/-- The connection after a new one has read the header
`POST /f HTTP/1.1\r\nHost: x\r\nContent-Length: 7\r\n\r\n` and found the socket empty:
7 body bytes are awaited. -/
def afterPostHeader : HttpConn :=
  { HttpConn.new with
    conn_status := .kPacket
    rbuf := "POST /f HTTP/1.1\r\nHost: x\r\nContent-Length: 7\r\n\r\n\x00".toList
    rbuf_pos := 48
    header_len := 48
    remain_packet_len := 7
    request :=
      { method := "POST".toList, path := "/f".toList, version := "HTTP/1.1".toList,
        headers := [("ost".toList, "x".toList), ("Content-Length".toList, "7".toList)],
        query_params := [], content := [] } }

/-- The connection `afterPostHeader` after the pass of `GetRequest` that reads the body
`x=1&y=2` and calls `BuildRequestBody`. -/
def afterPostBody : HttpConn :=
  { afterPostHeader with
    conn_status := .kComplete
    rbuf := "POST /f HTTP/1.1\r\nHost: x\r\nContent-Length: 7\r\n\r\nx=1&y=2".toList
    rbuf_pos := 55
    remain_packet_len := 0
    request :=
      { afterPostHeader.request with
        query_params := [("x".toList, "1".toList), ("y".toList, "2".toList)],
        content := "x=1&y=2".toList } }

/-- The connection after a new one has read the same header and body in one `read` and
has parsed the header: the 7 body bytes are there. -/
def afterPostRead : HttpConn :=
  { afterPostHeader with
    rbuf := "POST /f HTTP/1.1\r\nHost: x\r\nContent-Length: 7\r\n\r\nx=1&y=2\x00".toList
    rbuf_pos := 55
    remain_packet_len := 0 }

/-- The connection after a new one has read 64 KiB of `a`, which hold no `\r\n\r\n`: the
header part of the buffer is full. -/
def fullHeaderBuffer : HttpConn :=
  { HttpConn.new with
    rbuf := List.replicate kHttpMaxHeader 'a' ++ ['\x00'], rbuf_pos := kHttpMaxHeader }

/-! ## The request parser -/

section Parser

open HttpRequest

theorem mapFind_mapAssign (m : StrMap) (k v k1 : Str) :
    mapFind (mapAssign m k v) k1 = if k = k1 then some v else mapFind m k1 := by
  induction m with
  | nil => simp [mapAssign, mapFind]
  | cons kv m ih =>
    obtain ⟨a, b⟩ := kv
    by_cases h : a = k
    · subst h
      by_cases h1 : a = k1 <;> simp [mapAssign, mapFind, h1]
    · by_cases h1 : a = k1
      · subst h1
        simp [mapAssign, mapFind, h, Ne.symm h]
      · simp [mapAssign, mapFind, h, h1, ih]

theorem takeWhile_take_len (p : Char → Bool) (t : List Char) (e : Nat) :
    (t.take e).takeWhile p = t.take (min e (t.takeWhile p).length) := by
  induction t generalizing e with
  | nil => simp
  | cons x xs ih =>
    cases e with
    | zero => simp
    | succ e =>
      by_cases hx : p x
      · simp [List.takeWhile_cons, hx, ih, List.take_succ_cons, Nat.succ_min_succ]
      · simp [List.takeWhile_cons, hx]

theorem dropWhile_take_len (p : Char → Bool) (t : List Char) (e : Nat) :
    ((t.take e).dropWhile p).drop 1 =
      if e ≤ (t.takeWhile p).length then []
      else (t.drop ((t.takeWhile p).length + 1)).take (e - (t.takeWhile p).length - 1) := by
  induction t generalizing e with
  | nil => simp
  | cons x xs ih =>
    cases e with
    | zero => simp
    | succ e =>
      by_cases hx : p x
      · simp [List.takeWhile_cons, List.dropWhile_cons, hx, ih]
      · simp [List.takeWhile_cons, List.dropWhile_cons, hx]

theorem split_first (c : Char) (t : List Char) (h : c ∈ t) :
    ∃ A rest, t = A ++ c :: rest ∧ c ∉ A := by
  induction t with
  | nil => simp at h
  | cons x xs ih =>
    by_cases hx : x = c
    · exact ⟨[], xs, by simp [hx], by simp⟩
    · have hc : c ∈ xs := by
        rcases List.mem_cons.mp h with h1 | h1
        · exact absurd h1.symm hx
        · exact h1
      obtain ⟨A, rest, hA, hn⟩ := ih hc
      refine ⟨x :: A, rest, by simp [hA], ?_⟩
      simp only [List.mem_cons, not_or]
      exact ⟨fun h2 => hx h2.symm, hn⟩

theorem takeWhile_ne_self (c : Char) (A : List Char) (h : c ∉ A) :
    A.takeWhile (· ≠ c) = A := by
  rw [List.takeWhile_eq_self_iff]
  intro x hx
  simp only [ne_eq, decide_eq_true_eq]
  rintro rfl
  exact h hx

theorem takeWhile_ne_append (c : Char) (A rest : List Char) (h : c ∉ A) :
    (A ++ c :: rest).takeWhile (· ≠ c) = A := by
  induction A with
  | nil => simp
  | cons x xs ih =>
    simp only [List.mem_cons, not_or] at h
    have hx : x ≠ c := fun h2 => h.1 h2.symm
    have := ih h.2
    simp only [List.cons_append, List.takeWhile_cons, ne_eq, hx, not_false_eq_true,
      decide_True, if_true, this]

theorem strFind_getD (data : Str) (c : Char) (pre : Nat) (h : pre ≤ data.length) :
    (strFind data c pre).getD data.length
      = pre + ((data.drop pre).takeWhile (· ≠ c)).length := by
  unfold strFind
  split
  · simp
  · rename_i hc
    rw [takeWhile_ne_self c _ hc]
    simp
    omega

theorem formPairs_nil (m : StrMap) : formPairs m [] = m := by
  simp [formPairs, dropFinalEmpty, List.splitOn]

theorem dropFinalEmpty_cons (a : Str) (l : List Str) (h : l ≠ []) :
    dropFinalEmpty (a :: l) = a :: dropFinalEmpty l := by
  cases l with
  | nil => exact absurd rfl h
  | cons b l =>
    unfold dropFinalEmpty
    rw [List.getLast?_cons_cons]
    split <;> simp [List.dropLast]

theorem formPairs_amp (m : StrMap) (A rest : Str) (hA : '&' ∉ A) :
    formPairs m (A ++ '&' :: rest) = formPairs (addSegment m A) rest := by
  have hp : ∀ x ∈ A, ¬ ((· == '&') x) = true := by
    intro x hx hx2
    simp only [beq_iff_eq] at hx2
    exact hA (hx2 ▸ hx)
  simp only [formPairs, List.splitOn]
  rw [List.splitOnP_first _ A hp '&' (by simp)]
  rw [dropFinalEmpty_cons _ _ (List.splitOnP_ne_nil _ _)]
  simp

theorem formPairs_last (m : StrMap) (A : Str) (hA : '&' ∉ A) (hne : A ≠ []) :
    formPairs m A = addSegment m A := by
  have hp : ∀ x ∈ A, ¬ ((· == '&') x) = true := by
    intro x hx hx2
    simp only [beq_iff_eq] at hx2
    exact hA (hx2 ▸ hx)
  simp only [formPairs, List.splitOn]
  rw [List.splitOnP_eq_single _ A hp]
  simp [dropFinalEmpty, hne]

theorem formPairs_step (m : StrMap) (t : Str) (h : t ≠ []) :
    formPairs m t = formPairs (addSegment m (t.takeWhile (· ≠ '&')))
      (t.drop ((t.takeWhile (· ≠ '&')).length + 1)) := by
  by_cases hc : '&' ∈ t
  · obtain ⟨A, rest, rfl, hA⟩ := split_first '&' t hc
    rw [takeWhile_ne_append '&' A rest hA, formPairs_amp m A rest hA]
    congr 1
    rw [← List.drop_drop]
    simp
  · rw [takeWhile_ne_self '&' t hc, formPairs_last m t hc h]
    rw [List.drop_eq_nil_of_le (Nat.le_succ _), formPairs_nil]

theorem takeWhile_eq_take (p : Char → Bool) (t : List Char) :
    t.takeWhile p = t.take (t.takeWhile p).length :=
  List.prefix_iff_eq_take.mp (List.takeWhile_prefix p)

theorem paramLoop_body (data : Str) (pre : Nat) (qp : StrMap) (h : pre ≤ data.length) :
    (if (strFind data '&' pre).getD data.length ≤ (strFind data '=' pre).getD data.length then
        mapAssign qp (substr data pre ((strFind data '&' pre).getD data.length - pre)) []
      else
        mapAssign qp (substr data pre ((strFind data '=' pre).getD data.length - pre))
          (substr data ((strFind data '=' pre).getD data.length + 1)
            ((strFind data '&' pre).getD data.length
              - (strFind data '=' pre).getD data.length - 1)))
      = addSegment qp ((data.drop pre).takeWhile (· ≠ '&')) := by
  rw [strFind_getD data '&' pre h, strFind_getD data '=' pre h]
  generalize ht : data.drop pre = t
  have hd : ∀ k, data.drop (pre + k) = t.drop k := by
    intro k
    rw [← ht, List.drop_drop, Nat.add_comm]
  generalize he : (t.takeWhile (· ≠ '&')).length = e
  have hA : t.takeWhile (· ≠ '&') = t.take e := by
    rw [← he]; exact takeWhile_eq_take _ t
  rw [hA]
  unfold addSegment
  rw [takeWhile_take_len, dropWhile_take_len]
  generalize (t.takeWhile (· ≠ '=')).length = mm
  have h0 := hd 0
  simp only [Nat.add_zero, List.drop_zero] at h0
  unfold substr
  by_cases hem : e ≤ mm
  · have h1 : pre + e ≤ pre + mm := by omega
    rw [if_pos h1, if_pos hem, h0, Nat.min_eq_left hem, Nat.add_sub_cancel_left]
  · have h1 : ¬ pre + e ≤ pre + mm := by omega
    have h2 : min e mm = mm := by omega
    have h3 : pre + e - (pre + mm) - 1 = e - mm - 1 := by omega
    rw [if_neg h1, if_neg hem, h0, h2, Nat.add_sub_cancel_left, Nat.add_assoc, hd, h3]

theorem paramLoop_eq (data : Str) :
    ∀ (fuel pre : Nat) (qp : StrMap), data.length + 1 ≤ fuel + pre →
      paramLoop data fuel pre qp = some (formPairs qp (data.drop pre)) := by
  intro fuel
  induction fuel with
  | zero =>
    intro pre qp h
    have h1 : ¬ pre < data.length := by omega
    simp only [paramLoop, if_neg h1]
    rw [List.drop_eq_nil_of_le (by omega), formPairs_nil]
  | succ fuel ih =>
    intro pre qp h
    by_cases hp : pre < data.length
    · have hne : data.drop pre ≠ [] := by
        intro h0
        have := List.drop_eq_nil_iff.mp h0
        omega
      have hbody := paramLoop_body data pre qp (Nat.le_of_lt hp)
      have hend := strFind_getD data '&' pre (Nat.le_of_lt hp)
      rw [formPairs_step qp _ hne, ← hbody]
      simp only [paramLoop, if_pos hp]
      have hle : (data.drop pre).length = data.length - pre := List.length_drop _ _
      have hlen : ((data.drop pre).takeWhile (· ≠ '&')).length ≤ data.length - pre := by
        rw [← hle]
        exact (List.takeWhile_prefix _).length_le
      split
      · rw [ih _ _ (by omega), hend, List.drop_drop, Nat.add_assoc]
      · rw [ih _ _ (by omega), hend, List.drop_drop, Nat.add_assoc]
    · simp only [paramLoop, if_neg hp]
      rw [List.drop_eq_nil_of_le (by omega), formPairs_nil]

theorem ParseParameters_eq (req : HttpRequest) (data : Str) (line_start : Nat) :
    ParseParameters req data line_start
      = some (true,
          { req with query_params := formPairs req.query_params (data.drop line_start) }) := by
  unfold ParseParameters
  rw [paramLoop_eq data _ _ _ (by omega)]

theorem peek_append_left (a b : List Char) (i : Nat) (h : i < a.length) :
    peek (a ++ b) i = a.getD i '\x00' := by
  unfold peek
  simp [List.getD_eq_getElem?_getD, List.getElem?_append_left h]

theorem peek_append_right (a b : List Char) (i : Nat) :
    peek (a ++ b) (a.length + i) = peek b i := by
  unfold peek
  simp [List.getD_eq_getElem?_getD, List.getElem?_append_right]

theorem peek_beyond (data : List Char) (i : Nat) (h : data.length ≤ i) :
    peek data i = '\x00' := by
  unfold peek
  simp [List.getD_eq_getElem?_getD, List.getElem?_eq_none h]

theorem slice_succ (data : List Char) (lo hi : Nat) (h : lo ≤ hi) :
    slice data lo (hi + 1) = slice data lo hi ++ [peek data hi] := by
  unfold slice
  have h1 : hi + 1 - lo = (hi - lo) + 1 := by omega
  rw [h1, List.range'_concat, List.map_append]
  simp
  congr 1
  omega

theorem slice_append_left (a b : List Char) : slice (a ++ b) 0 a.length = a := by
  induction a using List.reverseRecOn generalizing b with
  | nil => simp [slice]
  | append_singleton a x ih =>
    rw [List.length_append, List.length_singleton, slice_succ _ _ _ (Nat.zero_le _),
      List.append_assoc, ih]
    have := peek_append_right a ([x] ++ b) 0
    simp only [Nat.add_zero] at this
    rw [this]
    simp [peek]

theorem find_lf_le (data : List Char) (start n : Nat) : find_lf data start n ≤ n := by
  induction n generalizing start with
  | zero => simp [find_lf]
  | succ n ih =>
    unfold find_lf
    split
    · omega
    · have := ih (start + 1)
      omega

theorem find_lf_beyond (data : List Char) (start n : Nat) (h : data.length ≤ start) :
    find_lf data start n = n := by
  induction n generalizing start with
  | zero => simp [find_lf]
  | succ n ih =>
    unfold find_lf
    rw [peek_beyond data start h, if_neg (by decide), ih (start + 1) (by omega)]

theorem find_lf_first (data : List Char) (k : Nat) :
    ∀ (start n : Nat), (∀ i, i < k → peek data (start + i) ≠ '\n') →
      peek data (start + k) = '\n' → k < n → find_lf data start n = k := by
  induction k with
  | zero =>
    intro start n _ hk hn
    cases n with
    | zero => omega
    | succ n =>
      unfold find_lf
      rw [if_pos (by simpa using hk)]
  | succ k ih =>
    intro start n hlt hk hn
    cases n with
    | zero => omega
    | succ n =>
      unfold find_lf
      have h0 := hlt 0 (by omega)
      simp only [Nat.add_zero] at h0
      rw [if_neg h0, ih (start + 1) n ?_ ?_ (by omega)]
      · intro i hi
        have := hlt (i + 1) (by omega)
        rwa [show start + (i + 1) = start + 1 + i by omega] at this
      · rwa [show start + (k + 1) = start + 1 + k by omega] at hk

theorem find_lf_append (a b : List Char) (n : Nat) (ha : '\n' ∉ a) (hn : a.length < n) :
    find_lf (a ++ '\n' :: b) 0 n = a.length := by
  apply find_lf_first
  · intro i hi
    rw [Nat.zero_add, peek_append_left _ _ _ hi]
    intro h
    apply ha
    rw [← h, List.getD_eq_getElem _ _ hi]
    exact List.getElem_mem _
  · have := peek_append_right a ('\n' :: b) 0
    simp only [Nat.add_zero] at this
    rw [Nat.zero_add, this]
    simp [peek]
  · exact hn

theorem lineLoop_append (s s1 : LineState) (a b : List Char) (h : lineLoop s a = (true, s1)) :
    lineLoop s (a ++ b) = lineLoop s1 b := by
  induction a generalizing s with
  | nil =>
    simp only [lineLoop, Prod.mk.injEq, true_and] at h
    rw [List.nil_append, h]
  | cons c a ih =>
    simp only [List.cons_append, lineLoop] at h ⊢
    cases hstep : lineStep s c with
    | mk ok s2 =>
      rw [hstep] at h
      cases ok with
      | false => cases h
      | true => exact ih s2 h

theorem lineLoop_method (k v : Str) (r : HttpRequest) (m : Str) (hm : ' ' ∉ m) :
    lineLoop ⟨.kHeaderMethod, k, v, r⟩ m
      = (true, ⟨.kHeaderMethod, k, v, { r with method := r.method ++ m }⟩) := by
  induction m generalizing r with
  | nil => simp [lineLoop]
  | cons c m ih =>
    simp only [List.mem_cons, not_or] at hm
    have hc : c ≠ ' ' := fun h => hm.1 h.symm
    simp only [lineLoop, lineStep, ne_eq, hc, not_false_eq_true, if_true]
    rw [ih _ hm.2]
    simp

theorem lineLoop_path (k v : Str) (r : HttpRequest) (p : Str) (hp : ' ' ∉ p) :
    lineLoop ⟨.kHeaderPath, k, v, r⟩ p
      = (true, ⟨.kHeaderPath, k, v, { r with path := r.path ++ p }⟩) := by
  induction p generalizing r with
  | nil => simp [lineLoop]
  | cons c p ih =>
    simp only [List.mem_cons, not_or] at hp
    have hc : c ≠ ' ' := fun h => hp.1 h.symm
    simp only [lineLoop, lineStep, ne_eq, hc, not_false_eq_true, if_true]
    rw [ih _ hp.2]
    simp

theorem lineLoop_version (k v : Str) (r : HttpRequest) (w : Str) (h1 : '\r' ∉ w)
    (h2 : '\n' ∉ w) :
    lineLoop ⟨.kHeaderVersion, k, v, r⟩ w
      = (true, ⟨.kHeaderVersion, k, v, { r with version := r.version ++ w }⟩) := by
  induction w generalizing r with
  | nil => simp [lineLoop]
  | cons c w ih =>
    simp only [List.mem_cons, not_or] at h1 h2
    have hc1 : c ≠ '\r' := fun h => h1.1 h.symm
    have hc2 : c ≠ '\n' := fun h => h2.1 h.symm
    simp only [lineLoop, lineStep, ne_eq, hc1, hc2, not_false_eq_true, and_self, if_true]
    rw [ih _ h1.2 h2.2]
    simp

theorem lineStep_param (s : LineState) (c : Char) (h : s.status.isParam) :
    ∃ s1, lineStep s c = (true, s1) ∧ s1.status.isParam ∧ SameButHeaders s.req s1.req := by
  obtain ⟨st, k, v, r⟩ := s
  rcases h with h | h <;> simp only at h <;> subst h <;> simp only [lineStep] <;>
    split_ifs <;>
    exact ⟨_, rfl, by simp [ParseStatus.isParam], by simp [SameButHeaders]⟩

theorem lineLoop_param (cs : List Char) :
    ∀ s : LineState, s.status.isParam →
      ∃ s1, lineLoop s cs = (true, s1) ∧ s1.status.isParam ∧ SameButHeaders s.req s1.req := by
  induction cs with
  | nil =>
    intro s h
    exact ⟨s, rfl, h, by simp [SameButHeaders]⟩
  | cons c cs ih =>
    intro s h
    obtain ⟨s1, h1, h2, h3⟩ := lineStep_param s c h
    obtain ⟨s2, h4, h5, h6⟩ := ih s1 h2
    refine ⟨s2, by simp [lineLoop, h1, h4], h5, ?_⟩
    unfold SameButHeaders at *
    simp_all

theorem ParseHeadLine_param (req : HttpRequest) (data : List Char) (ls le : Int)
    (st : ParseStatus) (h : st.isParam) :
    ∃ st1 r, ParseHeadLine req data ls le st = (true, st1, r) ∧ st1.isParam ∧
      SameButHeaders req r := by
  obtain ⟨s1, h1, h2, h3⟩ := lineLoop_param (slice data ls.toNat (le + 1).toNat)
    ⟨st, [], [], req⟩ h
  exact ⟨s1.status, s1.req, by simp [ParseHeadLine, h1], h2, h3⟩

theorem headLoop_param (data : List Char) :
    ∀ (fuel : Nat) (remain ls le : Int) (st : ParseStatus) (req : HttpRequest),
      st.isParam → ls = le + 1 → 0 ≤ ls →
      (remain ≤ 4 ∨ (1 ≤ fuel ∧ (data.length : Int) + 1 ≤ fuel + ls)) →
      ∃ r, headLoop data fuel remain ls le st req = some (true, r) ∧ SameButHeaders req r := by
  intro fuel
  induction fuel with
  | zero =>
    intro remain ls le st req _ _ _ h
    have h4 : ¬ remain > 4 := by omega
    exact ⟨req, by simp [headLoop, h4], by simp [SameButHeaders]⟩
  | succ fuel ih =>
    intro remain ls le st req hst hls h0 h
    by_cases h4 : remain > 4
    · have hf : (data.length : Int) + 1 ≤ (fuel + 1 : Nat) + ls := by omega
      obtain ⟨st1, r1, hp, hst1, hsame⟩ := ParseHeadLine_param req data ls
        (le + (find_lf data ls.toNat remain.toNat : Nat) + 1) st hst
      have hle := find_lf_le data ls.toNat remain.toNat
      have hcond : remain - (le + (find_lf data ls.toNat remain.toNat : Nat) + 1 - ls) ≤ 4 ∨
          (1 ≤ fuel ∧ (data.length : Int) + 1
            ≤ fuel + (le + (find_lf data ls.toNat remain.toNat : Nat) + 1 + 1)) := by
        by_cases hb : data.length ≤ ls.toNat
        · left
          rw [find_lf_beyond data _ _ hb]
          omega
        · right
          omega
      obtain ⟨r, hr, hsame2⟩ := ih (remain - (le + (find_lf data ls.toNat remain.toNat : Nat) + 1 - ls))
        (le + (find_lf data ls.toNat remain.toNat : Nat) + 1 + 1)
        (le + (find_lf data ls.toNat remain.toNat : Nat) + 1) st1 r1 hst1 rfl (by omega) hcond
      refine ⟨r, ?_, ?_⟩
      · have hnlt : ¬ (le + (find_lf data ls.toNat remain.toNat : Nat) + 1 < ls) := by omega
        simp only [headLoop, if_pos h4, if_neg hnlt, hp, hr]
      · unfold SameButHeaders at *
        simp_all
    · exact ⟨req, by simp [headLoop, h4], by simp [SameButHeaders]⟩

theorem lineLoop_singleton (s : LineState) (x : Char) : lineLoop s [x] = lineStep s x := by
  simp only [lineLoop]
  split <;> (rename_i heq; rw [heq])

theorem lineLoop_crlf (k v : Str) (r : HttpRequest) (x : Char) :
    lineLoop ⟨.kHeaderVersion, k, v, r⟩ ['\r', '\n', x]
      = lineStep ⟨.kHeaderParamKey, k, v, r⟩ x := by
  have e1 : ('\r' : Char) ≠ '\n' := by decide
  rw [← lineLoop_singleton]
  simp only [lineLoop, lineStep, ne_eq, not_true_eq_false, false_and, and_false, if_false, e1,
    if_true]

theorem lineLoop_space_path (k v : Str) (r : HttpRequest) (cs : List Char) :
    lineLoop ⟨.kHeaderMethod, k, v, r⟩ (' ' :: cs) = lineLoop ⟨.kHeaderPath, k, v, r⟩ cs := by
  simp only [lineLoop, lineStep, ne_eq, not_true_eq_false, if_false]

theorem lineLoop_space_version (k v : Str) (r : HttpRequest) (cs : List Char) :
    lineLoop ⟨.kHeaderPath, k, v, r⟩ (' ' :: cs) = lineLoop ⟨.kHeaderVersion, k, v, r⟩ cs := by
  simp only [lineLoop, lineStep, ne_eq, not_true_eq_false, if_false]

theorem lineLoop_request_line (req0 : HttpRequest) (M P V : Str) (x : Char)
    (hM : ' ' ∉ M) (hP : ' ' ∉ P) (hVr : '\r' ∉ V) (hVn : '\n' ∉ V) :
    ∃ s1, lineLoop ⟨.kHeaderMethod, [], [], req0⟩
        (M ++ ' ' :: (P ++ ' ' :: (V ++ ['\r', '\n', x]))) = (true, s1) ∧
      s1.status.isParam ∧
      SameButHeaders (withLine req0 M P V) s1.req := by
  obtain ⟨s1, h1, h2, h3⟩ := lineStep_param
    ⟨.kHeaderParamKey, [], [], withLine req0 M P V⟩ x (Or.inl rfl)
  refine ⟨s1, ?_, h2, h3⟩
  rw [lineLoop_append _ _ _ _ (lineLoop_method _ _ _ _ hM), lineLoop_space_path,
    lineLoop_append _ _ _ _ (lineLoop_path _ _ _ _ hP), lineLoop_space_version,
    lineLoop_append _ _ _ _ (lineLoop_version _ _ _ _ hVr hVn), lineLoop_crlf]
  exact h1

theorem peek_mid (pre b : List Char) (i : Nat) : peek (pre ++ b) (pre.length + i) = peek b i :=
  peek_append_right pre b i

theorem find_lf_mid (pre a b : List Char) (n : Nat) (ha : '\n' ∉ a) (hn : a.length < n) :
    find_lf (pre ++ (a ++ '\n' :: b)) pre.length n = a.length := by
  apply find_lf_first
  · intro i hi
    rw [peek_mid, peek_append_left _ _ _ hi]
    intro h
    apply ha
    rw [← h, List.getD_eq_getElem _ _ hi]
    exact List.getElem_mem _
  · rw [peek_mid]
    have := peek_append_right a ('\n' :: b) 0
    simp only [Nat.add_zero] at this
    rw [this]
    simp [peek]
  · exact hn

theorem slice_shift (pre b : List Char) (lo hi : Nat) :
    slice (pre ++ b) (pre.length + lo) (pre.length + hi) = slice b lo hi := by
  unfold slice
  have h : pre.length + hi - (pre.length + lo) = hi - lo := by omega
  rw [h]
  apply List.ext_getElem
  · simp
  · intro i h1 h2
    simp only [List.getElem_map, List.getElem_range', Nat.one_mul]
    rw [Nat.add_assoc, peek_mid]

theorem slice_mid (pre a b : List Char) :
    slice (pre ++ (a ++ b)) pre.length (pre.length + a.length) = a := by
  have := slice_shift pre (a ++ b) 0 a.length
  rw [Nat.add_zero] at this
  rw [this, slice_append_left]

theorem headLoop_done (data : List Char) (fuel : Nat) (remain ls le : Int) (st : ParseStatus)
    (req : HttpRequest) (h : remain ≤ 4) :
    headLoop data fuel remain ls le st req = some (true, req) := by
  have h4 : ¬ remain > 4 := by omega
  cases fuel <;> simp [headLoop, h4]

theorem lineLoop_key (k v : Str) (r : HttpRequest) (K : Str) (h1 : ':' ∉ K) (h2 : ' ' ∉ K) :
    lineLoop ⟨.kHeaderParamKey, k, v, r⟩ K = (true, ⟨.kHeaderParamKey, k ++ K, v, r⟩) := by
  induction K generalizing k with
  | nil => simp [lineLoop]
  | cons c K ih =>
    simp only [List.mem_cons, not_or] at h1 h2
    have hc1 : c ≠ ':' := fun h => h1.1 h.symm
    have hc2 : c ≠ ' ' := fun h => h2.1 h.symm
    simp only [lineLoop, lineStep, ne_eq, hc1, hc2, not_false_eq_true, and_self, if_true]
    rw [ih _ h1.2 h2.2]
    simp

theorem lineLoop_value (k v : Str) (r : HttpRequest) (W : Str) (h1 : '\r' ∉ W)
    (h2 : '\n' ∉ W) :
    lineLoop ⟨.kHeaderParamValue, k, v, r⟩ W = (true, ⟨.kHeaderParamValue, k, v ++ W, r⟩) := by
  induction W generalizing v with
  | nil => simp [lineLoop]
  | cons c W ih =>
    simp only [List.mem_cons, not_or] at h1 h2
    have hc1 : c ≠ '\r' := fun h => h1.1 h.symm
    have hc2 : c ≠ '\n' := fun h => h2.1 h.symm
    simp only [lineLoop, lineStep, ne_eq, hc1, hc2, not_false_eq_true, and_self, if_true]
    rw [ih _ h1.2 h2.2]
    simp

theorem lineLoop_header_line (r : HttpRequest) (K W : Str) (hK1 : ':' ∉ K) (hK2 : ' ' ∉ K)
    (hWr : '\r' ∉ W) (hWn : '\n' ∉ W) :
    lineLoop ⟨.kHeaderParamKey, [], [], r⟩ (K ++ ':' :: ' ' :: (W ++ ['\r', '\n']))
      = (true, ⟨.kHeaderParamKey, K ++ ['\n'], W,
          { r with headers := mapAssign r.headers K W }⟩) := by
  have e1 : (':' : Char) ≠ ' ' := by decide
  have e2 : ('\n' : Char) ≠ ':' := by decide
  have e3 : ('\n' : Char) ≠ ' ' := by decide
  have hcolon : ∀ cs, lineLoop ⟨.kHeaderParamKey, [] ++ K, [], r⟩ (':' :: ' ' :: cs)
      = lineLoop ⟨.kHeaderParamValue, [] ++ K, [], r⟩ cs := by
    intro cs
    simp only [lineLoop, lineStep, ne_eq, not_true_eq_false, false_and, and_false, if_false, e1,
      if_true]
  have hend : lineLoop ⟨.kHeaderParamValue, [] ++ K, [] ++ W, r⟩ ['\r', '\n']
      = (true, ⟨.kHeaderParamKey, K ++ ['\n'], W,
          { r with headers := mapAssign r.headers K W }⟩) := by
    simp only [lineLoop, lineStep, ne_eq, not_true_eq_false, false_and, and_false, if_false,
      if_true, e2, e3, not_false_eq_true, and_self, List.nil_append]
  rw [lineLoop_append _ _ _ _ (lineLoop_key _ _ _ _ hK1 hK2), hcolon,
    lineLoop_append _ _ _ _ (lineLoop_value _ _ _ _ hWr hWn), hend]

theorem strFind_first (P Q : Str) (c : Char) (h : c ∉ P) :
    strFind (P ++ c :: Q) c 0 = some P.length := by
  unfold strFind
  rw [List.drop_zero, if_pos (by simp), takeWhile_ne_append c P Q h, Nat.zero_add]

theorem strFind_absent (P : Str) (c : Char) (h : c ∉ P) : strFind P c 0 = none := by
  unfold strFind
  rw [List.drop_zero, if_neg h]

theorem ParseGetUrl_query (r : HttpRequest) (P Q : Str) (hp : r.path = P ++ '?' :: Q)
    (h : '?' ∉ P) :
    ParseGetUrl r
      = some (true, { r with path := P, query_params := formPairs r.query_params Q }) := by
  unfold ParseGetUrl
  rw [hp, strFind_first P Q '?' h]
  simp only [ParseParameters_eq]
  rw [← List.drop_drop]
  simp [hp]

theorem ParseGetUrl_plain (r : HttpRequest) (h : '?' ∉ r.path) :
    ParseGetUrl r = some (true, r) := by
  unfold ParseGetUrl
  rw [strFind_absent _ _ h]

theorem ParseGetUrl_same (r : HttpRequest) :
    ∃ r1, ParseGetUrl r = some (true, r1) ∧ r1.method = r.method ∧ r1.version = r.version ∧
      r1.headers = r.headers ∧ r1.content = r.content := by
  unfold ParseGetUrl
  split
  · exact ⟨r, rfl, rfl, rfl, rfl, rfl⟩
  · simp only [ParseParameters_eq]
    exact ⟨_, rfl, rfl, rfl, rfl, rfl⟩

theorem ParseGetUrl_returns (r : HttpRequest) : ∃ r1, ParseGetUrl r = some (true, r1) := by
  obtain ⟨r1, h, -⟩ := ParseGetUrl_same r
  exact ⟨r1, h⟩

theorem headLoop_returns (data : List Char) :
    ∀ (fuel : Nat) (remain ls le : Int) (st : ParseStatus) (req : HttpRequest),
      ls ≤ le + 1 → 0 ≤ ls →
      (remain ≤ 4 ∨ (1 ≤ fuel ∧ (data.length : Int) + 1 ≤ fuel + ls)) →
      ∃ b r, headLoop data fuel remain ls le st req = some (b, r) := by
  intro fuel
  induction fuel with
  | zero =>
    intro remain ls le st req _ _ h
    have h4 : ¬ remain > 4 := by omega
    exact ⟨true, req, by simp [headLoop, h4]⟩
  | succ fuel ih =>
    intro remain ls le st req hls h0 h
    by_cases h4 : remain > 4
    · have hf : (data.length : Int) + 1 ≤ (fuel + 1 : Nat) + ls := by omega
      have hle := find_lf_le data ls.toNat remain.toNat
      unfold headLoop
      simp only [if_pos h4]
      split
      · exact ⟨false, req, rfl⟩
      · split
        · exact ⟨false, _, rfl⟩
        · apply ih
          · omega
          · omega
          · by_cases hb : data.length ≤ ls.toNat
            · left
              rw [find_lf_beyond data _ _ hb]
              omega
            · right
              omega
    · exact ⟨true, req, by simp [headLoop, h4]⟩

/-- The fuel of `ParseHeadFromArray` is enough: the call returns for every request, every
buffer and every size. -/
theorem ParseHeadFromArray_returns (req : HttpRequest) (data : List Char) (size : Int) :
    ∃ b r, ParseHeadFromArray req data size = some (b, r) := by
  unfold ParseHeadFromArray
  split
  · exact ⟨false, req, rfl⟩
  · obtain ⟨b, r, h⟩ := headLoop_returns data (data.length + 2) size 0 0 .kHeaderMethod req
      (by omega) (le_refl _) (Or.inr ⟨by omega, by omega⟩)
    rw [h]
    cases b with
    | false => exact ⟨false, r, rfl⟩
    | true =>
      simp only
      split
      · obtain ⟨r1, h1⟩ := ParseGetUrl_returns r
        exact ⟨true, r1, h1⟩
      · exact ⟨true, r, rfl⟩

theorem headLoop_first_pass (req0 : HttpRequest) (M P V tail rest : Str)
    (hM : ' ' ∉ M) (hMn : '\n' ∉ M) (hP : ' ' ∉ P) (hPn : '\n' ∉ P)
    (hVr : '\r' ∉ V) (hVn : '\n' ∉ V) (hsize : 4 < (headBlock M P V tail).length)
    (s1 : LineState)
    (hs1 : lineStep ⟨.kHeaderParamKey, [], [], withLine req0 M P V⟩ (peek (tail ++ rest) 0)
      = (true, s1)) :
    headLoop (headBlock M P V tail ++ rest) ((headBlock M P V tail ++ rest).length + 2)
        ((headBlock M P V tail).length : Nat) 0 0 .kHeaderMethod req0
      = headLoop (headBlock M P V tail ++ rest) ((headBlock M P V tail ++ rest).length + 1)
          (tail.length : Nat) ((M.length + P.length + V.length + 5 : Nat) : Int)
          ((M.length + P.length + V.length + 4 : Nat) : Int) s1.status s1.req := by
  generalize hdata : headBlock M P V tail ++ rest = data
  generalize hblock : (headBlock M P V tail).length = n at *
  have hsplit : data = (M ++ ' ' :: (P ++ ' ' :: (V ++ ['\r']))) ++ '\n' :: (tail ++ rest) := by
    rw [← hdata]; simp [headBlock]
  generalize ha : M ++ ' ' :: (P ++ ' ' :: (V ++ ['\r'])) = a at hsplit
  have han : '\n' ∉ a := by
    rw [← ha]
    simp only [List.mem_append, List.mem_cons, List.mem_singleton, not_or, List.not_mem_nil,
      or_false]
    refine ⟨hMn, by decide, hPn, by decide, hVn, by decide⟩
  have hal : a.length = M.length + P.length + V.length + 3 := by
    rw [← ha]; simp; omega
  have hlen : a.length + 1 + tail.length = n := by
    rw [← hblock, hal]; simp [headBlock]; omega
  have hfind : find_lf data 0 n = a.length := by
    rw [hsplit]; exact find_lf_append a _ n han (by omega)
  have hpeek : peek data (a.length + 1) = peek (tail ++ rest) 0 := by
    have := peek_mid (a ++ ['\n']) (tail ++ rest) 0
    rw [List.length_append, List.length_singleton, Nat.add_zero] at this
    rw [hsplit, ← this]
    simp
  have hslice : slice data 0 (a.length + 2)
      = M ++ ' ' :: (P ++ ' ' :: (V ++ ['\r', '\n', peek (tail ++ rest) 0])) := by
    rw [slice_succ _ _ _ (Nat.zero_le _), hpeek]
    have h1 : slice data 0 (a.length + 1) = a ++ ['\n'] := by
      have := slice_append_left (a ++ ['\n']) (tail ++ rest)
      rw [List.length_append, List.length_singleton] at this
      rw [hsplit]
      simpa using this
    rw [h1, ← ha]
    simp
  have hloop : lineLoop ⟨.kHeaderMethod, [], [], req0⟩
      (M ++ ' ' :: (P ++ ' ' :: (V ++ ['\r', '\n', peek (tail ++ rest) 0]))) = (true, s1) := by
    rw [lineLoop_append _ _ _ _ (lineLoop_method _ _ _ _ hM), lineLoop_space_path,
      lineLoop_append _ _ _ _ (lineLoop_path _ _ _ _ hP), lineLoop_space_version,
      lineLoop_append _ _ _ _ (lineLoop_version _ _ _ _ hVr hVn), lineLoop_crlf]
    exact hs1
  have hn4 : (n : Int) > 4 := by omega
  have hnlt : ¬ ((0 : Int) + (a.length : Nat) + 1 < 0) := by omega
  have htn : ((0 : Int) + (a.length : Nat) + 1 + 1).toNat = a.length + 2 := by omega
  have e1 : (n : Int) - ((0 : Int) + (a.length : Nat) + 1 - 0) = (tail.length : Nat) := by omega
  have e2 : (0 : Int) + (a.length : Nat) + 1 + 1
      = ((M.length + P.length + V.length + 5 : Nat) : Int) := by omega
  have e3 : (0 : Int) + (a.length : Nat) + 1
      = ((M.length + P.length + V.length + 4 : Nat) : Int) := by omega
  rw [headLoop]
  simp only [if_pos hn4, Int.toNat_zero, Int.toNat_ofNat, hfind, if_neg hnlt,
    ParseHeadLine, htn, hslice, hloop, e1]
  rw [e2, e3]

theorem headLoop_request_line (req0 : HttpRequest) (M P V tail rest : Str)
    (hM : ' ' ∉ M) (hMn : '\n' ∉ M) (hP : ' ' ∉ P) (hPn : '\n' ∉ P)
    (hVr : '\r' ∉ V) (hVn : '\n' ∉ V) (hsize : 5 < (headBlock M P V tail).length) :
    ∃ r, headLoop (headBlock M P V tail ++ rest) ((headBlock M P V tail ++ rest).length + 2)
        ((headBlock M P V tail).length : Nat) 0 0 .kHeaderMethod req0 = some (true, r) ∧
      SameButHeaders (withLine req0 M P V) r := by
  obtain ⟨s1, hs1, hst, hsame⟩ := lineStep_param
    ⟨.kHeaderParamKey, [], [], withLine req0 M P V⟩ (peek (tail ++ rest) 0) (Or.inl rfl)
  obtain ⟨r, hr, hsame2⟩ := headLoop_param (headBlock M P V tail ++ rest)
    ((headBlock M P V tail ++ rest).length + 1) (tail.length : Nat)
    ((M.length + P.length + V.length + 5 : Nat) : Int)
    ((M.length + P.length + V.length + 4 : Nat) : Int) s1.status s1.req hst (by omega)
    (by omega) (Or.inr ⟨by omega, by omega⟩)
  refine ⟨r, ?_, ?_⟩
  · rw [headLoop_first_pass req0 M P V tail rest hM hMn hP hPn hVr hVn (by omega) s1 hs1, hr]
  · unfold SameButHeaders at *
    simp_all

/-- The defect behind C1 and C5, for every header block with one header line
`c K ": " W CRLF` (`c` any byte but a space, `K` free of `:`, space and LF, `W` free of CR
and LF), whatever bytes follow the block in the buffer: `ParseHeadFromArray` returns
`true` and leaves `headers` with the single entry `K -> W`; the first byte `c` of the
key is lost. -/
theorem first_header_key_truncated (req : HttpRequest) (M P V K W rest : Str) (c : Char)
    (hM : ' ' ∉ M) (hMn : '\n' ∉ M) (hP : ' ' ∉ P) (hPn : '\n' ∉ P)
    (hVr : '\r' ∉ V) (hVn : '\n' ∉ V) (hc : c ≠ ' ')
    (hK1 : ':' ∉ K) (hK2 : ' ' ∉ K) (hKn : '\n' ∉ K) (hWr : '\r' ∉ W) (hWn : '\n' ∉ W) :
    ∃ r, ParseHeadFromArray req.Clear
        (headBlock M P V (c :: (K ++ ':' :: ' ' :: (W ++ ['\r', '\n', '\r', '\n']))) ++ rest)
        (headBlock M P V (c :: (K ++ ':' :: ' ' :: (W ++ ['\r', '\n', '\r', '\n'])))).length
          = some (true, r) ∧
      r.headers = [(K, W)] := by
  generalize htail : c :: (K ++ ':' :: ' ' :: (W ++ ['\r', '\n', '\r', '\n'])) = tail
  have htl : tail.length = K.length + W.length + 7 := by
    rw [← htail]; simp; omega
  have hbl : (headBlock M P V tail).length = M.length + P.length + V.length + 4 + tail.length := by
    simp [headBlock]; omega
  have hpk : peek (tail ++ rest) 0 = c := by
    rw [← htail]; simp [peek]
  -- the first pass takes the request line and the byte `c`
  obtain ⟨k1, hstep⟩ : ∃ k1, lineStep ⟨.kHeaderParamKey, [], [], withLine req.Clear M P V⟩ c
      = (true, ⟨.kHeaderParamKey, k1, [], withLine req.Clear M P V⟩) := by
    by_cases h : c = ':'
    · exact ⟨[], by simp [lineStep, h]⟩
    · exact ⟨[c], by simp [lineStep, h, hc]⟩
  have h1 := headLoop_first_pass req.Clear M P V tail rest hM hMn hP hPn hVr hVn (by omega)
    _ (by rw [hpk]; exact hstep)
  -- the second pass takes `K ": " W CRLF`
  generalize hdata : headBlock M P V tail ++ rest = data at h1
  have hsplit : data = (M ++ ' ' :: (P ++ ' ' :: (V ++ ['\r', '\n', c])))
      ++ ((K ++ ':' :: ' ' :: (W ++ ['\r'])) ++ '\n' :: (['\r', '\n'] ++ rest)) := by
    rw [← hdata, ← htail]; simp [headBlock]
  generalize hpre : M ++ ' ' :: (P ++ ' ' :: (V ++ ['\r', '\n', c])) = pre at hsplit
  have hprel : pre.length = M.length + P.length + V.length + 5 := by
    rw [← hpre]; simp; omega
  generalize ha2 : K ++ ':' :: ' ' :: (W ++ ['\r']) = a2 at hsplit
  have ha2l : a2.length = K.length + W.length + 3 := by
    rw [← ha2]; simp; omega
  have ha2n : '\n' ∉ a2 := by
    rw [← ha2]
    simp only [List.mem_append, List.mem_cons, List.mem_singleton, not_or, List.not_mem_nil,
      or_false]
    refine ⟨hKn, by decide, by decide, hWn, by decide⟩
  have hfind : find_lf data (M.length + P.length + V.length + 5) tail.length = a2.length := by
    rw [hsplit, ← hprel]
    exact find_lf_mid pre a2 _ tail.length ha2n (by omega)
  have hslice : slice data (M.length + P.length + V.length + 5)
      (M.length + P.length + V.length + 5 + (a2.length + 1))
        = K ++ ':' :: ' ' :: (W ++ ['\r', '\n']) := by
    have := slice_mid pre (a2 ++ ['\n']) (['\r', '\n'] ++ rest)
    rw [List.length_append, List.length_singleton] at this
    rw [hsplit, ← hprel]
    rw [show pre ++ (a2 ++ '\n' :: (['\r', '\n'] ++ rest))
      = pre ++ ((a2 ++ ['\n']) ++ (['\r', '\n'] ++ rest)) by simp, this, ← ha2]
    simp
  have hline := lineLoop_header_line (withLine req.Clear M P V) K W hK1 hK2 hWr hWn
  have h2 : headLoop data (data.length + 1) (tail.length : Nat)
      ((M.length + P.length + V.length + 5 : Nat) : Int)
      ((M.length + P.length + V.length + 4 : Nat) : Int) .kHeaderParamKey
      (withLine req.Clear M P V)
        = some (true, { withLine req.Clear M P V with
            headers := mapAssign (withLine req.Clear M P V).headers K W }) := by
    have hr4 : ((tail.length : Nat) : Int) > 4 := by omega
    have hnlt : ¬ (((M.length + P.length + V.length + 4 : Nat) : Int) + (a2.length : Nat) + 1
        < ((M.length + P.length + V.length + 5 : Nat) : Int)) := by omega
    have htn : (((M.length + P.length + V.length + 4 : Nat) : Int) + (a2.length : Nat) + 1
        + 1).toNat = M.length + P.length + V.length + 5 + (a2.length + 1) := by omega
    rw [headLoop]
    simp only [if_pos hr4, Int.toNat_ofNat, hfind, if_neg hnlt, ParseHeadLine, htn, hslice,
      hline]
    apply headLoop_done
    omega
  have hparse : ParseHeadFromArray req.Clear data ((headBlock M P V tail).length : Nat)
      = if (withLine req.Clear M P V).method = "GET".toList then
          ParseGetUrl { withLine req.Clear M P V with
            headers := mapAssign (withLine req.Clear M P V).headers K W }
        else some (true, { withLine req.Clear M P V with
            headers := mapAssign (withLine req.Clear M P V).headers K W }) := by
    have h5 : ¬ (((headBlock M P V tail).length : Nat) : Int) ≤ 5 := by omega
    unfold ParseHeadFromArray
    rw [if_neg h5, h1, h2]
  rw [hparse]
  split
  · obtain ⟨r1, hr1, -, -, hh, -⟩ := ParseGetUrl_same { withLine req.Clear M P V with
      headers := mapAssign (withLine req.Clear M P V).headers K W }
    exact ⟨r1, hr1, by rw [hh]; simp [withLine, HttpRequest.Clear, mapAssign]⟩
  · exact ⟨_, rfl, by simp [withLine, HttpRequest.Clear, mapAssign]⟩

theorem ParseHeadFromArray_line (req0 : HttpRequest) (M P V tail rest : Str)
    (hM : ' ' ∉ M) (hMn : '\n' ∉ M) (hP : ' ' ∉ P) (hPn : '\n' ∉ P)
    (hVr : '\r' ∉ V) (hVn : '\n' ∉ V) (hsize : 5 < (headBlock M P V tail).length) :
    ∃ r, SameButHeaders (withLine req0 M P V) r ∧
      ParseHeadFromArray req0 (headBlock M P V tail ++ rest) (headBlock M P V tail).length
        = if r.method = "GET".toList then ParseGetUrl r else some (true, r) := by
  obtain ⟨r, hr, hsame⟩ := headLoop_request_line req0 M P V tail rest hM hMn hP hPn hVr hVn hsize
  refine ⟨r, hsame, ?_⟩
  have h5 : ¬ (((headBlock M P V tail).length : Nat) : Int) ≤ 5 := by omega
  unfold ParseHeadFromArray
  rw [if_neg h5, hr]

/-- C1 (what the code does on the claim's own witness): on
`GET /hello HTTP/1.1\r\nHost: x\r\n\r\n` (32 bytes) `ParseHeadFromArray` returns `true`
and leaves `headers` equal to the map with the single entry `ost -> x`; there is no entry
for `Host`.  The first pass of the loop ends the request line at `find_lf + 1`, so
`ParseHeadLine` also takes the `H` of `Host`, into a `param_key` that is dropped. -/
theorem c1_first_header_key_loses_first_byte :
    ParseHeadFromArray HttpRequest.new.Clear
        "GET /hello HTTP/1.1\r\nHost: x\r\n\r\n".toList 32
      = some (true,
          { method := "GET".toList, path := "/hello".toList, version := "HTTP/1.1".toList,
            headers := [("ost".toList, "x".toList)], query_params := [], content := [] }) ∧
    mapFind [("ost".toList, "x".toList)] "Host".toList = none := by
  constructor
  · decide
  · decide

/-- C2: for every header block that starts with a request line `M SP P SP V CRLF` (`M`
and `P` free of space and LF, `V` free of CR and LF) and has more than 5 bytes, whatever
follows the request line in the block (`tail`) and whatever bytes follow the block in the
buffer (`rest`), `ParseHeadFromArray` on a cleared request returns `true` with
`method = M` and `version = V`, and with `path = P` when `M` is not `GET` or `P` has no
`?`. -/
theorem c2_request_line_fields (req : HttpRequest) (M P V tail rest : Str)
    (hM : ' ' ∉ M) (hMn : '\n' ∉ M) (hP : ' ' ∉ P) (hPn : '\n' ∉ P)
    (hVr : '\r' ∉ V) (hVn : '\n' ∉ V) (hsize : 5 < (headBlock M P V tail).length) :
    ∃ r, ParseHeadFromArray req.Clear (headBlock M P V tail ++ rest)
          (headBlock M P V tail).length = some (true, r) ∧
      r.method = M ∧ r.version = V ∧ ((M ≠ "GET".toList ∨ '?' ∉ P) → r.path = P) := by
  obtain ⟨r, hsame, hparse⟩ := ParseHeadFromArray_line req.Clear M P V tail rest
    hM hMn hP hPn hVr hVn hsize
  obtain ⟨hm, hp, hv, -, -⟩ := hsame
  simp only [withLine, HttpRequest.Clear, List.nil_append] at hm hp hv
  rw [hparse]
  by_cases hget : r.method = "GET".toList
  · rw [if_pos hget]
    obtain ⟨r1, h1, h2, h3, -, -⟩ := ParseGetUrl_same r
    refine ⟨r1, h1, by rw [h2, hm], by rw [h3, hv], ?_⟩
    intro hor
    rcases hor with hne | hq
    · exact absurd (hm ▸ hget) hne
    · rw [ParseGetUrl_plain r (by rw [hp]; exact hq)] at h1
      cases h1
      exact hp
  · rw [if_neg hget]
    exact ⟨r, rfl, hm, hv, fun _ => hp⟩

/-- C2, at `POST /f?x HTTP/1.1\r\nHost: a\r\n\r\n`. -/
theorem c2_request_line_fields_witness :
    ∃ r, ParseHeadFromArray HttpRequest.new.Clear
          (headBlock "POST".toList "/f?x".toList "HTTP/1.1".toList "Host: a\r\n\r\n".toList ++ [])
          (headBlock "POST".toList "/f?x".toList "HTTP/1.1".toList
            "Host: a\r\n\r\n".toList).length = some (true, r) ∧
      r.method = "POST".toList ∧ r.version = "HTTP/1.1".toList ∧
      (("POST".toList ≠ "GET".toList ∨ '?' ∉ "/f?x".toList) → r.path = "/f?x".toList) :=
  c2_request_line_fields HttpRequest.new "POST".toList "/f?x".toList "HTTP/1.1".toList
    "Host: a\r\n\r\n".toList [] (by decide) (by decide) (by decide) (by decide) (by decide)
    (by decide) (by decide)

/-- C3: for every `GET` request line whose path is `P?Q` with `P` free of `?` (path free
of space and LF), after `ParseHeadFromArray` on a cleared request `path` is `P` and
`query_params` is what `ParseParameters` makes of `Q` alone, which is the form-encoded
reading `formPairs` of `Q`, and is empty for an empty `Q`; for a path `P` with no `?`,
`path` stays `P` and `query_params` stays empty. -/
theorem c3_get_query_split (req : HttpRequest) (P Q V tail rest : Str)
    (hP : ' ' ∉ P) (hPn : '\n' ∉ P) (hPq : '?' ∉ P) (hQ : ' ' ∉ Q) (hQn : '\n' ∉ Q)
    (hVr : '\r' ∉ V) (hVn : '\n' ∉ V) :
    (∃ r, ParseHeadFromArray req.Clear (headBlock "GET".toList (P ++ '?' :: Q) V tail ++ rest)
          (headBlock "GET".toList (P ++ '?' :: Q) V tail).length = some (true, r) ∧
        r.path = P ∧
        (ParseParameters req.Clear Q 0).map (fun b => b.2.query_params)
          = some r.query_params ∧
        r.query_params = formPairs [] Q ∧ (Q = [] → r.query_params = [])) ∧
    (∃ r, ParseHeadFromArray req.Clear (headBlock "GET".toList P V tail ++ rest)
          (headBlock "GET".toList P V tail).length = some (true, r) ∧
        r.path = P ∧ r.query_params = []) := by
  constructor
  · obtain ⟨r, hsame, hparse⟩ := ParseHeadFromArray_line req.Clear "GET".toList (P ++ '?' :: Q)
      V tail rest (by decide) (by decide) (by simp [hP, hQ]) (by simp [hPn, hQn]) hVr hVn
      (by simp [headBlock]; omega)
    obtain ⟨hm, hp, -, hq, -⟩ := hsame
    simp only [withLine, HttpRequest.Clear, List.nil_append] at hm hp hq
    rw [hparse, if_pos hm, ParseGetUrl_query r P Q hp hPq, hq]
    refine ⟨_, rfl, rfl, ?_, rfl, ?_⟩
    · simp [ParseParameters_eq, HttpRequest.Clear]
    · rintro rfl
      exact formPairs_nil []
  · obtain ⟨r, hsame, hparse⟩ := ParseHeadFromArray_line req.Clear "GET".toList P
      V tail rest (by decide) (by decide) hP hPn hVr hVn (by simp [headBlock]; omega)
    obtain ⟨hm, hp, -, hq, -⟩ := hsame
    simp only [withLine, HttpRequest.Clear, List.nil_append] at hm hp hq
    rw [hparse, if_pos hm, ParseGetUrl_plain r (by rw [hp]; exact hPq)]
    exact ⟨r, rfl, hp, hq⟩

/-- C3, at `GET /q?a=1&b=&c=3 HTTP/1.1\r\n\r\n`: `path` is `/q` and `query_params` is
`a -> 1, b -> (empty), c -> 3`. -/
theorem c3_get_query_split_witness :
    (∃ r, ParseHeadFromArray HttpRequest.new.Clear
          (headBlock "GET".toList ("/q".toList ++ '?' :: "a=1&b=&c=3".toList)
            "HTTP/1.1".toList "\r\n".toList ++ [])
          (headBlock "GET".toList ("/q".toList ++ '?' :: "a=1&b=&c=3".toList)
            "HTTP/1.1".toList "\r\n".toList).length = some (true, r) ∧
        r.path = "/q".toList ∧
        (ParseParameters HttpRequest.new.Clear "a=1&b=&c=3".toList 0).map
            (fun b => b.2.query_params) = some r.query_params ∧
        r.query_params = formPairs [] "a=1&b=&c=3".toList ∧
        ("a=1&b=&c=3".toList = [] → r.query_params = [])) ∧
    formPairs [] "a=1&b=&c=3".toList
      = [("a".toList, "1".toList), ("b".toList, []), ("c".toList, "3".toList)] :=
  ⟨(c3_get_query_split HttpRequest.new "/q".toList "a=1&b=&c=3".toList "HTTP/1.1".toList
      "\r\n".toList [] (by decide) (by decide) (by decide) (by decide) (by decide) (by decide)
      (by decide)).1, by decide⟩

/-- C4: for every string `s`, start offset and request, `ParseParameters` returns, and
its `query_params` is the reference `formPairs` applied to the old `query_params` and the
tail of `s` from the offset: the tail is split on `&`, a final empty segment is dropped,
and each segment assigns the text before its first `=` (the whole segment when it has
none) the text after that `=` (empty when it has none).  Assigning overrides the entry of
that key and keeps the entries of all other keys. -/
theorem c4_parse_parameters_is_form_pairs (req : HttpRequest) (s : Str) (line_start : Nat) :
    ParseParameters req s line_start
        = some (true,
            { req with query_params := formPairs req.query_params (s.drop line_start) }) ∧
      (∀ (m : StrMap) (seg k : Str),
        mapFind (addSegment m seg) k
          = if seg.takeWhile (· ≠ '=') = k then some ((seg.dropWhile (· ≠ '=')).drop 1)
            else mapFind m k) :=
  ⟨ParseParameters_eq req s line_start, fun m _ k => mapFind_mapAssign m _ _ k⟩

/-- C4, at `a&b=2`: `a` gets the empty value and `b` gets `2`. -/
theorem c4_parse_parameters_is_form_pairs_witness :
    ParseParameters HttpRequest.new.Clear "a&b=2".toList 0
      = some (true, { HttpRequest.new.Clear with
          query_params := [("a".toList, []), ("b".toList, "2".toList)] }) :=
  (c4_parse_parameters_is_form_pairs HttpRequest.new.Clear "a&b=2".toList 0).1.trans (by decide)

end Parser

/-! ## The connection -/

section Connection

open HttpConn

theorem sockRead_zero (sock : List ReadEvent) :
    sockRead sock 0 = ({ nread := 0, eagain := false, data := [] }, sock) := by
  simp [sockRead]

theorem sockRead_nread (sock : List ReadEvent) (count : Nat) :
    (sockRead sock count).1.nread ≤ count ∧
      (0 < (sockRead sock count).1.nread →
        (sockRead sock count).1.nread = (sockRead sock count).1.data.length) := by
  by_cases h0 : count = 0
  · subst h0
    simp [sockRead_zero]
  · cases sock with
    | nil => simp [sockRead, h0]; omega
    | cons ev rest =>
      cases ev with
      | bytes bs =>
        by_cases h : bs.length ≤ count
        · simp [sockRead, h0, h]
        · simp only [sockRead, if_neg h0, if_neg h]
          refine ⟨le_refl _, fun _ => ?_⟩
          simp
          omega
      | again => simp [sockRead, h0]; omega
      | closed => simp [sockRead, h0]
      | failed => simp [sockRead, h0]; omega

theorem BuildRequestHeader_frame (conv : Str → Option Int) (c c2 : HttpConn) (b : Bool)
    (h : BuildRequestHeader conv c = some (b, c2)) :
    ∃ req rem, c2 = { c with request := req, remain_packet_len := rem } := by
  unfold BuildRequestHeader at h
  split at h
  · cases h
  · simp only [Option.some.injEq, Prod.mk.injEq] at h
    exact ⟨_, c.remain_packet_len, h.2.symm⟩
  · simp only [Option.some.injEq, Prod.mk.injEq] at h
    exact ⟨_, _, h.2.symm⟩

theorem BuildRequestBody_frame (c c2 : HttpConn) (b : Bool)
    (h : BuildRequestBody c = some (b, c2)) :
    ∃ req, c2 = { c with request := req } := by
  unfold BuildRequestBody at h
  split at h
  · cases h
  · simp only [Option.some.injEq, Prod.mk.injEq] at h
    exact ⟨_, h.2.symm⟩

theorem toUInt32_of_nonneg_le (z : Int) (h0 : 0 ≤ z) (h1 : z ≤ (kHttpMaxMessage : Nat)) :
    toUInt32 z = z.toNat := by
  unfold toUInt32
  have : z < 2 ^ 32 := by
    have : (kHttpMaxMessage : Int) = 8388608 := by norm_num [kHttpMaxMessage]
    omega
  rw [Int.emod_eq_of_lt h0 this]

theorem HandleMessage_frame (deal : Handler) (c c1 : HttpConn)
    (h : HandleMessage deal c = some c1) :
    ∃ wbuf n, n ≤ kHttpMaxMessage ∧
      c1 = { c with response := deal c.request c.response.Clear, is_reply := true,
                    dealt := c.dealt ++ [c.request], wbuf := wbuf, wbuf_len := n } := by
  unfold HandleMessage BuildResponseBuf HttpResponse.SerializeToArray at h
  simp only at h
  split at h
  · cases h
  · rename_i wbuf n heq
    split at heq
    · cases heq
    · rename_i hn
      simp only [Option.some.injEq, Prod.mk.injEq] at heq h
      refine ⟨wbuf, n, ?_, h.symm⟩
      rw [← heq.2, toUInt32_of_nonneg_le _ (by omega) (min_le_right _ _)]
      have := min_le_right (toInt32 (deal c.request c.response.Clear).content.length)
        ((kHttpMaxMessage : Nat) : Int)
      omega

theorem sockRead_bytes (sock : List ReadEvent) (count : Nat) :
    sockBytes (sockRead sock count).2 + (sockRead sock count).1.nread.toNat ≤ sockBytes sock := by
  by_cases h0 : count = 0
  · subst h0
    simp [sockRead_zero]
  · cases sock with
    | nil => simp [sockRead, h0, sockBytes]
    | cons ev rest =>
      cases ev with
      | bytes bs =>
        by_cases h : bs.length ≤ count
        · simp [sockRead, h0, h, sockBytes]
          omega
        · simp only [sockRead, if_neg h0, if_neg h, sockBytes, List.length_drop,
            Int.toNat_ofNat]
          omega
      | again => simp [sockRead, h0, sockBytes]
      | closed => simp [sockRead, h0, sockBytes]
      | failed => simp [sockRead, h0, sockBytes]

theorem packetEnd_rank (c : HttpConn) (sock : List ReadEvent) (c1 : HttpConn)
    (s1 : List ReadEvent) (h : packetEnd c sock = .next c1 s1)
    (hst : c.conn_status = .kPacket) :
    s1 = sock ∧ (c1.conn_status = .kComplete ∨
      (c1.conn_status = .kPacket ∧ 0 < c.remain_packet_len)) := by
  unfold packetEnd at h
  split at h
  · split at h
    · cases h
    · cases h
      exact ⟨rfl, Or.inl rfl⟩
  · rename_i hrem
    cases h
    exact ⟨rfl, Or.inr ⟨hst, by omega⟩⟩

theorem getPass_rank (deal : Handler) (conv : Str → Option Int) (c : HttpConn)
    (sock : List ReadEvent) (c1 : HttpConn) (s1 : List ReadEvent)
    (h : getPass deal conv c sock = .next c1 s1) : passRank c1 s1 < passRank c sock := by
  unfold getPass at h
  split at h
  · rename_i hst
    unfold getHeader at h
    simp only at h
    have hb := sockRead_bytes sock ((kHttpMaxHeader + 2 ^ 32 - c.rbuf_pos % 2 ^ 32) % 2 ^ 32)
    generalize (sockRead sock ((kHttpMaxHeader + 2 ^ 32 - c.rbuf_pos % 2 ^ 32) % 2 ^ 32)).1 = r
      at h hb
    generalize (sockRead sock ((kHttpMaxHeader + 2 ^ 32 - c.rbuf_pos % 2 ^ 32) % 2 ^ 32)).2 = s2
      at h hb
    split at h
    · cases h
    · split at h
      · cases h
      · rename_i hn0
        split at h
        · cases h
          simp only [passRank, hst]
          omega
        · split at h
          · cases h
          · cases h
          · rename_i c2 heq
            obtain ⟨req, rem, rfl⟩ := BuildRequestHeader_frame _ _ _ _ heq
            cases h
            simp only [passRank, hst]
            omega
  · rename_i hst
    unfold getPacket at h
    simp only at h
    have hb := sockRead_bytes sock c.remain_packet_len.toNat
    generalize (sockRead sock c.remain_packet_len.toNat).1 = r at h hb
    generalize (sockRead sock c.remain_packet_len.toNat).2 = s2 at h hb
    split at h
    · cases h
    · split at h
      · split at h
        · cases h
        · split at h
          · cases h
          · rename_i hn0
            obtain ⟨h1, h2⟩ := packetEnd_rank _ _ _ _ h hst
            subst h1
            rcases h2 with h2 | h2
            · simp only [passRank, hst, h2]
              omega
            · simp only [passRank, hst, h2.1]
              omega
      · rename_i hrem
        obtain ⟨h1, h2⟩ := packetEnd_rank _ _ _ _ h hst
        subst h1
        rcases h2 with h2 | h2
        · simp only [passRank, hst, h2]
          omega
        · omega
  · unfold getComplete at h
    split at h <;> cases h
  · cases h

theorem getLoop_stable (deal : Handler) (conv : Str → Option Int) :
    ∀ (fuel k : Nat) (c : HttpConn) (sock : List ReadEvent), passRank c sock ≤ fuel →
      getLoop deal conv (fuel + k) c sock = getLoop deal conv fuel c sock := by
  intro fuel
  induction fuel with
  | zero =>
    intro k c sock h
    have : 0 < passRank c sock := by
      unfold passRank
      split <;> omega
    omega
  | succ fuel ih =>
    intro k c sock h
    rw [show fuel + 1 + k = (fuel + k) + 1 by omega]
    unfold getLoop
    cases hp : getPass deal conv c sock with
    | ret st c1 s1 => rfl
    | next c1 s1 =>
      have := getPass_rank deal conv c sock c1 s1 hp
      exact ih k c1 s1 (by omega)
    | stuck => rfl

/-- The fuel of `GetRequest` is enough: more fuel gives the same result, so a result
`none` comes from a pass that does not return, never from the bound. -/
theorem GetRequest_fuel (deal : Handler) (conv : Str → Option Int) (c : HttpConn)
    (sock : List ReadEvent) (k : Nat) :
    getLoop deal conv (sockBytes sock + 3 + k) c sock = c.GetRequest deal conv sock := by
  unfold GetRequest
  apply getLoop_stable
  unfold passRank
  split <;> omega

theorem readInv_header_count (p : Nat) (h : p ≤ kHttpMaxHeader) :
    (kHttpMaxHeader + 2 ^ 32 - p % 2 ^ 32) % 2 ^ 32 = kHttpMaxHeader - p := by
  have : kHttpMaxHeader = 65536 := by norm_num [kHttpMaxHeader]
  omega

theorem readInv_message_count (p : Nat) (h : p ≤ kHttpMaxMessage) :
    (kHttpMaxMessage + 2 ^ 32 - p % 2 ^ 32) % 2 ^ 32 = kHttpMaxMessage - p := by
  have : kHttpMaxMessage = 8388608 := by norm_num [kHttpMaxMessage]
  omega

theorem getHeader_readInv (conv : Str → Option Int) (c : HttpConn) (sock : List ReadEvent)
    (hinv : ReadInv c) (hst : c.conn_status = .kHeader) :
    (∀ st c1 s1, getHeader conv c sock = .ret st c1 s1 → ReadInv c1) ∧
      (∀ c1 s1, getHeader conv c sock = .next c1 s1 → ReadInv c1) := by
  have hp := hinv.2 hst
  have hM : kHttpMaxMessage = 8388608 := by norm_num [kHttpMaxMessage]
  have hH : kHttpMaxHeader = 65536 := by norm_num [kHttpMaxHeader]
  have hr := sockRead_nread sock (kHttpMaxHeader - c.rbuf_pos)
  unfold getHeader
  simp only [readInv_header_count _ hp]
  generalize (sockRead sock (kHttpMaxHeader - c.rbuf_pos)).1 = r at hr
  generalize (sockRead sock (kHttpMaxHeader - c.rbuf_pos)).2 = sock1
  have hpos : r.nread > 0 → (c.rbuf_pos + r.nread.toNat) % 2 ^ 32 ≤ kHttpMaxHeader := by
    intro h0
    omega
  constructor
  · intro st c1 s1 h
    split at h
    · cases h; exact hinv
    · split at h
      · cases h; exact hinv
      · rename_i hn0
        split at h
        · cases h
        · split at h
          · cases h
          · rename_i c2 heq
            obtain ⟨req, rem, rfl⟩ := BuildRequestHeader_frame _ _ _ _ heq
            cases h
            have := hpos (by omega)
            exact ⟨by simp only; omega, fun _ => by simp only; omega⟩
          · cases h
  · intro c1 s1 h
    split at h
    · cases h
    · split at h
      · cases h
      · rename_i hn0
        have := hpos (by omega)
        split at h
        · cases h
          exact ⟨by simp only; omega, fun _ => by simp only; omega⟩
        · split at h
          · cases h
          · cases h
          · rename_i c2 heq
            obtain ⟨req, rem, rfl⟩ := BuildRequestHeader_frame _ _ _ _ heq
            cases h
            exact ⟨by simp only; omega, fun h2 => by simp at h2⟩

theorem packetEnd_readInv (c : HttpConn) (sock : List ReadEvent)
    (hpos : c.rbuf_pos ≤ kHttpMaxMessage) (hst : c.conn_status = .kPacket) :
    (∀ st c1 s1, packetEnd c sock = .ret st c1 s1 → ReadInv c1) ∧
      (∀ c1 s1, packetEnd c sock = .next c1 s1 → ReadInv c1) := by
  unfold packetEnd
  constructor
  · intro st c1 s1 h
    split at h
    · split at h <;> cases h
    · cases h
  · intro c1 s1 h
    split at h
    · split at h
      · cases h
      · rename_i c2 heq
        obtain ⟨req, rfl⟩ := BuildRequestBody_frame _ _ _ heq
        cases h
        exact ⟨hpos, fun h2 => by simp at h2⟩
    · cases h
      exact ⟨hpos, fun h2 => by rw [hst] at h2; cases h2⟩

theorem getPacket_readInv (c : HttpConn) (sock : List ReadEvent)
    (hinv : ReadInv c) (hst : c.conn_status = .kPacket) :
    (∀ st c1 s1, getPacket c sock = .ret st c1 s1 → ReadInv c1) ∧
      (∀ c1 s1, getPacket c sock = .next c1 s1 → ReadInv c1) := by
  have hp := hinv.1
  have hM : kHttpMaxMessage = 8388608 := by norm_num [kHttpMaxMessage]
  have hr := sockRead_nread sock c.remain_packet_len.toNat
  unfold getPacket
  simp only [readInv_message_count _ hp]
  generalize (sockRead sock c.remain_packet_len.toNat).1 = r at hr
  generalize (sockRead sock c.remain_packet_len.toNat).2 = sock1
  by_cases hbig : c.remain_packet_len > ((kHttpMaxMessage - c.rbuf_pos : Nat) : Int)
  · simp only [if_pos hbig]
    exact ⟨fun st c1 s1 h => by cases h; exact hinv, fun c1 s1 h => by cases h⟩
  · simp only [if_neg hbig]
    by_cases hrem : c.remain_packet_len > 0
    · simp only [if_pos hrem]
      by_cases h1 : r.nread = -1 ∧ r.eagain = true
      · simp only [if_pos h1]
        exact ⟨fun st c1 s1 h => by cases h; exact hinv, fun c1 s1 h => by cases h⟩
      · simp only [if_neg h1]
        by_cases h2 : r.nread ≤ 0
        · simp only [if_pos h2]
          exact ⟨fun st c1 s1 h => by cases h; exact hinv, fun c1 s1 h => by cases h⟩
        · simp only [if_neg h2]
          apply packetEnd_readInv
          · simp only
            omega
          · exact hst
    · simp only [if_neg hrem]
      exact packetEnd_readInv c sock hp hst

theorem getPass_readInv (deal : Handler) (conv : Str → Option Int) (c : HttpConn)
    (sock : List ReadEvent) (hinv : ReadInv c) :
    (∀ st c1 s1, getPass deal conv c sock = .ret st c1 s1 → ReadInv c1) ∧
      (∀ c1 s1, getPass deal conv c sock = .next c1 s1 → ReadInv c1) := by
  unfold getPass
  split
  · rename_i hst; exact getHeader_readInv conv c sock hinv hst
  · rename_i hst; exact getPacket_readInv c sock hinv hst
  · unfold getComplete
    constructor
    · intro st c1 s1 h
      split at h
      · cases h
      · rename_i c2 heq
        obtain ⟨wbuf, n, -, rfl⟩ := HandleMessage_frame _ _ _ heq
        cases h
        exact ⟨by simp, fun _ => by simp⟩
    · intro c1 s1 h
      split at h <;> cases h
  · exact ⟨fun st c1 s1 h => by cases h; exact hinv, fun c1 s1 h => by cases h⟩

theorem getLoop_readInv (deal : Handler) (conv : Str → Option Int) :
    ∀ (fuel : Nat) (c : HttpConn) (sock : List ReadEvent) st c1 s1, ReadInv c →
      getLoop deal conv fuel c sock = some (st, c1, s1) → ReadInv c1 := by
  intro fuel
  induction fuel with
  | zero => intro c sock st c1 s1 _ h; cases h
  | succ fuel ih =>
    intro c sock st c1 s1 hinv h
    have hp := getPass_readInv deal conv c sock hinv
    unfold getLoop at h
    split at h
    · rename_i st2 c2 s2 heq
      cases h
      exact hp.1 _ _ _ heq
    · rename_i c2 s2 heq
      exact ih c2 s2 st c1 s1 (hp.2 _ _ heq) h
    · cases h

theorem sendLoop_frame (ws : List WriteEvent) :
    ∀ (c : HttpConn) (nw : Int) (out : List Char),
      ∃ l p, (sendLoop c nw out ws).conn = { c with wbuf_len := l, wbuf_pos := p } := by
  induction ws with
  | nil =>
    intro c nw out
    unfold sendLoop
    split <;> exact ⟨c.wbuf_len, c.wbuf_pos, rfl⟩
  | cons ev ws ih =>
    intro c nw out
    unfold sendLoop
    split
    · split
      · exact ⟨c.wbuf_len, c.wbuf_pos, rfl⟩
      · exact ⟨c.wbuf_len, c.wbuf_pos, rfl⟩
      · simp only
        split
        · exact ⟨c.wbuf_len, c.wbuf_pos, rfl⟩
        · split
          · obtain ⟨l, p, h⟩ := ih { c with wbuf_len := 0, wbuf_pos := 0 } _ _
            exact ⟨l, p, h⟩
          · obtain ⟨l, p, h⟩ := ih { c with wbuf_pos := _ } _ _
            exact ⟨l, p, h⟩
    · exact ⟨c.wbuf_len, c.wbuf_pos, rfl⟩

theorem SendReply_conn (c : HttpConn) (ws : List WriteEvent) :
    (c.SendReply ws).2.1 = (sendLoop c 0 [] ws).conn := by
  unfold SendReply
  simp only
  split
  · split <;> rfl
  · split <;> rfl

theorem SendReply_frame (c : HttpConn) (ws : List WriteEvent) :
    ∃ l p, (c.SendReply ws).2.1 = { c with wbuf_len := l, wbuf_pos := p } := by
  rw [SendReply_conn]
  exact sendLoop_frame ws c 0 []

theorem sendLoop_writeInv (ws : List WriteEvent) :
    ∀ (c : HttpConn) (nw : Int) (out : List Char), WriteInv c →
      WriteInv (sendLoop c nw out ws).conn := by
  have hM : kHttpMaxMessage = 8388608 := by norm_num [kHttpMaxMessage]
  induction ws with
  | nil =>
    intro c nw out h
    unfold sendLoop
    split <;> exact h
  | cons ev ws ih =>
    intro c nw out h
    unfold sendLoop
    split
    · split
      · exact h
      · exact h
      · simp only
        split
        · exact h
        · split
          · apply ih
            exact ⟨by simp, by simp⟩
          · apply ih
            unfold WriteInv at *
            simp only
            omega
    · exact h

theorem SendReply_writeInv (c : HttpConn) (ws : List WriteEvent) (h : WriteInv c) :
    WriteInv (c.SendReply ws).2.1 := by
  rw [SendReply_conn]
  exact sendLoop_writeInv ws c 0 [] h

theorem SendReply_readInv (c : HttpConn) (ws : List WriteEvent) (h : ReadInv c) :
    ReadInv (c.SendReply ws).2.1 := by
  obtain ⟨l, p, heq⟩ := SendReply_frame c ws
  rw [heq]
  exact h

theorem getPass_writeFrame (deal : Handler) (conv : Str → Option Int) (c : HttpConn)
    (sock : List ReadEvent) :
    (∀ st c1 s1, getPass deal conv c sock = .ret st c1 s1 → WriteFrame c c1) ∧
      (∀ c1 s1, getPass deal conv c sock = .next c1 s1 → WriteFrame c c1) := by
  have hrefl : ∀ c : HttpConn, WriteFrame c c := fun c => ⟨rfl, Or.inl rfl⟩
  have hend : ∀ (c : HttpConn) (sock : List ReadEvent),
      (∀ st c1 s1, packetEnd c sock = .ret st c1 s1 → WriteFrame c c1) ∧
        (∀ c1 s1, packetEnd c sock = .next c1 s1 → WriteFrame c c1) := by
    intro c sock
    unfold packetEnd
    constructor
    · intro st c1 s1 h
      split at h
      · split at h <;> cases h
      · cases h
    · intro c1 s1 h
      split at h
      · split at h
        · cases h
        · rename_i c2 heq
          obtain ⟨req, rfl⟩ := BuildRequestBody_frame _ _ _ heq
          cases h
          exact ⟨rfl, Or.inl rfl⟩
      · cases h
        exact hrefl _
  unfold getPass
  split
  · unfold getHeader
    simp only
    constructor
    · intro st c1 s1 h
      split at h
      · cases h; exact hrefl _
      · split at h
        · cases h; exact hrefl _
        · split at h
          · cases h
          · split at h
            · cases h
            · rename_i c2 heq
              obtain ⟨req, rem, rfl⟩ := BuildRequestHeader_frame _ _ _ _ heq
              cases h
              exact ⟨rfl, Or.inl rfl⟩
            · cases h
    · intro c1 s1 h
      split at h
      · cases h
      · split at h
        · cases h
        · split at h
          · cases h
            exact ⟨rfl, Or.inl rfl⟩
          · split at h
            · cases h
            · cases h
            · rename_i c2 heq
              obtain ⟨req, rem, rfl⟩ := BuildRequestHeader_frame _ _ _ _ heq
              cases h
              exact ⟨rfl, Or.inl rfl⟩
  · unfold getPacket
    simp only
    split
    · exact ⟨fun st c1 s1 h => by cases h; exact hrefl _, fun c1 s1 h => by cases h⟩
    · split
      · split
        · exact ⟨fun st c1 s1 h => by cases h; exact hrefl _, fun c1 s1 h => by cases h⟩
        · split
          · exact ⟨fun st c1 s1 h => by cases h; exact hrefl _, fun c1 s1 h => by cases h⟩
          · have := hend { c with
              rbuf := poke c.rbuf c.rbuf_pos (sockRead sock c.remain_packet_len.toNat).1.data,
              rbuf_pos := (c.rbuf_pos + (sockRead sock c.remain_packet_len.toNat).1.nread.toNat)
                % 2 ^ 32,
              remain_packet_len := c.remain_packet_len
                - (sockRead sock c.remain_packet_len.toNat).1.nread }
              (sockRead sock c.remain_packet_len.toNat).2
            exact this
      · exact hend c sock
  · unfold getComplete
    constructor
    · intro st c1 s1 h
      split at h
      · cases h
      · rename_i c2 heq
        obtain ⟨wbuf, n, hn, rfl⟩ := HandleMessage_frame _ _ _ heq
        cases h
        exact ⟨rfl, Or.inr hn⟩
    · intro c1 s1 h
      split at h <;> cases h
  · exact ⟨fun st c1 s1 h => by cases h; exact hrefl _, fun c1 s1 h => by cases h⟩

theorem getLoop_writeFrame (deal : Handler) (conv : Str → Option Int) :
    ∀ (fuel : Nat) (c : HttpConn) (sock : List ReadEvent) st c1 s1,
      getLoop deal conv fuel c sock = some (st, c1, s1) → WriteFrame c c1 := by
  intro fuel
  induction fuel with
  | zero => intro c sock st c1 s1 h; cases h
  | succ fuel ih =>
    intro c sock st c1 s1 h
    have hp := getPass_writeFrame deal conv c sock
    unfold getLoop at h
    split at h
    · rename_i st2 c2 s2 heq
      cases h
      exact hp.1 _ _ _ heq
    · rename_i c2 s2 heq
      have h1 := hp.2 _ _ heq
      have h2 := ih c2 s2 st c1 s1 h
      refine ⟨h2.1.trans h1.1, ?_⟩
      rcases h2.2 with h3 | h3
      · rcases h1.2 with h4 | h4
        · exact Or.inl (h3.trans h4)
        · exact Or.inr (h3 ▸ h4)
      · exact Or.inr h3
    · cases h

theorem runCalls_readInv (calls : List Call) :
    ∀ c0 c, ReadInv c0 → runCalls c0 calls = some c → ReadInv c := by
  induction calls with
  | nil =>
    intro c0 c h0 h
    simp only [runCalls, Option.some.injEq] at h
    exact h ▸ h0
  | cons call calls ih =>
    intro c0 c h0 h
    cases call with
    | get deal conv sock =>
      unfold runCalls at h
      split at h
      · cases h
      · rename_i st c1 s1 heq
        exact ih c1 c (getLoop_readInv deal conv _ _ _ _ _ _ h0 heq) h
    | send ws =>
      unfold runCalls at h
      exact ih _ c (SendReply_readInv c0 ws h0) h

theorem runCalls_writeInv (calls : List Call) :
    ∀ c0 c, WriteInv c0 → disciplined c0 calls = true → runCalls c0 calls = some c →
      WriteInv c := by
  induction calls with
  | nil =>
    intro c0 c h0 _ h
    simp only [runCalls, Option.some.injEq] at h
    exact h ▸ h0
  | cons call calls ih =>
    intro c0 c h0 hd h
    cases call with
    | get deal conv sock =>
      unfold runCalls at h
      unfold disciplined at hd
      split at h
      · cases h
      · rename_i st c1 s1 heq
        simp only [heq, Bool.and_eq_true, decide_eq_true_eq] at hd
        have hf := getLoop_writeFrame deal conv _ _ _ _ _ _ heq
        refine ih c1 c ?_ hd.2 h
        have h1 := hd.1
        have h2 := hf.1
        unfold WriteInv at *
        rcases hf.2 with h3 | h3 <;> omega
    | send ws =>
      unfold runCalls at h
      unfold disciplined at hd
      exact ih _ c (SendReply_writeInv c0 ws h0) hd h

theorem packetEnd_drained (c : HttpConn) (sock : List ReadEvent) :
    (∀ st c1 s1, packetEnd c sock = .ret st c1 s1 → False) ∧
      (∀ c1 s1, packetEnd c sock = .next c1 s1 → s1 = sock ∧ c1.dealt = c.dealt) := by
  unfold packetEnd
  constructor
  · intro st c1 s1 h
    split at h
    · split at h <;> cases h
    · cases h
  · intro c1 s1 h
    split at h
    · split at h
      · cases h
      · rename_i c2 heq
        obtain ⟨req, rfl⟩ := BuildRequestBody_frame _ _ _ heq
        cases h
        exact ⟨rfl, rfl⟩
    · cases h
      exact ⟨rfl, rfl⟩

theorem sockRead_nil (count : Nat) :
    (sockRead [] count).2 = [] ∧
      ((sockRead [] count).1 = { nread := -1, eagain := true, data := [] } ∨
        (sockRead [] count).1 = { nread := 0, eagain := false, data := [] }) := by
  by_cases h0 : count = 0 <;> simp [sockRead, h0]

theorem getPass_drained (deal : Handler) (conv : Str → Option Int) (c : HttpConn) :
    (∀ st c1 s1, getPass deal conv c [] = .ret st c1 s1 →
        s1 = [] ∧
        (st = .kReadAll →
          c1.rbuf_pos = 0 ∧ c1.conn_status = .kHeader ∧ c1.dealt = c.dealt ++ [c1.request]) ∧
        (st ≠ .kReadAll → c1 = c)) ∧
      (∀ c1 s1, getPass deal conv c [] = .next c1 s1 → s1 = [] ∧ c1.dealt = c.dealt) := by
  have hret : ∀ st0 : ReadStatus, st0 ≠ .kReadAll →
      (∀ st c1 s1, Pass.ret st0 c [] = .ret st c1 s1 →
          s1 = [] ∧
          (st = .kReadAll →
            c1.rbuf_pos = 0 ∧ c1.conn_status = .kHeader ∧
              c1.dealt = c.dealt ++ [c1.request]) ∧
          (st ≠ .kReadAll → c1 = c)) ∧
        (∀ c1 s1, Pass.ret st0 c [] = .next c1 s1 → s1 = [] ∧ c1.dealt = c.dealt) := by
    intro st0 h0
    refine ⟨fun st c1 s1 h => ?_, fun c1 s1 h => by cases h⟩
    cases h
    exact ⟨rfl, fun h => absurd h h0, fun _ => rfl⟩
  unfold getPass
  split
  · unfold getHeader
    simp only
    obtain ⟨h2, h1 | h1⟩ :=
      sockRead_nil ((kHttpMaxHeader + 2 ^ 32 - c.rbuf_pos % 2 ^ 32) % 2 ^ 32)
    · rw [h1, h2]
      simp only [and_self, if_true]
      exact hret .kReadHalf (by decide)
    · rw [h1, h2]
      rw [if_neg (by decide), if_pos (by decide)]
      exact hret .kReadClose (by decide)
  · unfold getPacket
    simp only
    split
    · exact hret .kReadError (by decide)
    · split
      · obtain ⟨h2, h1 | h1⟩ := sockRead_nil c.remain_packet_len.toNat
        · rw [h1, h2]
          simp only [and_self, if_true]
          exact hret .kReadHalf (by decide)
        · rw [h1, h2]
          rw [if_neg (by decide), if_pos (by decide)]
          exact hret .kReadClose (by decide)
      · have := packetEnd_drained c []
        exact ⟨fun st c1 s1 h => (this.1 st c1 s1 h).elim, this.2⟩
  · unfold getComplete
    constructor
    · intro st c1 s1 h
      split at h
      · cases h
      · rename_i c2 heq
        obtain ⟨wbuf, n, -, rfl⟩ := HandleMessage_frame _ _ _ heq
        cases h
        exact ⟨rfl, fun _ => ⟨rfl, rfl, rfl⟩, fun h => absurd rfl h⟩
    · intro c1 s1 h
      split at h <;> cases h
  · exact ⟨fun st c1 s1 h => by cases h; exact ⟨rfl, fun h => (by cases h), fun _ => rfl⟩,
      fun c1 s1 h => by cases h⟩

theorem getLoop_drained (deal : Handler) (conv : Str → Option Int) :
    ∀ (fuel : Nat) (c : HttpConn) st c1 s1,
      getLoop deal conv fuel c [] = some (st, c1, s1) →
        s1 = [] ∧
        (st = .kReadAll →
          c1.rbuf_pos = 0 ∧ c1.conn_status = .kHeader ∧ c1.dealt = c.dealt ++ [c1.request]) ∧
        (st ≠ .kReadAll → c1.dealt = c.dealt) := by
  intro fuel
  induction fuel with
  | zero => intro c st c1 s1 h; cases h
  | succ fuel ih =>
    intro c st c1 s1 h
    have hp := getPass_drained deal conv c
    unfold getLoop at h
    split at h
    · rename_i st2 c2 s2 heq
      cases h
      obtain ⟨h1, h2, h3⟩ := hp.1 _ _ _ heq
      exact ⟨h1, h2, fun h => by rw [h3 h]⟩
    · rename_i c2 s2 heq
      obtain ⟨h1, h2⟩ := hp.2 _ _ heq
      subst h1
      obtain ⟨h3, h4, h5⟩ := ih c2 st c1 s1 h
      exact ⟨h3, fun h => by rw [← h2]; exact h4 h, fun h => by rw [← h2]; exact h5 h⟩
    · cases h

theorem getHeader_single (conv : Str → Option Int) (c : HttpConn) (D : List Char)
    (hpos : c.rbuf_pos = 0) (hD : D.length ≤ kHttpMaxHeader) :
    (∀ st c1 s1, getHeader conv c [.bytes D] = .ret st c1 s1 →
        s1 = [] ∧ st ≠ .kReadAll ∧ c1.dealt = c.dealt) ∧
      (∀ c1 s1, getHeader conv c [.bytes D] = .next c1 s1 → s1 = [] ∧ c1.dealt = c.dealt) := by
  have hcount : (kHttpMaxHeader + 2 ^ 32 - c.rbuf_pos % 2 ^ 32) % 2 ^ 32 = kHttpMaxHeader := by
    rw [hpos]; norm_num [kHttpMaxHeader]
  have hne : ¬ kHttpMaxHeader = 0 := by decide
  unfold getHeader
  simp only [hcount, sockRead, if_neg hne, if_pos hD]
  constructor
  · intro st c1 s1 h
    split at h
    · cases h; exact ⟨rfl, fun h => (by cases h), rfl⟩
    · split at h
      · cases h; exact ⟨rfl, fun h => (by cases h), rfl⟩
      · split at h
        · cases h
        · split at h
          · cases h
          · rename_i c2 heq
            obtain ⟨req, rem, rfl⟩ := BuildRequestHeader_frame _ _ _ _ heq
            cases h
            exact ⟨rfl, fun h => (by cases h), rfl⟩
          · cases h
  · intro c1 s1 h
    split at h
    · cases h
    · split at h
      · cases h
      · split at h
        · cases h
          exact ⟨rfl, rfl⟩
        · split at h
          · cases h
          · cases h
          · rename_i c2 heq
            obtain ⟨req, rem, rfl⟩ := BuildRequestHeader_frame _ _ _ _ heq
            cases h
            exact ⟨rfl, rfl⟩

theorem GetRequest_single (deal : Handler) (conv : Str → Option Int) (c : HttpConn)
    (D : List Char) (hst : c.conn_status = .kHeader) (hpos : c.rbuf_pos = 0)
    (hD : D.length ≤ kHttpMaxHeader) (st : ReadStatus) (c1 : HttpConn) (s1 : List ReadEvent)
    (h : c.GetRequest deal conv [.bytes D] = some (st, c1, s1)) :
    s1 = [] ∧
      (st = .kReadAll →
        c1.rbuf_pos = 0 ∧ c1.conn_status = .kHeader ∧ c1.dealt = c.dealt ++ [c1.request]) ∧
      (st ≠ .kReadAll → c1.dealt = c.dealt) := by
  have hp := getHeader_single conv c D hpos hD
  unfold GetRequest getLoop at h
  simp only [getPass, hst] at h
  split at h
  · rename_i st2 c2 s2 heq
    cases h
    obtain ⟨h1, h2, h3⟩ := hp.1 _ _ _ heq
    exact ⟨h1, fun h => absurd h h2, fun _ => h3⟩
  · rename_i c2 s2 heq
    obtain ⟨h1, h2⟩ := hp.2 _ _ heq
    subst h1
    obtain ⟨h3, h4, h5⟩ := getLoop_drained deal conv _ c2 st c1 s1 h
    exact ⟨h3, fun h => by rw [← h2]; exact h4 h, fun h => by rw [← h2]; exact h5 h⟩
  · cases h

theorem GetRequest_would_block (deal : Handler) (conv : Str → Option Int) (c : HttpConn)
    (hst : c.conn_status = .kHeader) (hpos : c.rbuf_pos < kHttpMaxHeader) :
    c.GetRequest deal conv [] = some (.kReadHalf, c, []) := by
  have hH : kHttpMaxHeader = 65536 := by norm_num [kHttpMaxHeader]
  have hne : ¬ (kHttpMaxHeader + 2 ^ 32 - c.rbuf_pos % 2 ^ 32) % 2 ^ 32 = 0 := by
    omega
  have hread : sockRead [] ((kHttpMaxHeader + 2 ^ 32 - c.rbuf_pos % 2 ^ 32) % 2 ^ 32)
      = ({ nread := -1, eagain := true, data := [] }, []) := by
    simp only [sockRead, if_neg hne]
  unfold GetRequest getLoop
  simp only [getPass, hst, getHeader, hread, and_self, if_true]

theorem SendReply_dealt (c : HttpConn) (ws : List WriteEvent) :
    (c.SendReply ws).2.1.dealt = c.dealt ∧ (c.SendReply ws).2.1.conn_status = c.conn_status ∧
      (c.SendReply ws).2.1.rbuf_pos = c.rbuf_pos := by
  obtain ⟨l, p, heq⟩ := SendReply_frame c ws
  rw [heq]
  exact ⟨rfl, rfl, rfl⟩

/-- C5 (what the code does on the claim's own witness): when one read delivers
`POST /f HTTP/1.1\r\nContent-Length: 7\r\n\r\nx=1&y=2`, `GetRequest` returns `kReadAll`
and the request handed to `DealMessage` has an empty `content` and no `query_params`.
The header was stored under the key `ontent-Length` (the defect of C1), so
`headers.find("Content-Length")` fails, `remain_packet_len_` becomes 0 - 7 and the body
length handed to `ParseBodyFromArray` is 0. -/
theorem c5_post_body_lost :
    (GetRequest echoPath string2l HttpConn.new
        [.bytes "POST /f HTTP/1.1\r\nContent-Length: 7\r\n\r\nx=1&y=2".toList]).map
        (fun r => (r.1, r.2.1.dealt))
      = some (.kReadAll,
          [{ method := "POST".toList, path := "/f".toList, version := "HTTP/1.1".toList,
             headers := [("ontent-Length".toList, "7".toList)], query_params := [],
             content := [] }]) := by
  decide

/-- C6 (the claim fails): one read delivers `GET /a HTTP/1.1\r\n\r\n` followed by
`GET /b HTTP/1.1\r\n\r\n`; driving `GetRequest`, with `SendReply` in between, until the
socket would block invokes `DealMessage` once, on `/a`, and never on `/b`. -/
theorem c6_second_request_dropped :
    (driveReads echoPath string2l 5 HttpConn.new
        [.bytes "GET /a HTTP/1.1\r\n\r\nGET /b HTTP/1.1\r\n\r\n".toList]).map
        (fun c => c.dealt.map (fun r => r.path))
      = some ["/a".toList] := by
  decide

/-- C6 (amended): bytes that the read buffer holds beyond the current request are not
carried over.  When one read of at most 64 KiB delivers `D` (a request and whatever
follows it, for instance a second request) to a connection that waits for a header with
an empty buffer, and the socket would block afterwards, then the `GetRequest` call takes
all of `D`; if it returns `kReadAll` it has reset `rbuf_pos_` to 0 and has invoked
`DealMessage` exactly once, on the request it leaves in `request_`; otherwise it has not
invoked it.  After `kReadAll` and any `SendReply`, the next `GetRequest` returns
`kReadHalf` and changes nothing, so driving the connection until the socket would block
invokes `DealMessage` no more than that once. -/
theorem c6_single_read_one_request (deal : Handler) (conv : Str → Option Int) (c : HttpConn)
    (D : List Char) (hst : c.conn_status = .kHeader) (hpos : c.rbuf_pos = 0)
    (hD : D.length ≤ kHttpMaxHeader) (st : ReadStatus) (c1 : HttpConn) (s1 : List ReadEvent)
    (h : c.GetRequest deal conv [.bytes D] = some (st, c1, s1)) :
    s1 = [] ∧
      (st = .kReadAll → c1.rbuf_pos = 0 ∧ c1.dealt = c.dealt ++ [c1.request]) ∧
      (st ≠ .kReadAll → c1.dealt = c.dealt) ∧
      (st = .kReadAll → ∀ ws,
        (c1.SendReply ws).2.1.GetRequest deal conv s1
          = some (.kReadHalf, (c1.SendReply ws).2.1, [])) ∧
      (∀ rounds c2, driveReads deal conv (rounds + 1) c [.bytes D] = some c2 →
        c2.dealt = c1.dealt) := by
  obtain ⟨h1, h2, h3⟩ := GetRequest_single deal conv c D hst hpos hD st c1 s1 h
  subst h1
  refine ⟨rfl, fun hs => ⟨(h2 hs).1, (h2 hs).2.2⟩, h3, ?_, ?_⟩
  · intro hs ws
    apply GetRequest_would_block
    · rw [(SendReply_dealt c1 ws).2.1]
      exact (h2 hs).2.1
    · rw [(SendReply_dealt c1 ws).2.2, (h2 hs).1]
      decide
  · intro rounds c2 hdrive
    unfold driveReads at hdrive
    rw [h] at hdrive
    by_cases hs : st = .kReadAll
    · subst hs
      simp only at hdrive
      cases rounds with
      | zero =>
        simp only [driveReads, Option.some.injEq] at hdrive
        rw [← hdrive]
        exact (SendReply_dealt c1 _).1
      | succ rounds =>
        unfold driveReads at hdrive
        rw [GetRequest_would_block deal conv _
          (by rw [(SendReply_dealt c1 _).2.1]; exact (h2 rfl).2.1)
          (by rw [(SendReply_dealt c1 _).2.2, (h2 rfl).1]; decide)] at hdrive
        simp only [Option.some.injEq] at hdrive
        rw [← hdrive]
        exact (SendReply_dealt c1 _).1
    · cases st <;> first | exact absurd rfl hs | (simp only [Option.some.injEq] at hdrive; rw [hdrive])

/-- C6 (amended), at a new connection and one read that delivers
`GET /a HTTP/1.1\r\n\r\nGET /b HTTP/1.1\r\n\r\n`: `GetRequest` returns `kReadAll` with
`rbuf_pos_` 0 and the socket drained, `DealMessage` has been invoked on `/a` only, and the
next `GetRequest`, after a `SendReply` that writes the reply, returns `kReadHalf`. -/
theorem c6_single_read_one_request_witness :
    HttpConn.new.GetRequest echoPath string2l
        [.bytes "GET /a HTTP/1.1\r\n\r\nGET /b HTTP/1.1\r\n\r\n".toList]
      = some (.kReadAll, afterTwoRequests, []) ∧
    afterTwoRequests.rbuf_pos = 0 ∧
    afterTwoRequests.dealt = HttpConn.new.dealt ++ [afterTwoRequests.request] ∧
    afterTwoRequests.request.path = "/a".toList ∧
    (afterTwoRequests.SendReply [.room 2]).2.1.GetRequest echoPath string2l []
      = some (.kReadHalf, (afterTwoRequests.SendReply [.room 2]).2.1, []) :=
  have h := c6_single_read_one_request echoPath string2l HttpConn.new
    "GET /a HTTP/1.1\r\n\r\nGET /b HTTP/1.1\r\n\r\n".toList rfl rfl (by decide) .kReadAll
    afterTwoRequests [] (by decide)
  ⟨by decide, (h.2.1 rfl).1, (h.2.1 rfl).2, by decide, h.2.2.2.1 rfl [.room 2]⟩

theorem toInt32_small (n : Nat) (h : n < 2 ^ 31) : toInt32 n = (n : Int) := by
  unfold toInt32
  have h1 : n % 2 ^ 32 = n := Nat.mod_eq_of_lt (by omega)
  rw [h1, if_pos h]

theorem poke_zero (data bs : List Char) : poke data 0 bs = bs ++ data.drop bs.length := by
  simp [poke]

theorem toInt32_wrap (n : Nat) (h : n = 2 ^ 32) : toInt32 n = 0 := by
  subst h
  norm_num [toInt32]

theorem SerializeToArray_wrap (resp : HttpResponse) (data : List Char)
    (h : resp.content.length = 2 ^ 32) :
    (resp.SerializeToArray data 8388608).map (fun r => r.2) = some 0 := by
  unfold HttpResponse.SerializeToArray
  simp only [toInt32_wrap _ h]
  norm_num [toUInt32]

theorem BuildResponseBuf_wrap (c : HttpConn) (h : c.response.content.length = 2 ^ 32) :
    (BuildResponseBuf c).map (fun c1 => c1.wbuf_len) = some 0 := by
  have hM : ((kHttpMaxMessage : Nat) : Int) = 8388608 := by norm_num [kHttpMaxMessage]
  unfold BuildResponseBuf HttpResponse.SerializeToArray
  simp only [toInt32_wrap _ h, hM]
  norm_num [toUInt32]

theorem min_wrap (n : Nat) (h : n = 2 ^ 32) : min n kHttpMaxMessage = 8388608 := by
  subst h
  norm_num [kHttpMaxMessage]

/-- C7 (the claim fails): for a response content of `2 ^ 32` bytes and the capacity
8 MiB, `(int)content.size()` is 0, so `SerializeToArray` returns 0 and `BuildResponseBuf`
sets `wbuf_len_` to 0, not to `min(|c|, 8 MiB) = 8 MiB`. -/
theorem c7_huge_content_wraps :
    (HttpResponse.SerializeToArray { content := List.replicate (2 ^ 32) 'a' } [] 8388608).map
        (fun r => r.2) = some 0 ∧
    (BuildResponseBuf
        { HttpConn.new with response := { content := List.replicate (2 ^ 32) 'a' } }).map
        (fun c => c.wbuf_len) = some 0 ∧
    min (List.replicate (2 ^ 32) 'a').length kHttpMaxMessage = 8388608 :=
  ⟨SerializeToArray_wrap _ _ (List.length_replicate _ _),
    BuildResponseBuf_wrap _ (List.length_replicate _ _),
    min_wrap _ (List.length_replicate _ _)⟩

/-- C7 (amended): for every response content `c` shorter than `2 ^ 31` bytes, every
array and every capacity `cap >= 0`, `SerializeToArray` returns `min(|c|, cap)` and the
array then starts with the first `min(|c|, cap)` bytes of `c`, its other bytes being left
as they were; hence `BuildResponseBuf` sets `wbuf_len_` to `min(|c|, 8 MiB)`, also for
contents larger than 8 MiB. -/
theorem c7_serialize_truncates (resp : HttpResponse) (data : List Char) (size : Int)
    (hlen : resp.content.length < 2 ^ 31) (hsize : 0 ≤ size) :
    resp.SerializeToArray data size
        = some (resp.content.take (min resp.content.length size.toNat)
            ++ data.drop (min resp.content.length size.toNat),
          min resp.content.length size.toNat) ∧
      (∀ c : HttpConn, c.response = resp →
        ∃ c1, BuildResponseBuf c = some c1 ∧
          c1.wbuf_len = min resp.content.length kHttpMaxMessage) := by
  have key : ∀ (d : List Char) (sz : Int), 0 ≤ sz →
      resp.SerializeToArray d sz
        = some (resp.content.take (min resp.content.length sz.toNat)
            ++ d.drop (min resp.content.length sz.toNat),
          min resp.content.length sz.toNat) := by
    intro d sz hsz
    unfold HttpResponse.SerializeToArray
    simp only [toInt32_small _ hlen]
    have hn : ¬ (min (resp.content.length : Int) sz < 0) := by omega
    have hnat : (min (resp.content.length : Int) sz).toNat = min resp.content.length sz.toNat := by
      omega
    have hu : toUInt32 (min (resp.content.length : Int) sz) = min resp.content.length sz.toNat := by
      unfold toUInt32
      rw [Int.emod_eq_of_lt (by omega) (by omega)]
      exact hnat
    rw [if_neg hn, hnat, hu, poke_zero]
    simp
  refine ⟨key data size hsize, ?_⟩
  intro c hc
  unfold BuildResponseBuf
  rw [hc, key c.wbuf _ (by omega)]
  exact ⟨_, rfl, by simp⟩

/-- C7 (amended), at the content `hello world` and the capacity 5. -/
theorem c7_serialize_truncates_witness :
    HttpResponse.SerializeToArray { content := "hello world".toList } "XXXXXXXX".toList 5
      = some ("helloXXX".toList, 5) :=
  (c7_serialize_truncates { content := "hello world".toList } "XXXXXXXX".toList 5
    (by decide) (by decide)).1

theorem slice_length (w : List Char) (a b : Nat) : (slice w a b).length = b - a := by
  simp [slice]

theorem slice_append (w : List Char) (a b c : Nat) (hab : a ≤ b) (hbc : b ≤ c) :
    slice w a b ++ slice w b c = slice w a c := by
  obtain ⟨m, rfl⟩ := Nat.exists_eq_add_of_le hab
  obtain ⟨n, rfl⟩ := Nat.exists_eq_add_of_le hbc
  unfold slice
  rw [← List.map_append]
  congr 1
  have h1 : a + m - a = m := by omega
  have h2 : a + m + n - (a + m) = n := by omega
  have h3 : a + m + n - a = n + m := by omega
  rw [h1, h2, h3]
  exact List.range'_append_1 a m n

theorem SendReply_out (c : HttpConn) (ws : List WriteEvent) :
    (c.SendReply ws).2.2.2 = (sendLoop c 0 [] ws).out := by
  unfold SendReply
  simp only
  split
  · split <;> rfl
  · split <;> rfl

theorem Sent_start (c : HttpConn)
    (h : c.wbuf_pos < c.wbuf_len ∨ (c.wbuf_pos = 0 ∧ c.wbuf_len = 0)) : Sent c c [] := by
  refine ⟨rfl, by simp [slice], ?_⟩
  rcases h with h | h
  · exact Or.inl ⟨rfl, by simp, h⟩
  · exact Or.inr ⟨h.2, h.1, by simp [h.1, h.2]⟩

theorem sendLoop_sent (c0 : HttpConn) (hlen : c0.wbuf_len < 2 ^ 32) (ws : List WriteEvent) :
    ∀ (c : HttpConn) (nw : Int) (acc out : List Char), (∀ e ∈ ws, e.valid) →
      Sent c0 c (acc ++ out) → 0 ≤ nw →
      Sent c0 (sendLoop c nw out ws).conn (acc ++ (sendLoop c nw out ws).out) ∧
        (((sendLoop c nw out ws).nwritten = -1 ∧ 0 < (sendLoop c nw out ws).conn.wbuf_len) ∨
          (0 ≤ (sendLoop c nw out ws).nwritten ∧ (sendLoop c nw out ws).conn.wbuf_len = 0)) := by
  induction ws with
  | nil =>
    intro c nw acc out _ hs hnw
    unfold sendLoop
    split
    · rename_i h
      exact ⟨hs, Or.inl ⟨rfl, h⟩⟩
    · rename_i h
      exact ⟨hs, Or.inr ⟨hnw, by simp only; omega⟩⟩
  | cons ev ws ih =>
    intro c nw acc out hv hs hnw
    have hvs : ∀ e ∈ ws, e.valid := fun e he => hv e (List.mem_cons_of_mem _ he)
    unfold sendLoop
    split
    · rename_i hpos
      split
      · exact ⟨hs, Or.inl ⟨rfl, hpos⟩⟩
      · exact ⟨hs, Or.inl ⟨rfl, hpos⟩⟩
      · rename_i k
        have hk : 1 ≤ k := hv (.room k) (List.mem_cons_self _ _)
        obtain ⟨hw, hout, hcase⟩ := hs
        have hc : c.wbuf_len = c0.wbuf_len ∧ c.wbuf_pos = c0.wbuf_pos + (acc ++ out).length ∧
            c.wbuf_pos < c.wbuf_len := by
          rcases hcase with h | h
          · exact h
          · omega
        have hcount : (c.wbuf_len + 2 ^ 32 - c.wbuf_pos % 2 ^ 32) % 2 ^ 32
            = c.wbuf_len - c.wbuf_pos := by omega
        simp only [hcount]
        have hn : ¬ ((min k (c.wbuf_len - c.wbuf_pos) : Nat) : Int) ≤ 0 := by omega
        rw [if_neg hn]
        have hmod : (c.wbuf_pos + min k (c.wbuf_len - c.wbuf_pos)) % 2 ^ 32
            = c.wbuf_pos + min k (c.wbuf_len - c.wbuf_pos) := by omega
        simp only [hmod]
        have hout2 : acc ++ (out ++ slice c.wbuf c.wbuf_pos
              (c.wbuf_pos + min k (c.wbuf_len - c.wbuf_pos)))
            = slice c0.wbuf c0.wbuf_pos (c0.wbuf_pos + (acc ++ (out ++ slice c.wbuf c.wbuf_pos
              (c.wbuf_pos + min k (c.wbuf_len - c.wbuf_pos)))).length) := by
          rw [← List.append_assoc, List.length_append, slice_length, hw]
          conv_lhs => rw [hout, hc.2.1]
          rw [slice_append _ _ _ _ (by omega) (by omega)]
          congr 1
          omega
        have hlen2 : (acc ++ (out ++ slice c.wbuf c.wbuf_pos
              (c.wbuf_pos + min k (c.wbuf_len - c.wbuf_pos)))).length
            = (acc ++ out).length + min k (c.wbuf_len - c.wbuf_pos) := by
          rw [← List.append_assoc, List.length_append, slice_length]
          omega
        split
        · rename_i hfin
          apply ih _ _ _ _ hvs _ (by omega)
          exact ⟨hw, hout2, Or.inr ⟨rfl, rfl, by rw [hlen2]; omega⟩⟩
        · rename_i hfin
          apply ih _ _ _ _ hvs _ (by omega)
          exact ⟨hw, hout2, Or.inl ⟨hc.1, by simp only; rw [hlen2]; omega, by simp only; omega⟩⟩
    · rename_i hpos
      exact ⟨hs, Or.inr ⟨hnw, by simp only; omega⟩⟩

theorem SendReply_sent (c0 c : HttpConn) (hlen : c0.wbuf_len < 2 ^ 32) (ws : List WriteEvent)
    (acc : List Char) (hv : ∀ e ∈ ws, e.valid) (hs : Sent c0 c acc) :
    Sent c0 (c.SendReply ws).2.1 (acc ++ (c.SendReply ws).2.2.2) := by
  rw [SendReply_conn, SendReply_out]
  exact (sendLoop_sent c0 hlen ws c 0 acc [] hv (by simpa using hs) (le_refl _)).1

theorem sendCalls_sent (c0 : HttpConn) (hlen : c0.wbuf_len < 2 ^ 32)
    (scripts : List (List WriteEvent)) :
    ∀ (c : HttpConn) (acc : List Char), (∀ ws ∈ scripts, ∀ e ∈ ws, e.valid) → Sent c0 c acc →
      Sent c0 (sendCalls c scripts).1 (acc ++ (sendCalls c scripts).2) := by
  induction scripts with
  | nil =>
    intro c acc _ hs
    simpa [sendCalls] using hs
  | cons ws scripts ih =>
    intro c acc hv hs
    simp only [sendCalls]
    rw [← List.append_assoc]
    exact ih _ _ (fun w hw => hv w (List.mem_cons_of_mem _ hw))
      (SendReply_sent c0 c hlen ws acc (hv ws (List.mem_cons_self _ _)) hs)

/-- C8 (the claim fails): with `wbuf_pos_ = wbuf_len_ = 5` every byte of
`wbuf[wbuf_pos .. wbuf_len)` has been written (there is none), yet `SendReply` does not
return `kWriteAll`: the loop runs because `wbuf_len_ > 0`, the `write` of 0 bytes would
block or returns 0, and the status is `kWriteHalf`, with both fields still 5. -/
theorem c8_position_at_end_never_done :
    helloAtEnd.wbuf_pos ≤ helloAtEnd.wbuf_len ∧
    slice helloAtEnd.wbuf helloAtEnd.wbuf_pos helloAtEnd.wbuf_len = [] ∧
    helloAtEnd.SendReply [.again] = (.kWriteHalf, helloAtEnd, [], []) ∧
    helloAtEnd.SendReply [.room 3] = (.kWriteHalf, helloAtEnd, [], []) := by
  decide

/-- C8 (amended): for every queued reply with `wbuf_pos_ < wbuf_len_`, or with
`wbuf_pos_ = wbuf_len_ = 0` (`wbuf_len_` being a `uint32_t`), and every sequence of `SendReply` calls whose writes are
short or full writes of at least one byte, `EAGAIN` or a fatal error: the bytes written
by all the calls are, in order, `wbuf[wbuf_pos .. wbuf_pos + n)` for their number `n`, a
stretch that ends within `wbuf_len_`; a call returns `kWriteAll` exactly when all of
`wbuf[wbuf_pos .. wbuf_len)` has then been written, and then `wbuf_pos_` and `wbuf_len_`
are 0; it returns `kWriteHalf` exactly when its last `write` gave -1 with `EAGAIN`, and
`kWriteError` exactly when its last `write` gave -1 with another error. -/
theorem c8_send_reply_in_order (c : HttpConn) (scripts : List (List WriteEvent))
    (ws : List WriteEvent)
    (hstate : c.wbuf_pos < c.wbuf_len ∨ (c.wbuf_pos = 0 ∧ c.wbuf_len = 0))
    (hlen : c.wbuf_len < 2 ^ 32)
    (hv1 : ∀ w ∈ scripts, ∀ e ∈ w, e.valid) (hv2 : ∀ e ∈ ws, e.valid) :
    replyOut c scripts ws
        = slice c.wbuf c.wbuf_pos (c.wbuf_pos + (replyOut c scripts ws).length) ∧
      c.wbuf_pos + (replyOut c scripts ws).length ≤ c.wbuf_len ∧
      (replyStatus c scripts ws = .kWriteAll ↔
        c.wbuf_pos + (replyOut c scripts ws).length = c.wbuf_len) ∧
      (replyStatus c scripts ws = .kWriteAll →
        (replyConn c scripts ws).wbuf_pos = 0 ∧ (replyConn c scripts ws).wbuf_len = 0) ∧
      (replyStatus c scripts ws = .kWriteHalf ↔
        ((replyLoop c scripts ws).nwritten = -1 ∧ (replyLoop c scripts ws).eagain = true)) ∧
      (replyStatus c scripts ws = .kWriteError ↔
        ((replyLoop c scripts ws).nwritten = -1 ∧ (replyLoop c scripts ws).eagain = false)) := by
  have h1 := sendCalls_sent c hlen scripts c [] hv1 (Sent_start c hstate)
  rw [List.nil_append] at h1
  have h2 := sendLoop_sent c hlen ws (sendCalls c scripts).1 0 (sendCalls c scripts).2 [] hv2
    (by simpa using h1) (le_refl _)
  have hout : replyOut c scripts ws
      = (sendCalls c scripts).2 ++ (sendLoop (sendCalls c scripts).1 0 [] ws).out := by
    unfold replyOut
    rw [SendReply_out]
  have hconn : replyConn c scripts ws = (sendLoop (sendCalls c scripts).1 0 [] ws).conn := by
    unfold replyConn
    rw [SendReply_conn]
  have hstat : replyStatus c scripts ws
      = if (sendLoop (sendCalls c scripts).1 0 [] ws).nwritten = -1 then
          (if (sendLoop (sendCalls c scripts).1 0 [] ws).eagain = true then .kWriteHalf
            else .kWriteError)
        else if (sendLoop (sendCalls c scripts).1 0 [] ws).conn.wbuf_len = 0 then .kWriteAll
        else .kWriteHalf := by
    unfold replyStatus SendReply
    simp only
    split
    · split <;> rfl
    · split <;> rfl
  rw [hout, hconn, hstat]
  unfold replyLoop
  generalize sendLoop (sendCalls c scripts).1 0 [] ws = s at h2
  generalize (sendCalls c scripts).2 = acc at h2
  obtain ⟨⟨hw, hsl, hcase⟩, hfin⟩ := h2
  refine ⟨hsl, ?_, ?_, ?_, ?_, ?_⟩
  · rcases hcase with h | h <;> omega
  · rcases hfin with ⟨hn, hp⟩ | ⟨hn, hp⟩
    · have hne : s.conn.wbuf_len ≠ 0 := by omega
      rw [if_pos hn]
      constructor
      · intro h
        split at h <;> cases h
      · intro h
        rcases hcase with h3 | h3 <;> omega
    · have hn1 : ¬ s.nwritten = -1 := by omega
      rw [if_neg hn1, if_pos hp]
      constructor
      · intro _
        rcases hcase with h3 | h3 <;> omega
      · intro _
        rfl
  · rcases hfin with ⟨hn, hp⟩ | ⟨hn, hp⟩
    · rw [if_pos hn]
      intro h
      split at h <;> cases h
    · intro _
      rcases hcase with h3 | h3
      · omega
      · exact ⟨h3.2.1, h3.1⟩
  · rcases hfin with ⟨hn, hp⟩ | ⟨hn, hp⟩
    · rw [if_pos hn]
      by_cases he : s.eagain = true
      · simp [he, hn]
      · simp [he]
    · have hn1 : ¬ s.nwritten = -1 := by omega
      rw [if_neg hn1, if_pos hp]
      simp [hn1]
  · rcases hfin with ⟨hn, hp⟩ | ⟨hn, hp⟩
    · rw [if_pos hn]
      by_cases he : s.eagain = true
      · simp [he]
      · simp [he, hn]
    · have hn1 : ¬ s.nwritten = -1 := by omega
      rw [if_neg hn1, if_pos hp]
      simp [hn1]

/-- C8 (amended), at the reply `hello world`: a first call writes 3 bytes and would
block, a second call fails at once, a third call writes the other 8 bytes and returns
`kWriteAll`. -/
theorem c8_send_reply_in_order_witness :
    replyOut helloQueued [[.room 3, .again], [.failed]] [.room 100] = "hello world".toList ∧
    replyStatus helloQueued [[.room 3, .again], [.failed]] [.room 100] = .kWriteAll ∧
    replyStatus helloQueued [[.room 3, .again]] [.failed] = .kWriteError ∧
    replyStatus helloQueued [] [.room 3, .again] = .kWriteHalf ∧
    (replyStatus helloQueued [[.room 3, .again], [.failed]] [.room 100] = .kWriteAll ↔
      helloQueued.wbuf_pos
          + (replyOut helloQueued [[.room 3, .again], [.failed]] [.room 100]).length
        = helloQueued.wbuf_len) :=
  ⟨by decide, by decide, by decide, by decide,
    (c8_send_reply_in_order helloQueued [[.room 3, .again], [.failed]] [.room 100]
      (by decide) (by decide) (by simp [WriteEvent.valid]) (by simp [WriteEvent.valid])).2.2.1⟩

/-- C9: in every state that a sequence of `GetRequest` and `SendReply` calls reaches from
a new connection (any handler, any conversion of `Content-Length`, any socket events),
`rbuf_pos_` is at most `kHttpMaxMessage`; and in such a state, when `conn_status_` is
`kPacket` and `remain_packet_len_ > kHttpMaxMessage - rbuf_pos_`, `GetRequest` returns
`kReadError` and reads nothing: the connection and the socket are as before. -/
theorem c9_rbuf_pos_bounded (calls : List Call) (c : HttpConn)
    (h : runCalls HttpConn.new calls = some c) :
    c.rbuf_pos ≤ kHttpMaxMessage ∧
      (c.conn_status = .kPacket →
        c.remain_packet_len > (kHttpMaxMessage : Int) - (c.rbuf_pos : Int) →
        ∀ deal conv sock, c.GetRequest deal conv sock = some (.kReadError, c, sock)) := by
  have hnew : ReadInv HttpConn.new := by
    constructor
    · simp [HttpConn.new]
    · intro _
      simp [HttpConn.new]
  have hinv := runCalls_readInv calls HttpConn.new c hnew h
  refine ⟨hinv.1, ?_⟩
  intro hst hrem deal conv sock
  have hbig : c.remain_packet_len >
      (((kHttpMaxMessage + 2 ^ 32 - c.rbuf_pos % 2 ^ 32) % 2 ^ 32 : Nat) : Int) := by
    rw [readInv_message_count _ hinv.1]
    have := hinv.1
    omega
  unfold GetRequest getLoop
  simp only [getPass, hst, getPacket, if_pos hbig]

/-- C9, at the state after one read of a `POST` header that announces 9000000 body bytes:
`rbuf_pos_` is 51, and `GetRequest` answers `kReadError` without touching the socket. -/
theorem c9_rbuf_pos_bounded_witness :
    runCalls HttpConn.new [.get echoPath string2l
        [.bytes "POST /f HTTP/1.1\r\nA: b\r\nContent-Length: 9000000\r\n\r\n".toList]]
      = some afterLargePost ∧
    afterLargePost.conn_status = .kPacket ∧
    afterLargePost.remain_packet_len
      > (kHttpMaxMessage : Int) - (afterLargePost.rbuf_pos : Int) ∧
    afterLargePost.rbuf_pos ≤ kHttpMaxMessage ∧
    afterLargePost.GetRequest echoPath string2l [.bytes "x".toList]
      = some (.kReadError, afterLargePost, [.bytes "x".toList]) :=
  have h := c9_rbuf_pos_bounded [.get echoPath string2l
      [.bytes "POST /f HTTP/1.1\r\nA: b\r\nContent-Length: 9000000\r\n\r\n".toList]]
    afterLargePost (by decide)
  ⟨by decide, by decide, by decide, h.1, h.2 (by decide) (by decide) _ _ _⟩

/-- C10 (the claim fails): a 10-byte reply is queued, `SendReply` writes 7 bytes of it and
the socket would block, then `GetRequest` handles a second request whose reply has 2
bytes: `wbuf_len_` is 2 and `wbuf_pos_` is still 7. -/
theorem c10_stale_wbuf_pos :
    (runCalls HttpConn.new
        [.get echoPath string2l [.bytes "GET /123456789 HTTP/1.1\r\n\r\n".toList],
         .send [.room 7],
         .get echoPath string2l [.bytes "GET /b HTTP/1.1\r\n\r\n".toList]]).map
        (fun c => (c.wbuf_pos, c.wbuf_len))
      = some (7, 2) := by
  decide

/-- C10 (amended): in every state that a sequence of `GetRequest` and `SendReply` calls
reaches from a new connection, with any handler and any socket events, provided
`GetRequest` is only called while `wbuf_pos_` is 0 (no reply is partly written, as when
the reactor reads again only after `kWriteAll`), `wbuf_pos_ <= wbuf_len_` and
`wbuf_len_ <= kHttpMaxMessage`. -/
theorem c10_wbuf_bounds (calls : List Call) (c : HttpConn)
    (hd : disciplined HttpConn.new calls = true)
    (h : runCalls HttpConn.new calls = some c) :
    c.wbuf_pos ≤ c.wbuf_len ∧ c.wbuf_len ≤ kHttpMaxMessage :=
  runCalls_writeInv calls HttpConn.new c ⟨by simp [HttpConn.new], by simp [HttpConn.new]⟩ hd h

/-- C10 (amended), at: a request with a 10-byte reply, a `SendReply` that writes 7 bytes,
a `SendReply` that writes the other 3, a request with a 2-byte reply, and a `SendReply`
that writes 1 byte; then `wbuf_pos_` is 1 and `wbuf_len_` is 2. -/
theorem c10_wbuf_bounds_witness :
    ∃ c, runCalls HttpConn.new
        [.get echoPath string2l [.bytes "GET /123456789 HTTP/1.1\r\n\r\n".toList],
         .send [.room 7], .send [.room 9],
         .get echoPath string2l [.bytes "GET /b HTTP/1.1\r\n\r\n".toList],
         .send [.room 1]] = some c ∧
      (c.wbuf_pos, c.wbuf_len) = (1, 2) ∧
      c.wbuf_pos ≤ c.wbuf_len ∧ c.wbuf_len ≤ kHttpMaxMessage :=
  have hs : (runCalls HttpConn.new
        [.get echoPath string2l [.bytes "GET /123456789 HTTP/1.1\r\n\r\n".toList],
         .send [.room 7], .send [.room 9],
         .get echoPath string2l [.bytes "GET /b HTTP/1.1\r\n\r\n".toList],
         .send [.room 1]]).isSome = true := by decide
  ⟨Option.get _ hs, (Option.some_get hs).symm, rfl,
    c10_wbuf_bounds _ _ (by decide) (Option.some_get hs).symm⟩

end Connection

/-! ## The reactor thread -/

section Thread

open HolyThread HttpConn

theorem tabFind_assign {κ β : Type} [DecidableEq κ] (m : List (κ × β)) (k k1 : κ) (v : β) :
    tabFind (tabAssign m k v) k1 = if k = k1 then some v else tabFind m k1 := by
  induction m with
  | nil => simp [tabAssign, tabFind]
  | cons e m ih =>
    obtain ⟨k2, v2⟩ := e
    by_cases h : k2 = k
    · subst h
      simp only [tabAssign, if_true, tabFind]
      by_cases h1 : k2 = k1 <;> simp [h1]
    · simp only [tabAssign, if_neg h, tabFind, ih]
      by_cases h1 : k2 = k1
      · subst h1
        simp [Ne.symm h]
      · simp [h1]

theorem tabFind_erase {κ β : Type} [DecidableEq κ] (m : List (κ × β)) (k k1 : κ) :
    tabFind (tabErase m k) k1 = if k = k1 then none else tabFind m k1 := by
  induction m with
  | nil => simp [tabErase, tabFind]
  | cons e m ih =>
    obtain ⟨k2, v2⟩ := e
    unfold tabErase at ih ⊢
    by_cases h : k2 = k
    · subst h
      simp only [List.filter, ne_eq, not_true_eq_false, decide_False, ih, tabFind]
      by_cases h1 : k2 = k1 <;> simp [h1]
    · simp only [List.filter, ne_eq, h, not_false_eq_true, decide_True, tabFind, ih]
      by_cases h1 : k2 = k1
      · subst h1
        simp [Ne.symm h]
      · simp [h1]

theorem mem_closeFd (fds : List Int) (fd x : Int) : x ∈ closeFd fds fd ↔ x ∈ fds ∧ x ≠ fd := by
  simp [closeFd]

theorem tabFind_mod (ep : PinkEpoll) (fd fd1 : Int) (mask : Nat) :
    tabFind (PinkModEvent ep fd 0 mask) fd1
      = if fd = fd1 ∧ (tabFind ep fd).isSome then some mask else tabFind ep fd1 := by
  unfold PinkModEvent
  cases h : tabFind ep fd with
  | none => simp
  | some m =>
    simp only [tabFind_assign, Nat.zero_or, Option.isSome_some, and_true]

theorem getPass_is_reply (deal : Handler) (conv : Str → Option Int) (c : HttpConn)
    (sock : List ReadEvent) :
    (∀ st c1 s1, getPass deal conv c sock = .ret st c1 s1 →
        (st = .kReadAll → c1.is_reply = true) ∧ (st ≠ .kReadAll → c1.is_reply = c.is_reply)) ∧
      (∀ c1 s1, getPass deal conv c sock = .next c1 s1 → c1.is_reply = c.is_reply) := by
  have hend : ∀ (c : HttpConn) (sock : List ReadEvent),
      (∀ st c1 s1, packetEnd c sock = .ret st c1 s1 → False) ∧
        (∀ c1 s1, packetEnd c sock = .next c1 s1 → c1.is_reply = c.is_reply) := by
    intro c sock
    unfold packetEnd
    constructor
    · intro st c1 s1 h
      split at h
      · split at h <;> cases h
      · cases h
    · intro c1 s1 h
      split at h
      · split at h
        · cases h
        · rename_i c2 heq
          obtain ⟨req, rfl⟩ := BuildRequestBody_frame _ _ _ heq
          cases h
          rfl
      · cases h
        rfl
  unfold getPass
  split
  · unfold getHeader
    simp only
    constructor
    · intro st c1 s1 h
      split at h
      · cases h; exact ⟨fun h => (by cases h), fun _ => rfl⟩
      · split at h
        · cases h; exact ⟨fun h => (by cases h), fun _ => rfl⟩
        · split at h
          · cases h
          · split at h
            · cases h
            · rename_i c2 heq
              obtain ⟨req, rem, rfl⟩ := BuildRequestHeader_frame _ _ _ _ heq
              cases h
              exact ⟨fun h => (by cases h), fun _ => rfl⟩
            · cases h
    · intro c1 s1 h
      split at h
      · cases h
      · split at h
        · cases h
        · split at h
          · cases h
            rfl
          · split at h
            · cases h
            · cases h
            · rename_i c2 heq
              obtain ⟨req, rem, rfl⟩ := BuildRequestHeader_frame _ _ _ _ heq
              cases h
              rfl
  · unfold getPacket
    simp only
    split
    · exact ⟨fun st c1 s1 h => by cases h; exact ⟨fun h => (by cases h), fun _ => rfl⟩,
        fun c1 s1 h => by cases h⟩
    · split
      · split
        · exact ⟨fun st c1 s1 h => by cases h; exact ⟨fun h => (by cases h), fun _ => rfl⟩,
            fun c1 s1 h => by cases h⟩
        · split
          · exact ⟨fun st c1 s1 h => by cases h; exact ⟨fun h => (by cases h), fun _ => rfl⟩,
              fun c1 s1 h => by cases h⟩
          · have := hend { c with
              rbuf := poke c.rbuf c.rbuf_pos (sockRead sock c.remain_packet_len.toNat).1.data,
              rbuf_pos := (c.rbuf_pos + (sockRead sock c.remain_packet_len.toNat).1.nread.toNat)
                % 2 ^ 32,
              remain_packet_len := c.remain_packet_len
                - (sockRead sock c.remain_packet_len.toNat).1.nread }
              (sockRead sock c.remain_packet_len.toNat).2
            exact ⟨fun st c1 s1 h => (this.1 st c1 s1 h).elim, this.2⟩
      · exact ⟨fun st c1 s1 h => ((hend c sock).1 st c1 s1 h).elim, (hend c sock).2⟩
  · unfold getComplete
    constructor
    · intro st c1 s1 h
      split at h
      · cases h
      · rename_i c2 heq
        obtain ⟨wbuf, n, hn, rfl⟩ := HandleMessage_frame _ _ _ heq
        cases h
        exact ⟨fun _ => rfl, fun h => absurd rfl h⟩
    · intro c1 s1 h
      split at h <;> cases h
  · exact ⟨fun st c1 s1 h => by cases h; exact ⟨fun h => (by cases h), fun _ => rfl⟩,
      fun c1 s1 h => by cases h⟩

theorem getLoop_is_reply (deal : Handler) (conv : Str → Option Int) :
    ∀ (fuel : Nat) (c : HttpConn) (sock : List ReadEvent) st c1 s1,
      getLoop deal conv fuel c sock = some (st, c1, s1) →
        (st = .kReadAll → c1.is_reply = true) ∧ (st ≠ .kReadAll → c1.is_reply = c.is_reply) := by
  intro fuel
  induction fuel with
  | zero => intro c sock st c1 s1 h; cases h
  | succ fuel ih =>
    intro c sock st c1 s1 h
    have hp := getPass_is_reply deal conv c sock
    unfold getLoop at h
    split at h
    · rename_i st2 c2 s2 heq
      cases h
      exact hp.1 _ _ _ heq
    · rename_i c2 s2 heq
      have h1 := hp.2 _ _ heq
      have h2 := ih c2 s2 st c1 s1 h
      exact ⟨h2.1, fun hne => (h2.2 hne).trans h1⟩
    · cases h

theorem SendReply_is_reply (c : HttpConn) (ws : List WriteEvent) :
    (c.SendReply ws).2.1.is_reply = c.is_reply := by
  obtain ⟨l, p, h⟩ := SendReply_frame c ws
  rw [h]

theorem threadInv_update (t : HolyThread) (h : ThreadInv t) (fd : Int) (p : Nat)
    (hp : tabFind t.conns_ fd = some p) (c1 : HttpConn) (ep : PinkEpoll)
    (hep : ∀ fd1, fd1 ≠ fd → tabFind ep fd1 = tabFind t.pink_epoll_ fd1)
    (hfd : tabFind ep fd = some (if c1.is_reply then EPOLLOUT else EPOLLIN)) :
    ThreadInv { t with heap := tabAssign t.heap p c1, pink_epoll_ := ep } := by
  constructor
  · intro fd1 p1 h1
    obtain ⟨a, b, c, hc⟩ := h.live fd1 p1 h1
    refine ⟨a, b, ?_⟩
    simp only [tabFind_assign]
    by_cases e : p = p1
    · exact ⟨c1, by simp [e]⟩
    · exact ⟨c, by simp [e, hc]⟩
  · exact h.apart
  · intro fd1
    by_cases e : fd1 = fd
    · subst e
      simp only [hp, hfd, Option.isSome_some]
    · simp only [hep fd1 e]
      exact h.watched fd1
  · exact h.opened
  · intro fd1 p1 c h1 h2
    simp only [tabFind_assign] at h2
    by_cases e : fd1 = fd
    · subst e
      have : p1 = p := by
        simp only at h1
        rw [hp] at h1
        exact (Option.some.inj h1).symm
      subst this
      simp only [if_true, Option.some.injEq] at h2
      subst h2
      exact hfd
    · have hne : p ≠ p1 := by
        intro e1
        subst e1
        exact e (h.apart fd1 fd p h1 hp)
      simp only [if_neg hne] at h2
      simp only [hep fd1 e]
      exact h.interest fd1 p1 c h1 h2

theorem threadInv_new : ThreadInv HolyThread.new := by
  constructor <;> simp [HolyThread.new, tabFind]

theorem threadInv_newConn (t t1 : HolyThread) (h : ThreadInv t) (connfd : Int)
    (ha : t.accept connfd = some t1) : ThreadInv (t1.HandleNewConn connfd) := by
  unfold HolyThread.accept at ha
  split at ha
  · cases ha
  · rename_i hnot
    cases ha
    have hfree : tabFind t.conns_ connfd = none := by
      cases e : tabFind t.conns_ connfd with
      | none => rfl
      | some p => exact absurd ((h.opened connfd).1 (by simp [e])) hnot
    unfold HolyThread.HandleNewConn PinkAddEvent
    constructor
    · intro fd p h1
      simp only [tabFind_assign] at h1 ⊢
      by_cases e : connfd = fd
      · simp only [if_pos e, Option.some.injEq] at h1
        subst h1
        exact ⟨by omega, le_refl _, HttpConn.new, by simp⟩
      · simp only [if_neg e] at h1
        obtain ⟨a, b, c, hc⟩ := h.live fd p h1
        refine ⟨a, by omega, c, ?_⟩
        have : t.allocs + 1 ≠ p := by omega
        simp [this, hc]
    · intro fd1 fd2 p h1 h2
      simp only [tabFind_assign] at h1 h2
      by_cases e1 : connfd = fd1 <;> by_cases e2 : connfd = fd2
      · exact e1.symm.trans e2
      · simp only [if_pos e1, if_neg e2, Option.some.injEq] at h1 h2
        subst h1
        have := (h.live fd2 _ h2).2.1
        omega
      · simp only [if_pos e2, if_neg e1, Option.some.injEq] at h1 h2
        subst h2
        have := (h.live fd1 _ h1).2.1
        omega
      · simp only [if_neg e1, if_neg e2] at h1 h2
        exact h.apart fd1 fd2 p h1 h2
    · intro fd
      simp only [tabFind_assign]
      by_cases e : connfd = fd
      · simp [e]
      · simp only [if_neg e]
        exact h.watched fd
    · intro fd
      simp only [tabFind_assign, List.mem_cons]
      by_cases e : connfd = fd
      · simp [e]
      · simp only [if_neg e]
        rw [h.opened fd]
        constructor
        · exact Or.inr
        · rintro (h1 | h1)
          · exact absurd h1.symm e
          · exact h1
    · intro fd p c h1 h2
      simp only [tabFind_assign] at h1 h2 ⊢
      by_cases e : connfd = fd
      · simp only [if_pos e, Option.some.injEq] at h1
        subst h1
        simp only [if_true, Option.some.injEq] at h2
        subst h2
        simp [e, HttpConn.new]
      · simp only [if_neg e] at h1 ⊢
        have hp := (h.live fd p h1).2.1
        have : t.allocs + 1 ≠ p := by omega
        simp only [if_neg this] at h2
        exact h.interest fd p c h1 h2

theorem readPart_inv (s : EventState) (pfe : PinkFiredEvent) (p : Nat) (io : ConnIO)
    (h : ThreadInv s.t) (hp : tabFind s.t.conns_ pfe.fd = some p)
    (hin : s.in_conn = 0 ∨ s.in_conn = p) :
    (∀ t1, readPart s pfe p io = some (.ret t1) → ThreadInv t1) ∧
      (∀ s1, readPart s pfe p io = some (.go s1) →
        ThreadInv s1.t ∧ tabFind s1.t.conns_ pfe.fd = some p ∧
          (s1.in_conn = 0 ∨ s1.in_conn = p)) := by
  unfold readPart
  by_cases hm : pfe.mask &&& EPOLLIN ≠ 0
  · simp only [if_pos hm]
    cases hc : tabFind s.t.heap p with
    | none => exact ⟨fun t1 h1 => (by cases h1), fun s1 h1 => by cases h1⟩
    | some c =>
      simp only
      cases hg : c.GetRequest io.deal io.conv io.reads with
      | none => exact ⟨fun t1 h1 => (by cases h1), fun s1 h1 => by cases h1⟩
      | some r =>
        obtain ⟨st, c1, s1⟩ := r
        simp only
        have hr := getLoop_is_reply _ _ _ _ _ _ _ _ hg
        have hint := h.interest _ _ _ hp hc
        have hw : (tabFind s.t.pink_epoll_ pfe.fd).isSome := by rw [hint]; rfl
        by_cases he : st ≠ .kReadAll ∧ st ≠ .kReadHalf
        · simp only [if_pos he]
          refine ⟨fun t1 h1 => (by cases h1), fun s2 h2 => ?_⟩
          cases h2
          refine ⟨?_, hp, Or.inr rfl⟩
          exact threadInv_update s.t h pfe.fd p hp c1 s.t.pink_epoll_ (fun _ _ => rfl)
            (by rw [hr.2 he.1]; exact hint)
        · simp only [if_neg he]
          by_cases hrep : c1.is_reply = true
          · simp only [if_pos hrep]
            refine ⟨fun t1 h1 => (by cases h1), fun s2 h2 => ?_⟩
            cases h2
            refine ⟨?_, hp, Or.inr rfl⟩
            apply threadInv_update s.t h pfe.fd p hp c1
            · intro fd1 hne
              rw [tabFind_mod]
              simp [Ne.symm hne]
            · rw [tabFind_mod]
              simp [hw, hrep]
          · simp only [if_neg hrep]
            refine ⟨fun t1 h1 => ?_, fun s1 h1 => by cases h1⟩
            cases h1
            have hst : st ≠ .kReadAll := by
              intro e
              exact hrep (hr.1 e)
            exact threadInv_update s.t h pfe.fd p hp c1 s.t.pink_epoll_ (fun _ _ => rfl)
              (by rw [hr.2 hst]; exact hint)
  · simp only [if_neg hm]
    refine ⟨fun t1 h1 => (by cases h1), fun s1 h1 => ?_⟩
    cases h1
    exact ⟨h, hp, hin⟩

theorem writePart_inv (s : EventState) (pfe : PinkFiredEvent) (p : Nat) (io : ConnIO)
    (h : ThreadInv s.t) (hp : tabFind s.t.conns_ pfe.fd = some p)
    (hin : s.in_conn = 0 ∨ s.in_conn = p) :
    (∀ t1, writePart s pfe p io = some (.ret t1) → ThreadInv t1) ∧
      (∀ s1, writePart s pfe p io = some (.go s1) →
        ThreadInv s1.t ∧ tabFind s1.t.conns_ pfe.fd = some p ∧
          (s1.in_conn = 0 ∨ s1.in_conn = p)) := by
  unfold writePart
  by_cases hm : pfe.mask &&& EPOLLOUT ≠ 0
  · simp only [if_pos hm]
    cases hc : tabFind s.t.heap p with
    | none => exact ⟨fun t1 h1 => (by cases h1), fun s1 h1 => by cases h1⟩
    | some c =>
      simp only
      have hr := SendReply_is_reply c io.writes
      have hint := h.interest _ _ _ hp hc
      have hw : (tabFind s.t.pink_epoll_ pfe.fd).isSome := by rw [hint]; rfl
      cases hs : (c.SendReply io.writes).1 with
      | kWriteAll =>
        simp only
        refine ⟨fun t1 h1 => (by cases h1), fun s2 h2 => ?_⟩
        cases h2
        refine ⟨?_, hp, Or.inr rfl⟩
        apply threadInv_update s.t h pfe.fd p hp
        · intro fd1 hne
          rw [tabFind_mod]
          simp [Ne.symm hne]
        · rw [tabFind_mod]
          simp [hw]
      | kWriteHalf =>
        simp only
        refine ⟨fun t1 h1 => ?_, fun s1 h1 => by cases h1⟩
        cases h1
        exact threadInv_update s.t h pfe.fd p hp _ s.t.pink_epoll_ (fun _ _ => rfl)
          (by rw [hr]; exact hint)
      | kWriteError =>
        simp only
        refine ⟨fun t1 h1 => (by cases h1), fun s2 h2 => ?_⟩
        cases h2
        refine ⟨?_, hp, Or.inr rfl⟩
        exact threadInv_update s.t h pfe.fd p hp _ s.t.pink_epoll_ (fun _ _ => rfl)
          (by rw [hr]; exact hint)
  · simp only [if_neg hm]
    refine ⟨fun t1 h1 => (by cases h1), fun s1 h1 => ?_⟩
    cases h1
    exact ⟨h, hp, hin⟩

theorem closePart_inv (s : EventState) (pfe : PinkFiredEvent) (p : Nat)
    (h : ThreadInv s.t) (hp : tabFind s.t.conns_ pfe.fd = some p)
    (hin : s.in_conn = 0 ∨ s.in_conn = p) (t1 : HolyThread)
    (hc : closePart s pfe = some t1) : ThreadInv t1 := by
  unfold closePart at hc
  split at hc
  · have hheap : ∃ heap, deleteConn s.t.heap s.in_conn = some heap ∧
        ∀ p1, p1 ≠ p → tabFind heap p1 = tabFind s.t.heap p1 := by
      unfold deleteConn
      rcases hin with e | e
      · exact ⟨s.t.heap, by simp [e], fun _ _ => rfl⟩
      · obtain ⟨hp0, _, c, hc⟩ := h.live _ _ hp
        refine ⟨tabErase s.t.heap p, by simp [e, hp0, hc], fun p1 hne => ?_⟩
        rw [tabFind_erase]
        simp [Ne.symm hne]
    obtain ⟨heap, hd, hrest⟩ := hheap
    rw [hd] at hc
    simp only [Option.some.injEq] at hc
    subst hc
    unfold PinkDelEvent
    have hother : ∀ fd1 p1, tabFind (tabErase s.t.conns_ pfe.fd) fd1 = some p1 →
        fd1 ≠ pfe.fd ∧ tabFind s.t.conns_ fd1 = some p1 ∧ p1 ≠ p := by
      intro fd1 p1 h1
      rw [tabFind_erase] at h1
      by_cases e : pfe.fd = fd1
      · simp [e] at h1
      · simp only [if_neg e] at h1
        refine ⟨Ne.symm e, h1, ?_⟩
        intro e1
        subst e1
        exact e (h.apart _ _ _ hp h1)
    constructor
    · intro fd1 p1 h1
      obtain ⟨_, h2, h3⟩ := hother fd1 p1 h1
      obtain ⟨a, b, c, hc⟩ := h.live fd1 p1 h2
      exact ⟨a, b, c, by simp only; rw [hrest p1 h3]; exact hc⟩
    · intro fd1 fd2 p1 h1 h2
      exact h.apart fd1 fd2 p1 (hother fd1 p1 h1).2.1 (hother fd2 p1 h2).2.1
    · intro fd1
      simp only [tabFind_erase]
      by_cases e : pfe.fd = fd1
      · simp [e]
      · simp only [if_neg e]
        exact h.watched fd1
    · intro fd1
      simp only [tabFind_erase, mem_closeFd]
      by_cases e : pfe.fd = fd1
      · simp [e]
      · simp only [if_neg e]
        rw [h.opened fd1]
        exact ⟨fun h1 => ⟨h1, Ne.symm e⟩, fun h1 => h1.1⟩
    · intro fd1 p1 c h1 h2
      obtain ⟨hne, h3, h4⟩ := hother fd1 p1 h1
      simp only at h2
      rw [hrest p1 h4] at h2
      simp only [tabFind_erase, if_neg (Ne.symm hne)]
      exact h.interest fd1 p1 c h3 h2
  · cases hc
    exact h

theorem HandleConnEvent_inv (t t1 : HolyThread) (pfe : Option PinkFiredEvent) (io : ConnIO)
    (h : ThreadInv t) (hc : t.HandleConnEvent pfe io = some t1) : ThreadInv t1 := by
  unfold HolyThread.HandleConnEvent at hc
  cases pfe with
  | none => cases hc; exact h
  | some pfe =>
    simp only at hc
    cases hp : tabFind t.conns_ pfe.fd with
    | none =>
      rw [hp] at hc
      cases hc
      unfold PinkDelEvent
      have hother : ∀ fd1 p1, tabFind t.conns_ fd1 = some p1 → pfe.fd ≠ fd1 := by
        intro fd1 p1 h1 e
        rw [e, h1] at hp
        cases hp
      constructor
      · exact h.live
      · exact h.apart
      · intro fd1
        simp only [tabFind_erase]
        by_cases e : pfe.fd = fd1
        · subst e
          simp [hp]
        · simp only [if_neg e]
          exact h.watched fd1
      · exact h.opened
      · intro fd1 p1 c h1 h2
        simp only [tabFind_erase, if_neg (hother fd1 p1 h1)]
        exact h.interest fd1 p1 c h1 h2
    | some p =>
      rw [hp] at hc
      simp only at hc
      have hr := readPart_inv { t := t, in_conn := 0, should_close := 0 } pfe p io h hp
        (Or.inl rfl)
      cases hread : readPart { t := t, in_conn := 0, should_close := 0 } pfe p io with
      | none => rw [hread] at hc; cases hc
      | some f =>
        rw [hread] at hc
        cases f with
        | ret t2 =>
          cases hc
          exact hr.1 _ hread
        | go s1 =>
          simp only at hc
          obtain ⟨i1, i2, i3⟩ := hr.2 _ hread
          have hw := writePart_inv s1 pfe p io i1 i2 i3
          cases hwrite : writePart s1 pfe p io with
          | none => rw [hwrite] at hc; cases hc
          | some f =>
            rw [hwrite] at hc
            cases f with
            | ret t2 =>
              cases hc
              exact hw.1 _ hwrite
            | go s2 =>
              simp only at hc
              obtain ⟨j1, j2, j3⟩ := hw.2 _ hwrite
              exact closePart_inv s2 pfe p j1 j2 j3 t1 hc

theorem runThread_inv (calls : List ThreadCall) :
    ∀ t0 t, ThreadInv t0 → runThread t0 calls = some t → ThreadInv t := by
  induction calls with
  | nil =>
    intro t0 t h0 h
    cases h
    exact h0
  | cons call calls ih =>
    intro t0 t h0 h
    cases call with
    | newConn connfd =>
      unfold runThread at h
      cases ha : t0.accept connfd with
      | none => rw [ha] at h; cases h
      | some t1 =>
        rw [ha] at h
        exact ih _ t (threadInv_newConn t0 t1 h0 connfd ha) h
    | connEvent pfe io =>
      unfold runThread at h
      cases hc : t0.HandleConnEvent pfe io with
      | none => rw [hc] at h; cases h
      | some t1 =>
        rw [hc] at h
        exact ih _ t (HandleConnEvent_inv t0 t1 pfe io h0 hc) h

/-- What `HandleConnEvent` does on a registered descriptor when the mask has neither
`EPOLLIN` nor `EPOLLOUT` but has `EPOLLERR` or `EPOLLHUP`: the descriptor is unregistered
and closed and its entry is erased, and the heap is as before, so the connection object
is not deleted. -/
theorem HandleConnEvent_error_only (t : HolyThread) (pfe : PinkFiredEvent) (io : ConnIO)
    (p : Nat) (hfd : tabFind t.conns_ pfe.fd = some p)
    (hin : pfe.mask &&& EPOLLIN = 0) (hout : pfe.mask &&& EPOLLOUT = 0)
    (herr : pfe.mask &&& EPOLLERR ≠ 0 ∨ pfe.mask &&& EPOLLHUP ≠ 0) :
    t.HandleConnEvent (some pfe) io
      = some { t with
          pink_epoll_ := PinkDelEvent t.pink_epoll_ pfe.fd
          fds := closeFd t.fds pfe.fd
          conns_ := tabErase t.conns_ pfe.fd } := by
  have hc : ¬ pfe.mask &&& EPOLLERR = 0 ∨ ¬ pfe.mask &&& EPOLLHUP = 0 ∨ False := by
    rcases herr with h | h
    · exact Or.inl h
    · exact Or.inr (Or.inl h)
  simp only [HolyThread.HandleConnEvent, hfd, readPart, writePart, closePart, hin, hout,
    ne_eq, not_true_eq_false, if_false, deleteConn, if_true]
  rw [if_pos hc]

/-- What `HandleConnEvent` does on a registered descriptor of a reachable state when the
mask has `EPOLLIN`, `GetRequest` returns a status other than `kReadAll` and `kReadHalf`,
and the write branch does not return early (the mask has no `EPOLLOUT`, or `SendReply`
does not return `kWriteHalf`): the descriptor is unregistered and closed, its entry is
erased and the connection object is deleted. -/
theorem HandleConnEvent_read_error (calls : List ThreadCall) (t : HolyThread)
    (h : runThread HolyThread.new calls = some t) (pfe : PinkFiredEvent) (io : ConnIO)
    (p : Nat) (c c1 : HttpConn) (st : ReadStatus) (rest : List ReadEvent)
    (hfd : tabFind t.conns_ pfe.fd = some p) (hc : tabFind t.heap p = some c)
    (hin : pfe.mask &&& EPOLLIN ≠ 0)
    (hg : c.GetRequest io.deal io.conv io.reads = some (st, c1, rest))
    (hst : st ≠ .kReadAll ∧ st ≠ .kReadHalf)
    (hw : pfe.mask &&& EPOLLOUT = 0 ∨ (c1.SendReply io.writes).1 ≠ .kWriteHalf) :
    ∃ t1, t.HandleConnEvent (some pfe) io = some t1 ∧
      tabFind t1.conns_ pfe.fd = none ∧ tabFind t1.pink_epoll_ pfe.fd = none ∧
      pfe.fd ∉ t1.fds ∧ tabFind t1.heap p = none := by
  have hinv := runThread_inv calls _ t threadInv_new h
  have hp0 := (hinv.live _ _ hfd).1
  have hclose : ∀ (t2 : HolyThread) (c2 : HttpConn), tabFind t2.heap p = some c2 →
      ∀ t1, closePart { t := t2, in_conn := p, should_close := 1 } pfe = some t1 →
        tabFind t1.conns_ pfe.fd = none ∧ tabFind t1.pink_epoll_ pfe.fd = none ∧
          pfe.fd ∉ t1.fds ∧ tabFind t1.heap p = none := by
    intro t2 c2 h2 t1 h1
    have hc1 : pfe.mask &&& EPOLLERR ≠ 0 ∨ pfe.mask &&& EPOLLHUP ≠ 0 ∨ (1 : Int) ≠ 0 :=
      Or.inr (Or.inr (by decide))
    simp only [closePart, if_pos hc1, deleteConn, if_neg hp0, h2, Option.some.injEq] at h1
    subst h1
    simp [tabFind_erase, PinkDelEvent, mem_closeFd]
  have hread : readPart { t := t, in_conn := 0, should_close := 0 } pfe p io
      = some (.go { t := { t with heap := tabAssign t.heap p c1 }, in_conn := p,
                    should_close := 1 }) := by
    simp only [readPart, if_pos hin, hc, hg, if_pos hst]
  have hheap : tabFind (tabAssign t.heap p c1) p = some c1 := by
    rw [tabFind_assign]
    simp
  simp only [HolyThread.HandleConnEvent, hfd, hread]
  by_cases hout : pfe.mask &&& EPOLLOUT ≠ 0
  · have hne : (c1.SendReply io.writes).1 ≠ .kWriteHalf := by
      rcases hw with h1 | h1
      · exact absurd h1 hout
      · exact h1
    simp only [writePart, if_pos hout, hheap]
    cases hs : (c1.SendReply io.writes).1 with
    | kWriteHalf => exact absurd hs hne
    | kWriteAll =>
      simp only
      have hlive : tabFind (tabAssign (tabAssign t.heap p c1) p
          { (c1.SendReply io.writes).2.1 with is_reply := false }) p
            = some { (c1.SendReply io.writes).2.1 with is_reply := false } := by
        rw [tabFind_assign]
        simp
      have hsome : ∃ t1, closePart
          { t := { t with
                   heap := tabAssign (tabAssign t.heap p c1) p
                     { (c1.SendReply io.writes).2.1 with is_reply := false }
                   pink_epoll_ := PinkModEvent t.pink_epoll_ pfe.fd 0 EPOLLIN },
            in_conn := p, should_close := 1 } pfe = some t1 := by
        have hc1 : pfe.mask &&& EPOLLERR ≠ 0 ∨ pfe.mask &&& EPOLLHUP ≠ 0 ∨ (1 : Int) ≠ 0 :=
          Or.inr (Or.inr (by decide))
        simp only [closePart, if_pos hc1, deleteConn, if_neg hp0, hlive]
        exact ⟨_, rfl⟩
      obtain ⟨t1, h1⟩ := hsome
      exact ⟨t1, h1, hclose _ _ hlive t1 h1⟩
    | kWriteError =>
      simp only
      have hlive : tabFind (tabAssign (tabAssign t.heap p c1) p (c1.SendReply io.writes).2.1) p
          = some (c1.SendReply io.writes).2.1 := by
        rw [tabFind_assign]
        simp
      have hsome : ∃ t1, closePart
          { t := { t with
                   heap := tabAssign (tabAssign t.heap p c1) p (c1.SendReply io.writes).2.1 },
            in_conn := p, should_close := 1 } pfe = some t1 := by
        have hc1 : pfe.mask &&& EPOLLERR ≠ 0 ∨ pfe.mask &&& EPOLLHUP ≠ 0 ∨ (1 : Int) ≠ 0 :=
          Or.inr (Or.inr (by decide))
        simp only [closePart, if_pos hc1, deleteConn, if_neg hp0, hlive]
        exact ⟨_, rfl⟩
      obtain ⟨t1, h1⟩ := hsome
      exact ⟨t1, h1, hclose _ _ hlive t1 h1⟩
  · simp only [writePart, if_neg hout]
    have hsome : ∃ t1, closePart
        { t := { t with heap := tabAssign t.heap p c1 }, in_conn := p, should_close := 1 } pfe
          = some t1 := by
      have hc1 : pfe.mask &&& EPOLLERR ≠ 0 ∨ pfe.mask &&& EPOLLHUP ≠ 0 ∨ (1 : Int) ≠ 0 :=
        Or.inr (Or.inr (by decide))
      simp only [closePart, if_pos hc1, deleteConn, if_neg hp0, hheap]
      exact ⟨_, rfl⟩
    obtain ⟨t1, h1⟩ := hsome
    exact ⟨t1, h1, hclose _ _ hheap t1 h1⟩

/-- C11: after any sequence of `HandleNewConn` and `HandleConnEvent` calls (any event
masks, any handler, any outcomes of the reads and writes), every descriptor in the
registry points to a live connection object, and the interest of the descriptor is
exactly `EPOLLOUT` when the `is_reply` flag of that connection is set and exactly
`EPOLLIN` when it is clear. -/
theorem c11_interest_follows_is_reply (calls : List ThreadCall) (t : HolyThread)
    (h : runThread HolyThread.new calls = some t) (fd : Int) (p : Nat)
    (hfd : tabFind t.conns_ fd = some p) :
    ∃ c, tabFind t.heap p = some c ∧
      (c.is_reply = true → tabFind t.pink_epoll_ fd = some EPOLLOUT) ∧
      (c.is_reply = false → tabFind t.pink_epoll_ fd = some EPOLLIN) := by
  have hinv := runThread_inv calls _ t threadInv_new h
  obtain ⟨_, _, c, hc⟩ := hinv.live fd p hfd
  have hi := hinv.interest fd p c hfd hc
  refine ⟨c, hc, fun e => ?_, fun e => ?_⟩
  · rw [hi, if_pos e]
  · rw [hi]
    simp [e]

/-- C11, at two accepted connections 5 and 6 where 5 has received a whole request: the
connection of 5 has `is_reply` set and 5 is watched for `EPOLLOUT`, the connection of 6
has it clear and 6 is watched for `EPOLLIN`. -/
theorem c11_interest_follows_is_reply_witness :
    ∃ t, runThread HolyThread.new
        [.newConn 5, .newConn 6,
         .connEvent (some ⟨5, EPOLLIN⟩)
           { quietIO with reads := [.bytes "GET /abc HTTP/1.1\r\n\r\n".toList] }] = some t ∧
      (tabFind t.conns_ 5 = some 1 ∧ tabFind t.conns_ 6 = some 2) ∧
      (∃ c, tabFind t.heap 1 = some c ∧
        (c.is_reply = true → tabFind t.pink_epoll_ 5 = some EPOLLOUT) ∧
        (c.is_reply = false → tabFind t.pink_epoll_ 5 = some EPOLLIN)) ∧
      (tabFind t.heap 1).map (fun c => c.is_reply) = some true ∧
      (tabFind t.heap 2).map (fun c => c.is_reply) = some false ∧
      t.pink_epoll_ = [(5, EPOLLOUT), (6, EPOLLIN)] :=
  have hs : (runThread HolyThread.new
        [.newConn 5, .newConn 6,
         .connEvent (some ⟨5, EPOLLIN⟩)
           { quietIO with reads := [.bytes "GET /abc HTTP/1.1\r\n\r\n".toList] }]).isSome
      = true := by decide
  ⟨Option.get _ hs, (Option.some_get hs).symm, ⟨rfl, rfl⟩,
    c11_interest_follows_is_reply _ _ (Option.some_get hs).symm 5 1 rfl, rfl, rfl, rfl⟩

/-- C12: in every state that a sequence of `HandleNewConn` and `HandleConnEvent` calls
reaches, a descriptor is a key of `conns_` exactly when it is watched by the
demultiplexer, and exactly when it is open. -/
theorem c12_registered_iff_watched_iff_open (calls : List ThreadCall) (t : HolyThread)
    (h : runThread HolyThread.new calls = some t) (fd : Int) :
    ((tabFind t.conns_ fd).isSome ↔ (tabFind t.pink_epoll_ fd).isSome) ∧
      ((tabFind t.conns_ fd).isSome ↔ fd ∈ t.fds) :=
  have hinv := runThread_inv calls _ t threadInv_new h
  ⟨hinv.watched fd, hinv.opened fd⟩

/-- C12, at two accepted connections 5 and 6 after a hangup on 6: 5 is registered,
watched and open, and 6 is none of the three. -/
theorem c12_registered_iff_watched_iff_open_witness :
    ∃ t, runThread HolyThread.new
        [.newConn 5, .newConn 6, .connEvent (some ⟨6, EPOLLHUP⟩) quietIO] = some t ∧
      (t.conns_ = [(5, 1)] ∧ t.pink_epoll_ = [(5, EPOLLIN)] ∧ t.fds = [5]) ∧
      (((tabFind t.conns_ 5).isSome ↔ (tabFind t.pink_epoll_ 5).isSome) ∧
        ((tabFind t.conns_ 5).isSome ↔ (5 : Int) ∈ t.fds)) ∧
      (((tabFind t.conns_ 6).isSome ↔ (tabFind t.pink_epoll_ 6).isSome) ∧
        ((tabFind t.conns_ 6).isSome ↔ (6 : Int) ∈ t.fds)) :=
  have hs : (runThread HolyThread.new
        [.newConn 5, .newConn 6, .connEvent (some ⟨6, EPOLLHUP⟩) quietIO]).isSome
      = true := by decide
  ⟨Option.get _ hs, (Option.some_get hs).symm, ⟨rfl, rfl, rfl⟩,
    c12_registered_iff_watched_iff_open _ _ (Option.some_get hs).symm 5,
    c12_registered_iff_watched_iff_open _ _ (Option.some_get hs).symm 6⟩

/-- An event outside the interest of its descriptor.  Descriptor 5 has a reply queued and
is watched for `EPOLLOUT` alone, so the wait does not report `EPOLLIN` on it.  Handed
such an event with `EPOLLIN` and `EPOLLOUT`, where `GetRequest` finds the peer closed
(`kReadClose`) and the `write` would block, `HandleConnEvent` returns from the
`kWriteHalf` branch and descriptor 5 stays registered, watched and open. -/
theorem HandleConnEvent_outside_interest :
    ((runThread HolyThread.new
        [.newConn 5,
         .connEvent (some ⟨5, EPOLLIN⟩)
           { quietIO with reads := [.bytes "GET /abc HTTP/1.1\r\n\r\n".toList] }]).map
        (fun t => (t.pink_epoll_, PinkPoll t.pink_epoll_ ⟨5, EPOLLIN ||| EPOLLOUT⟩)))
      = some ([(5, EPOLLOUT)], false) ∧
    ((runThread HolyThread.new
        [.newConn 5,
         .connEvent (some ⟨5, EPOLLIN⟩)
           { quietIO with reads := [.bytes "GET /abc HTTP/1.1\r\n\r\n".toList] }]).bind
        (fun t => (tabFind t.heap 1).bind
          (fun c => (c.GetRequest echoPath string2l [.closed]).map (fun r => r.1))))
      = some .kReadClose ∧
    ((runThread HolyThread.new
        [.newConn 5,
         .connEvent (some ⟨5, EPOLLIN⟩)
           { quietIO with reads := [.bytes "GET /abc HTTP/1.1\r\n\r\n".toList] },
         .connEvent (some ⟨5, EPOLLIN ||| EPOLLOUT⟩)
           { quietIO with reads := [.closed], writes := [.again] }]).map
        (fun t => (t.conns_, t.pink_epoll_, t.fds, (tabFind t.heap 1).isSome)))
      = some ([(5, 1)], [(5, EPOLLOUT)], [5], true) := by
  refine ⟨?_, ?_, ?_⟩ <;> decide

/-- An event that the wait reports with `EPOLLIN` on a registered descriptor of a
reachable state has no `EPOLLOUT`: the interest of the descriptor is `EPOLLIN` alone or
`EPOLLOUT` alone. -/
theorem PinkPoll_in_not_out (calls : List ThreadCall) (t : HolyThread)
    (h : runThread HolyThread.new calls = some t) (pfe : PinkFiredEvent) (p : Nat)
    (hfd : tabFind t.conns_ pfe.fd = some p) (hfire : PinkPoll t.pink_epoll_ pfe = true)
    (hin : pfe.mask &&& EPOLLIN ≠ 0) :
    pfe.mask &&& EPOLLOUT = 0 := by
  have hinv := runThread_inv calls _ t threadInv_new h
  obtain ⟨_, _, c, hc⟩ := hinv.live _ _ hfd
  have hi := hinv.interest _ _ c hfd hc
  unfold PinkPoll at hfire
  rw [hi] at hfire
  cases hr : c.is_reply
  · rw [hr] at hfire
    simp only [Bool.false_eq_true, if_false, Bool.and_eq_true, Bool.or_eq_true,
      decide_eq_true_eq] at hfire
    rcases hfire.2 with h1 | h1
    · exact h1
    · exact absurd (by decide) h1
  · rw [hr] at hfire
    simp only [if_true, Bool.and_eq_true, Bool.or_eq_true, decide_eq_true_eq] at hfire
    rcases hfire.1 with h1 | h1
    · exact absurd h1 hin
    · exact absurd (by decide) h1

/-- C13: in every state that a sequence of `HandleNewConn` and `HandleConnEvent` calls
reaches, for every event that the demultiplexer reports on a registered descriptor with
`EPOLLIN` in its mask, whatever other bits the mask carries: if `GetRequest` returns a
status other than `kReadAll` and `kReadHalf`, then `HandleConnEvent` returns and the
descriptor is no longer a key of `conns_`, is no longer watched and is closed, and its
connection object is deleted. -/
theorem c13_read_error_closes (calls : List ThreadCall) (t : HolyThread)
    (h : runThread HolyThread.new calls = some t) (pfe : PinkFiredEvent) (io : ConnIO)
    (p : Nat) (c c1 : HttpConn) (st : ReadStatus) (rest : List ReadEvent)
    (hfd : tabFind t.conns_ pfe.fd = some p) (hc : tabFind t.heap p = some c)
    (hfire : PinkPoll t.pink_epoll_ pfe = true)
    (hin : pfe.mask &&& EPOLLIN ≠ 0)
    (hg : c.GetRequest io.deal io.conv io.reads = some (st, c1, rest))
    (hst : st ≠ .kReadAll ∧ st ≠ .kReadHalf) :
    ∃ t1, t.HandleConnEvent (some pfe) io = some t1 ∧
      tabFind t1.conns_ pfe.fd = none ∧ tabFind t1.pink_epoll_ pfe.fd = none ∧
      pfe.fd ∉ t1.fds ∧ tabFind t1.heap p = none :=
  HandleConnEvent_read_error calls t h pfe io p c c1 st rest hfd hc hin hg hst
    (Or.inl (PinkPoll_in_not_out calls t h pfe p hfd hfire hin))

/-- C13, at the accepted connection 5 when an event with `EPOLLIN`, `EPOLLERR` and
`EPOLLHUP` fires on it and the `read` finds the peer closed: `GetRequest` returns
`kReadClose`, and after `HandleConnEvent` descriptor 5 is not registered, not watched
and not open, and the object at address 1 is deleted. -/
theorem c13_read_error_closes_witness :
    runThread HolyThread.new [.newConn 5]
        = some { conns_ := [(5, 1)], pink_epoll_ := [(5, EPOLLIN)],
                 heap := [(1, HttpConn.new)], allocs := 1, fds := [5] } ∧
      PinkPoll [(5, EPOLLIN)] ⟨5, EPOLLIN ||| EPOLLERR ||| EPOLLHUP⟩ = true ∧
      (EPOLLIN ||| EPOLLERR ||| EPOLLHUP) &&& EPOLLIN ≠ 0 ∧
      HttpConn.new.GetRequest echoPath string2l [.closed]
        = some (.kReadClose, HttpConn.new, []) ∧
      ∃ t1, HolyThread.HandleConnEvent
          { conns_ := [(5, 1)], pink_epoll_ := [(5, EPOLLIN)],
            heap := [(1, HttpConn.new)], allocs := 1, fds := [5] }
          (some ⟨5, EPOLLIN ||| EPOLLERR ||| EPOLLHUP⟩)
          { quietIO with reads := [.closed] } = some t1 ∧
        tabFind t1.conns_ 5 = none ∧ tabFind t1.pink_epoll_ 5 = none ∧
        (5 : Int) ∉ t1.fds ∧ tabFind t1.heap 1 = none :=
  ⟨by decide, by decide, by decide, by decide,
    c13_read_error_closes [.newConn 5] _ (by decide)
      ⟨5, EPOLLIN ||| EPOLLERR ||| EPOLLHUP⟩ { quietIO with reads := [.closed] }
      1 HttpConn.new HttpConn.new .kReadClose [] (by decide) (by decide) (by decide)
      (by decide) (by decide) (by decide)⟩

/-- C14 (what the code does): descriptor 5 is registered and an event fires on it whose
mask is `EPOLLERR` alone, or `EPOLLHUP` alone.  Neither branch assigns `in_conn`, so
`delete(in_conn)` deletes `NULL`: the registry entry is erased, the descriptor is
unregistered and closed, and the connection object at address 1 stays allocated. -/
theorem c14_error_only_event_leaks_conn :
    ((runThread HolyThread.new
        [.newConn 5, .connEvent (some ⟨5, EPOLLERR⟩) quietIO]).map
        (fun t => (t.conns_, t.pink_epoll_, t.fds, t.heap.map (fun e => e.1))))
      = some ([], [], [], [1]) ∧
    ((runThread HolyThread.new
        [.newConn 5, .connEvent (some ⟨5, EPOLLHUP⟩) quietIO]).map
        (fun t => (t.conns_, t.pink_epoll_, t.fds, t.heap.map (fun e => e.1))))
      = some ([], [], [], [1]) := by
  constructor <;> decide

end Thread

/-! ## Reuse of a request -/

section Reuse

open HttpRequest

theorem lineStep_content (s : LineState) (c : Char) (x : Str) :
    lineStep { s with req := { s.req with content := x } } c
      = ((lineStep s c).1,
          { (lineStep s c).2 with req := { (lineStep s c).2.req with content := x } }) := by
  obtain ⟨st, k, v, req⟩ := s
  unfold lineStep
  cases st <;> simp only <;> first | rfl | (split_ifs <;> rfl)

theorem lineLoop_content (cs : List Char) :
    ∀ (s : LineState) (x : Str),
      lineLoop { s with req := { s.req with content := x } } cs
        = ((lineLoop s cs).1,
            { (lineLoop s cs).2 with req := { (lineLoop s cs).2.req with content := x } }) := by
  induction cs with
  | nil => intro s x; rfl
  | cons c cs ih =>
    intro s x
    simp only [lineLoop, lineStep_content]
    cases h : lineStep s c with
    | mk ok s1 =>
      cases ok
      · rfl
      · exact ih s1 x

theorem ParseHeadLine_content (req : HttpRequest) (data : List Char) (ls le : Int)
    (st : ParseStatus) (x : Str) :
    ParseHeadLine { req with content := x } data ls le st
      = ((ParseHeadLine req data ls le st).1, (ParseHeadLine req data ls le st).2.1,
          { (ParseHeadLine req data ls le st).2.2 with content := x }) := by
  unfold ParseHeadLine
  have := lineLoop_content (slice data ls.toNat (le + 1).toNat)
    { status := st, param_key := [], param_value := [], req := req } x
  simp only at this
  simp only [this]

theorem headLoop_content (data : List Char) (x : Str) :
    ∀ (fuel : Nat) (remain ls le : Int) (st : ParseStatus) (req : HttpRequest),
      headLoop data fuel remain ls le st { req with content := x }
        = (headLoop data fuel remain ls le st req).map
            (fun r => (r.1, { r.2 with content := x })) := by
  intro fuel
  induction fuel with
  | zero =>
    intro remain ls le st req
    unfold headLoop
    split <;> rfl
  | succ fuel ih =>
    intro remain ls le st req
    unfold headLoop
    split
    · simp only
      split
      · rfl
      · rw [ParseHeadLine_content]
        cases h : ParseHeadLine req data ls
            (le + ((find_lf data ls.toNat remain.toNat : Nat) : Int) + 1) st with
        | mk ok r =>
          obtain ⟨st1, req1⟩ := r
          cases ok
          · rfl
          · exact ih _ _ _ _ _
    · rfl

theorem ParseParameters_content (req : HttpRequest) (data : Str) (n : Nat) (x : Str) :
    ParseParameters { req with content := x } data n
      = (ParseParameters req data n).map (fun r => (r.1, { r.2 with content := x })) := by
  unfold ParseParameters
  simp only
  cases paramLoop data (data.length + 1) n req.query_params <;> rfl

theorem ParseGetUrl_content (req : HttpRequest) (x : Str) :
    ParseGetUrl { req with content := x }
      = (ParseGetUrl req).map (fun r => (r.1, { r.2 with content := x })) := by
  unfold ParseGetUrl
  simp only
  cases strFind req.path '?' 0 with
  | none => rfl
  | some n =>
    simp only [ParseParameters_content]
    cases h : ParseParameters req req.path (n + 1) with
    | none => rfl
    | some r =>
      obtain ⟨ok, r1⟩ := r
      cases ok <;> rfl

theorem ParseHeadFromArray_content (req : HttpRequest) (data : List Char) (size : Int)
    (x : Str) :
    ParseHeadFromArray { req with content := x } data size
      = (ParseHeadFromArray req data size).map (fun r => (r.1, { r.2 with content := x })) := by
  unfold ParseHeadFromArray
  split
  · rfl
  · rw [headLoop_content]
    cases h : headLoop data (data.length + 2) size 0 0 .kHeaderMethod req with
    | none => rfl
    | some r =>
      obtain ⟨ok, r1⟩ := r
      cases ok
      · rfl
      · simp only [Option.map_some']
        split
        · exact ParseGetUrl_content r1 x
        · rfl

/-- C15 (the claim fails): `usedRequest` holds the body `x=1` of an earlier `POST`.
After `Clear()` and `ParseHeadFromArray` on `GET /hello HTTP/1.1\r\n\r\n` its `content` is
still `x=1`, while the same parse from a request with empty fields leaves `content`
empty. -/
theorem c15_content_survives_reuse :
    (ParseHeadFromArray usedRequest.Clear "GET /hello HTTP/1.1\r\n\r\n".toList 23).map
        (fun r => r.2.content) = some "x=1".toList ∧
    (ParseHeadFromArray HttpRequest.blank "GET /hello HTTP/1.1\r\n\r\n".toList 23).map
        (fun r => r.2.content) = some [] := by
  constructor <;> decide

/-- C15 (amended): for every prior request `r`, every buffer `d` and every `size`,
`Clear()` followed by `ParseHeadFromArray(d, size)` returns exactly when the parse from a
request with empty fields returns, with the same `bool` and the same `method`, `path`,
`version`, `headers` and `query_params`; `content` is touched by neither and keeps the
value it had in `r`.  It is `ParseBodyFromArray` that replaces it: after the body has been
parsed too, all six fields agree. -/
theorem c15_clear_then_parse (r : HttpRequest) (d : List Char) (size : Int) :
    ParseHeadFromArray r.Clear d size
        = (ParseHeadFromArray HttpRequest.blank d size).map
            (fun x => (x.1, { x.2 with content := r.content })) ∧
      ∀ (q : HttpRequest) (body : List Char) (n : Int),
        ParseBodyFromArray { q with content := r.content } body n
          = ParseBodyFromArray q body n :=
  ⟨ParseHeadFromArray_content HttpRequest.blank d size r.content, fun _ _ _ => rfl⟩

end Reuse

/-! ## Partial reads -/

section Partial

open HttpConn

set_option maxRecDepth 100000 in
/-- C16 (what the code does).  The request `POST /f HTTP/1.1\r\nContent-Length: 7\r\n\r\n`
with the body `x=1&y=2` arrives in two chunks, the header and then the body.  The first
`GetRequest` does not return `kReadHalf`: it returns `kReadAll` and has handed
`DealMessage` a request with an empty `content`, because the entry was stored under
`ontent-Length` (the defect of C1) and the body length is taken to be 0.  The second
`GetRequest`, after the reply is written, takes the body for the start of a new header and
returns `kReadHalf`; `DealMessage` is not invoked again.

With `Content-Length` as the second header line the two-chunk delivery does return
`kReadHalf` and then `kReadAll`, with the body in `content`.

With three header lines the header parser reads the bytes that follow the header block
(the defect of C19): when the header and the body `k v\rzzz` come in one read, the request
handed to `DealMessage` has a header `k: v` that the request of the two-chunk delivery
does not have. -/
theorem c16_split_delivery_differs :
    ((GetRequest echoPath string2l HttpConn.new
        [.bytes "POST /f HTTP/1.1\r\nContent-Length: 7\r\n\r\n".toList]).map
        (fun r => (r.1, r.2.1.dealt.map (fun q => q.content)))
      = some (.kReadAll, [[]]) ∧
     (runCalls HttpConn.new
        [.get echoPath string2l [.bytes "POST /f HTTP/1.1\r\nContent-Length: 7\r\n\r\n".toList],
         .send [.room 2]]).bind
        (fun c => (c.GetRequest echoPath string2l [.bytes "x=1&y=2".toList]).map
          (fun r => (r.1, r.2.1.dealt.map (fun q => q.content))))
      = some (.kReadHalf, [[]])) ∧
    ((GetRequest echoPath string2l HttpConn.new
        [.bytes "POST /f HTTP/1.1\r\nHost: x\r\nContent-Length: 7\r\n\r\n".toList]).bind
        (fun r1 => (r1.2.1.GetRequest echoPath string2l [.bytes "x=1&y=2".toList]).map
          (fun r2 => (r1.1, r2.1, r2.2.1.dealt.map (fun q => q.content))))
      = some (.kReadHalf, .kReadAll, ["x=1&y=2".toList])) ∧
    ((GetRequest echoPath string2l HttpConn.new
        [.bytes "POST /f HTTP/1.1\r\nHost: x\r\nContent-Length: 7\r\nA: b\r\n\r\nk v\rzzz".toList]).map
        (fun r => (r.1, r.2.1.dealt.map (fun q => q.headers)))
      = some (.kReadAll,
          [[("ost".toList, "x".toList), ("Content-Length".toList, "7".toList),
            ("A".toList, "b".toList), ("k".toList, "v".toList)]]) ∧
     (GetRequest echoPath string2l HttpConn.new
        [.bytes "POST /f HTTP/1.1\r\nHost: x\r\nContent-Length: 7\r\nA: b\r\n\r\n".toList]).bind
        (fun r1 => (r1.2.1.GetRequest echoPath string2l [.bytes "k v\rzzz".toList]).map
          (fun r2 => (r2.1, r2.2.1.dealt.map (fun q => q.headers))))
      = some (.kReadAll,
          [[("ost".toList, "x".toList), ("Content-Length".toList, "7".toList),
            ("A".toList, "b".toList)]])) := by
  refine ⟨⟨?_, ?_⟩, ?_, ?_, ?_⟩ <;> decide

end Partial

/-! ## The body length -/

section Body

open HttpRequest HttpConn

theorem peek_poke_self (buf : List Char) (pos : Nat) (x : Char) (bs : List Char) :
    peek (poke buf pos (x :: bs)) pos = x := by
  unfold peek poke
  have hlen : (List.take pos buf ++ List.replicate (pos - buf.length) '\x00').length = pos := by
    simp only [List.length_append, List.length_take, List.length_replicate]
    omega
  rw [List.append_assoc, List.getD_append_right _ _ _ _ (by rw [hlen])]
  simp [hlen]

theorem strstr_no_nul (buf : List Char) :
    ∀ sep, strstr buf = some sep → ∀ i, i < sep + 4 → peek buf i ≠ '\x00' := by
  induction buf with
  | nil => intro sep h; cases h
  | cons c cs ih =>
    intro sep h i hi
    unfold strstr at h
    split at h
    · cases h
    · rename_i hc
      split at h
      · rename_i ht
        cases h
        match cs, ht with
        | c1 :: c2 :: c3 :: _, ht =>
          simp only [List.take, List.cons.injEq, and_true] at ht
          obtain ⟨h0, h1, h2, h3⟩ := ht
          subst h0 h1 h2 h3
          match i, hi with
          | 0, _ => simp [peek]
          | 1, _ => simp [peek]
          | 2, _ => simp [peek]
          | 3, _ => simp [peek]
      · cases hs : strstr cs with
        | none => rw [hs] at h; cases h
        | some k =>
          rw [hs] at h
          simp only [Option.map_some', Option.some.injEq] at h
          subst h
          cases i with
          | zero => exact hc
          | succ j => exact ih k hs j (by omega)

theorem strstr_le (buf : List Char) (sep pos : Nat) (h : strstr buf = some sep)
    (hp : peek buf pos = '\x00') : sep + 4 ≤ pos := by
  by_contra hlt
  exact strstr_no_nul buf sep h pos (by omega) hp

theorem slice_drop (buf : List Char) (h n : Nat) :
    slice (buf.drop h) 0 n = slice buf h (h + n) := by
  unfold slice
  have key : ∀ (n lo : Nat),
      (List.range' lo n).map (peek (buf.drop h)) = (List.range' (h + lo) n).map (peek buf) := by
    intro n
    induction n with
    | zero => intro lo; rfl
    | succ n ih =>
      intro lo
      simp only [List.range', List.map_cons, List.cons.injEq]
      refine ⟨?_, ih (lo + 1)⟩
      unfold peek
      simp [List.getD_eq_getElem?_getD, List.getElem?_drop]
  have := key n 0
  simpa using this

theorem longToInt32_small (z : Int) (h0 : 0 ≤ z) (h1 : z < 2 ^ 31) : longToInt32 z = z := by
  unfold longToInt32
  have hz : (z % 2 ^ 32).toNat = z.toNat := by
    rw [Int.emod_eq_of_lt h0 (by omega)]
  rw [hz, toInt32_small _ (by omega)]
  omega

theorem ParseBodyFromArray_spec (req : HttpRequest) (data : List Char) (size : Int) (b : Bool)
    (r : HttpRequest) (h : ParseBodyFromArray req data size = some (b, r)) :
    0 ≤ size ∧ r.headers = req.headers ∧ r.content = slice data 0 size.toNat := by
  unfold ParseBodyFromArray at h
  split at h
  · cases h
  · rename_i hs
    simp only at h
    split at h
    · unfold ParseParameters at h
      simp only at h
      split at h
      · cases h
      · cases h
        exact ⟨by omega, rfl, rfl⟩
    · cases h
      exact ⟨by omega, rfl, rfl⟩

theorem BuildRequestHeader_length (conv : Str → Option Int) (c c2 : HttpConn)
    (h : BuildRequestHeader conv c = some (true, c2)) (hle : c.header_len ≤ c.rbuf_pos) :
    ∀ N, declaredLength conv c2.request.headers = some N →
      (c.rbuf_pos : Int) + c2.remain_packet_len - (c.header_len : Int) = N := by
  unfold BuildRequestHeader at h
  split at h
  · cases h
  · cases h
  · rename_i r heq
    cases h
    intro N hN
    unfold declaredLength at hN
    simp only at hN ⊢
    cases hm : mapFind r.headers "Content-Length".toList with
    | none =>
      rw [hm] at hN
      simp only [Option.some.injEq] at hN
      dsimp only
      split <;> omega
    | some v =>
      rw [hm] at hN
      simp only at hN
      dsimp only
      simp only [hN, Option.getD_some]
      split <;> omega

theorem packetEnd_bodyInv (conv : Str → Option Int) (c : HttpConn) (sock : List ReadEvent)
    (hst : c.conn_status = .kPacket) (hb : BodyInv conv c) :
    (∀ st c1 s1, packetEnd c sock = .ret st c1 s1 → BodyInv conv c1) ∧
      (∀ c1 s1, packetEnd c sock = .next c1 s1 → BodyInv conv c1) := by
  obtain ⟨hle, hN, _⟩ := hb (Or.inl hst)
  unfold packetEnd
  constructor
  · intro st c1 s1 h
    split at h
    · split at h <;> cases h
    · cases h
  · intro c1 s1 h
    split at h
    · rename_i hrem
      split at h
      · cases h
      · rename_i b c2 heq
        cases h
        unfold BuildRequestBody at heq
        split at heq
        · cases heq
        · rename_i b1 r hparse
          cases heq
          obtain ⟨h0, hh, hc⟩ := ParseBodyFromArray_spec _ _ _ _ _ hparse
          intro _
          refine ⟨hle, ?_, fun _ => ⟨hrem, h0, ?_⟩⟩
          · intro N hd
            simp only at hd ⊢
            rw [hh] at hd
            exact hN N hd
          · simp only
            rw [hc, slice_drop]
    · cases h
      exact hb

theorem bodyInv_header (conv : Str → Option Int) (c : HttpConn)
    (h : c.conn_status = .kHeader) : BodyInv conv c := by
  intro h2
  rw [h] at h2
  rcases h2 with h2 | h2 <;> cases h2

theorem getHeader_bodyInv (conv : Str → Option Int) (c : HttpConn) (sock : List ReadEvent)
    (hinv : ReadInv c) (hst : c.conn_status = .kHeader) :
    (∀ st c1 s1, getHeader conv c sock = .ret st c1 s1 → BodyInv conv c1) ∧
      (∀ c1 s1, getHeader conv c sock = .next c1 s1 → BodyInv conv c1) := by
  have hp := hinv.2 hst
  have hH : kHttpMaxHeader = 65536 := by norm_num [kHttpMaxHeader]
  have hr := sockRead_nread sock (kHttpMaxHeader - c.rbuf_pos)
  unfold getHeader
  simp only [readInv_header_count _ hp]
  generalize (sockRead sock (kHttpMaxHeader - c.rbuf_pos)).1 = r at hr
  generalize (sockRead sock (kHttpMaxHeader - c.rbuf_pos)).2 = sock1
  constructor
  · intro st c1 s1 h
    split at h
    · cases h; exact bodyInv_header _ _ hst
    · split at h
      · cases h; exact bodyInv_header _ _ hst
      · split at h
        · cases h
        · split at h
          · cases h
          · rename_i c2 heq
            obtain ⟨req, rem, rfl⟩ := BuildRequestHeader_frame _ _ _ _ heq
            cases h
            exact bodyInv_header _ _ hst
          · cases h
  · intro c1 s1 h
    split at h
    · cases h
    · split at h
      · cases h
      · rename_i hn0
        split at h
        · cases h; exact bodyInv_header _ _ hst
        · rename_i sep hsep
          split at h
          · cases h
          · cases h
          · rename_i c2 heq
            cases h
            have hpos : (c.rbuf_pos + r.nread.toNat) % 2 ^ 32 = c.rbuf_pos + r.nread.toNat := by
              omega
            have hnul := peek_poke_self (poke c.rbuf c.rbuf_pos r.data)
              ((c.rbuf_pos + r.nread.toNat) % 2 ^ 32) '\x00' []
            have hle := strstr_le _ sep _ hsep hnul
            have hsmall : (sep + 4) % 2 ^ 32 = sep + 4 := by omega
            have hlen := BuildRequestHeader_length conv _ c2 heq (by simp only; omega)
            obtain ⟨req, rem, rfl⟩ := BuildRequestHeader_frame _ _ _ _ heq
            intro _
            refine ⟨by simp only; omega, ?_, fun h2 => by simp at h2⟩
            simpa using hlen

theorem getPacket_bodyInv (conv : Str → Option Int) (c : HttpConn) (sock : List ReadEvent)
    (hinv : ReadInv c) (hst : c.conn_status = .kPacket) (hb : BodyInv conv c) :
    (∀ st c1 s1, getPacket c sock = .ret st c1 s1 → BodyInv conv c1) ∧
      (∀ c1 s1, getPacket c sock = .next c1 s1 → BodyInv conv c1) := by
  have hp := hinv.1
  have hM : kHttpMaxMessage = 8388608 := by norm_num [kHttpMaxMessage]
  have hr := sockRead_nread sock c.remain_packet_len.toNat
  obtain ⟨hle, hN, _⟩ := hb (Or.inl hst)
  unfold getPacket
  simp only [readInv_message_count _ hp]
  generalize (sockRead sock c.remain_packet_len.toNat).1 = r at hr
  generalize (sockRead sock c.remain_packet_len.toNat).2 = sock1
  by_cases hbig : c.remain_packet_len > ((kHttpMaxMessage - c.rbuf_pos : Nat) : Int)
  · simp only [if_pos hbig]
    exact ⟨fun st c1 s1 h => by cases h; exact hb, fun c1 s1 h => by cases h⟩
  · simp only [if_neg hbig]
    by_cases hrem : c.remain_packet_len > 0
    · simp only [if_pos hrem]
      by_cases h1 : r.nread = -1 ∧ r.eagain = true
      · simp only [if_pos h1]
        exact ⟨fun st c1 s1 h => by cases h; exact hb, fun c1 s1 h => by cases h⟩
      · simp only [if_neg h1]
        by_cases h2 : r.nread ≤ 0
        · simp only [if_pos h2]
          exact ⟨fun st c1 s1 h => by cases h; exact hb, fun c1 s1 h => by cases h⟩
        · simp only [if_neg h2]
          apply packetEnd_bodyInv
          · exact hst
          · intro _
            refine ⟨by simp only; omega, ?_, fun h3 => by simp [hst] at h3⟩
            intro N hd
            have := hN N hd
            simp only
            omega
    · simp only [if_neg hrem]
      exact packetEnd_bodyInv conv c sock hst hb

theorem getPass_bodyInv (deal : Handler) (conv : Str → Option Int) (c : HttpConn)
    (sock : List ReadEvent) (hinv : ReadInv c) (hb : BodyInv conv c) :
    (∀ st c1 s1, getPass deal conv c sock = .ret st c1 s1 → BodyInv conv c1) ∧
      (∀ c1 s1, getPass deal conv c sock = .next c1 s1 → BodyInv conv c1) := by
  unfold getPass
  split
  · rename_i hst
    exact getHeader_bodyInv conv c sock hinv hst
  · rename_i hst
    exact getPacket_bodyInv conv c sock hinv hst hb
  · unfold getComplete
    constructor
    · intro st c1 s1 h
      split at h
      · cases h
      · cases h
        exact bodyInv_header _ _ rfl
    · intro c1 s1 h
      split at h <;> cases h
  · exact ⟨fun st c1 s1 h => by cases h; exact hb, fun c1 s1 h => by cases h⟩

theorem getLoop_bodyInv (deal : Handler) (conv : Str → Option Int) :
    ∀ (fuel : Nat) (c : HttpConn) (sock : List ReadEvent) st c1 s1, ReadInv c →
      BodyInv conv c → getLoop deal conv fuel c sock = some (st, c1, s1) → BodyInv conv c1 := by
  intro fuel
  induction fuel with
  | zero => intro c sock st c1 s1 _ _ h; cases h
  | succ fuel ih =>
    intro c sock st c1 s1 hinv hb h
    have hp := getPass_bodyInv deal conv c sock hinv hb
    have hq := getPass_readInv deal conv c sock hinv
    unfold getLoop at h
    split at h
    · rename_i st2 c2 s2 heq
      cases h
      exact hp.1 _ _ _ heq
    · rename_i c2 s2 heq
      exact ih c2 s2 st c1 s1 (hq.2 _ _ heq) (hp.2 _ _ heq) h
    · cases h

theorem SendReply_bodyInv (conv : Str → Option Int) (c : HttpConn) (ws : List WriteEvent)
    (hb : BodyInv conv c) : BodyInv conv (c.SendReply ws).2.1 := by
  obtain ⟨l, p, h⟩ := SendReply_frame c ws
  rw [h]
  exact hb

theorem runCalls_bodyInv (conv : Str → Option Int) (calls : List Call) :
    ∀ c0 c, ReadInv c0 → BodyInv conv c0 → usesConv conv calls → runCalls c0 calls = some c →
      ReadInv c ∧ BodyInv conv c := by
  induction calls with
  | nil =>
    intro c0 c h0 hb _ h
    cases h
    exact ⟨h0, hb⟩
  | cons call calls ih =>
    intro c0 c h0 hb hu h
    cases call with
    | get deal conv1 sock =>
      obtain ⟨rfl, hu⟩ := hu
      unfold runCalls at h
      cases hg : c0.GetRequest deal conv1 sock with
      | none => rw [hg] at h; cases h
      | some r =>
        obtain ⟨st, c1, s1⟩ := r
        rw [hg] at h
        exact ih c1 c (getLoop_readInv _ _ _ _ _ _ _ _ h0 hg)
          (getLoop_bodyInv _ _ _ _ _ _ _ _ h0 hb hg) hu h
    | send ws =>
      unfold runCalls at h
      exact ih _ c (SendReply_readInv c0 ws h0) (SendReply_bodyInv conv c0 ws hb) hu h

theorem afterPasses_inv (deal : Handler) (conv : Str → Option Int) :
    ∀ (n : Nat) (c : HttpConn) (sock : List ReadEvent) c1 s1, ReadInv c → BodyInv conv c →
      afterPasses deal conv n c sock = some (c1, s1) → ReadInv c1 ∧ BodyInv conv c1 := by
  intro n
  induction n with
  | zero =>
    intro c sock c1 s1 h0 hb h
    cases h
    exact ⟨h0, hb⟩
  | succ n ih =>
    intro c sock c1 s1 h0 hb h
    unfold afterPasses at h
    split at h
    · rename_i c2 s2 heq
      exact ih c2 s2 c1 s1 ((getPass_readInv deal conv c sock h0).2 _ _ heq)
        ((getPass_bodyInv deal conv c sock h0 hb).2 _ _ heq) h
    · cases h

theorem BuildRequestBody_returns (c : HttpConn) (z : Int)
    (hz : (c.rbuf_pos : Int) + c.remain_packet_len - (c.header_len : Int) = z) (h0 : 0 ≤ z)
    (h1 : z < 2 ^ 31) :
    ∃ b r, BuildRequestBody c = some (b, { c with request := r }) ∧
      r.content = slice c.rbuf c.header_len (c.header_len + z.toNat) := by
  have hparse : ∃ r, ParseBodyFromArray c.request (c.rbuf.drop c.header_len) z = some (true, r) ∧
      r.content = slice (c.rbuf.drop c.header_len) 0 z.toNat := by
    unfold ParseBodyFromArray
    rw [if_neg (by omega)]
    simp only
    by_cases hm : c.request.method = "POST".toList
    · rw [if_pos hm, ParseParameters_eq]
      exact ⟨_, rfl, rfl⟩
    · rw [if_neg hm]
      exact ⟨_, rfl, rfl⟩
  obtain ⟨r, hr, hc⟩ := hparse
  unfold BuildRequestBody
  rw [hz, longToInt32_small z h0 h1, hr]
  exact ⟨true, r, rfl, by rw [hc, slice_drop]⟩

theorem HandleMessage_returns (deal : Handler) (c : HttpConn)
    (h : (deal c.request c.response.Clear).content.length < 2 ^ 31) :
    ∃ c1, HandleMessage deal c = some c1 := by
  unfold HandleMessage BuildResponseBuf HttpResponse.SerializeToArray
  simp only
  rw [toInt32_small _ h]
  have hn : ¬ min ((deal c.request c.response.Clear).content.length : Int)
      (kHttpMaxMessage : Int) < 0 := by
    omega
  rw [if_neg hn]
  exact ⟨_, rfl⟩

/-- C17: take any state that `GetRequest` and `SendReply` calls reach from a new
connection and any number of passes of a further `GetRequest` call, and let `N` be the
value read from the `Content-Length` entry of the parsed headers (0 without an entry).
Once the header is parsed, `rbuf_pos_ + remain_packet_len_ - header_len_` is `N`, and it
still is when `BuildRequestBody` has returned.  For `N >= 0` the body that
`BuildRequestBody` hands over is `rbuf_[header_len_ .. header_len_ + N)`, it lies within
the bytes read (`header_len_ + N <= rbuf_pos_`) and has `N` bytes, so none without a
`Content-Length` entry.  When the `N` body bytes are there (`remain_packet_len_ <= 0`),
`BuildRequestBody` returns with these `N` bytes as `content`, and the call reads nothing
more and returns `kReadAll`, after invoking `DealMessage` once, on a request with that
body (the handler's reply being shorter than 2^31 bytes). -/
theorem c17_body_is_declared_length (conv : Str → Option Int) (calls : List Call)
    (c : HttpConn) (hconv : usesConv conv calls) (h : runCalls HttpConn.new calls = some c)
    (deal : Handler) (n : Nat) (sock : List ReadEvent) (cb : HttpConn)
    (sockb : List ReadEvent) (hp : afterPasses deal conv n c sock = some (cb, sockb))
    (N : Int) (hN : declaredLength conv cb.request.headers = some N) :
    (cb.conn_status = .kPacket ∨ cb.conn_status = .kComplete →
      (cb.rbuf_pos : Int) + cb.remain_packet_len - (cb.header_len : Int) = N) ∧
    (cb.conn_status = .kComplete → 0 ≤ N →
      (cb.header_len : Int) + N ≤ cb.rbuf_pos ∧
      cb.request.content = slice cb.rbuf cb.header_len (cb.header_len + N.toNat) ∧
      cb.request.content.length = N.toNat) ∧
    (cb.conn_status = .kPacket → cb.remain_packet_len ≤ 0 → 0 ≤ N →
      (∃ b r, BuildRequestBody cb = some (b, { cb with request := r }) ∧
        r.content = slice cb.rbuf cb.header_len (cb.header_len + N.toNat)) ∧
      ((∀ req resp, (deal req resp).content.length < 2 ^ 31) →
        ∃ c1, getLoop deal conv 2 cb sockb = some (.kReadAll, c1, sockb) ∧
          c1.dealt = cb.dealt ++ [c1.request] ∧
          c1.request.content = slice cb.rbuf cb.header_len (cb.header_len + N.toNat))) := by
  have hM : kHttpMaxMessage = 8388608 := by norm_num [kHttpMaxMessage]
  have hnew : ReadInv HttpConn.new ∧ BodyInv conv HttpConn.new :=
    ⟨⟨by simp [HttpConn.new], fun _ => by simp [HttpConn.new]⟩, bodyInv_header _ _ rfl⟩
  obtain ⟨hr0, hb0⟩ := runCalls_bodyInv conv calls _ c hnew.1 hnew.2 hconv h
  obtain ⟨hr, hb⟩ := afterPasses_inv deal conv n c sock cb sockb hr0 hb0 hp
  have hpos := hr.1
  refine ⟨fun hst => (hb hst).2.1 N hN, ?_, ?_⟩
  · intro hst h0
    obtain ⟨hle, hsum, hk⟩ := hb (Or.inr hst)
    obtain ⟨hrem, _, hcont⟩ := hk hst
    have hs := hsum N hN
    rw [hs, longToInt32_small N h0 (by omega)] at hcont
    refine ⟨by omega, hcont, ?_⟩
    rw [hcont, slice_length]
    omega
  · intro hst hrem h0
    obtain ⟨hle, hsum, _⟩ := hb (Or.inl hst)
    have hs := hsum N hN
    obtain ⟨b, r, hbody, hcont⟩ := BuildRequestBody_returns cb N hs h0 (by omega)
    refine ⟨⟨b, r, hbody, hcont⟩, fun hresp => ?_⟩
    have hpass : getPass deal conv cb sockb
        = .next { cb with request := r, conn_status := .kComplete } sockb := by
      unfold getPass
      rw [hst]
      simp only
      unfold getPacket
      rw [readInv_message_count _ hpos, if_neg (by omega), if_neg (by omega)]
      unfold packetEnd
      rw [if_pos hrem, hbody]
    obtain ⟨c1, h1⟩ := HandleMessage_returns deal
      { cb with request := r, conn_status := .kComplete } (hresp _ _)
    obtain ⟨wbuf, k, _, hshape⟩ := HandleMessage_frame _ _ _ h1
    refine ⟨{ c1 with conn_status := .kHeader, rbuf_pos := 0 }, ?_, ?_, ?_⟩
    · unfold getLoop
      rw [hpass]
      simp only
      unfold getLoop
      simp only [getPass, getComplete, h1]
    · rw [hshape]
    · rw [hshape]
      exact hcont

/-- C17, at the request `POST /f HTTP/1.1\r\nHost: x\r\nContent-Length: 7\r\n\r\n` with the
body `x=1&y=2`.  When the header comes first and the body in a second read, the state in
which `BuildRequestBody` has returned has `content` equal to `rbuf_[48 .. 55)`, which is
`x=1&y=2`.  When both come in one read, the 7 body bytes are there once the header is
parsed, and the next two passes return `kReadAll` with that body. -/
theorem c17_body_is_declared_length_witness :
    (runCalls HttpConn.new
        [.get replyOk string2l
          [.bytes "POST /f HTTP/1.1\r\nHost: x\r\nContent-Length: 7\r\n\r\n".toList]]
        = some afterPostHeader ∧
      afterPasses replyOk string2l 1 afterPostHeader [.bytes "x=1&y=2".toList]
        = some (afterPostBody, []) ∧
      declaredLength string2l afterPostBody.request.headers = some 7 ∧
      afterPostBody.conn_status = .kComplete ∧
      ((afterPostBody.header_len : Int) + 7 ≤ afterPostBody.rbuf_pos ∧
        afterPostBody.request.content
          = slice afterPostBody.rbuf afterPostBody.header_len
              (afterPostBody.header_len + (7 : Int).toNat) ∧
        afterPostBody.request.content.length = (7 : Int).toNat) ∧
      afterPostBody.request.content = "x=1&y=2".toList) ∧
    (afterPasses replyOk string2l 1 HttpConn.new
        [.bytes "POST /f HTTP/1.1\r\nHost: x\r\nContent-Length: 7\r\n\r\nx=1&y=2".toList]
        = some (afterPostRead, []) ∧
      afterPostRead.conn_status = .kPacket ∧ afterPostRead.remain_packet_len ≤ 0 ∧
      ∃ c1, getLoop replyOk string2l 2 afterPostRead [] = some (.kReadAll, c1, []) ∧
        c1.dealt = afterPostRead.dealt ++ [c1.request] ∧
        c1.request.content
          = slice afterPostRead.rbuf afterPostRead.header_len
              (afterPostRead.header_len + (7 : Int).toNat)) :=
  have h1 := c17_body_is_declared_length string2l
    [.get replyOk string2l
      [.bytes "POST /f HTTP/1.1\r\nHost: x\r\nContent-Length: 7\r\n\r\n".toList]]
    afterPostHeader ⟨rfl, trivial⟩ (by decide) replyOk 1 [.bytes "x=1&y=2".toList]
    afterPostBody [] (by decide) 7 (by decide)
  have h2 := c17_body_is_declared_length string2l [] HttpConn.new trivial rfl replyOk 1
    [.bytes "POST /f HTTP/1.1\r\nHost: x\r\nContent-Length: 7\r\n\r\nx=1&y=2".toList]
    afterPostRead [] (by decide) 7 (by decide)
  ⟨⟨by decide, by decide, by decide, rfl, h1.2.1 rfl (by decide), rfl⟩,
    ⟨by decide, rfl, by decide,
      (h2.2.2 rfl (by decide) (by decide)).2
        (fun _ _ => by show (2 : Nat) < 2 ^ 31; decide)⟩⟩

end Body

/-! ## The header limit, reads past the header, termination -/

section Limits

open HttpRequest HttpConn

theorem getLoop_mono (deal : Handler) (conv : Str → Option Int) :
    ∀ (fuel k : Nat) (c : HttpConn) (sock : List ReadEvent) r,
      getLoop deal conv fuel c sock = some r → getLoop deal conv (fuel + k) c sock = some r := by
  intro fuel
  induction fuel with
  | zero => intro k c sock r h; cases h
  | succ fuel ih =>
    intro k c sock r h
    rw [Nat.add_right_comm]
    unfold getLoop at h ⊢
    cases hp : getPass deal conv c sock with
    | ret st c1 s1 => rw [hp] at h; exact h
    | next c1 s1 =>
      rw [hp] at h
      exact ih k c1 s1 r h
    | stuck => rw [hp] at h; cases h

theorem strstr_replicate (n : Nat) (rest : List Char) :
    strstr (List.replicate n 'a' ++ '\x00' :: rest) = none := by
  induction n with
  | zero => simp [strstr]
  | succ n ih =>
    rw [List.replicate_succ, List.cons_append]
    unfold strstr
    rw [if_neg (by decide), if_neg (by simp), ih]
    rfl

theorem poke_fill (bs : List Char) (x : Char) :
    poke (poke [] 0 bs) bs.length [x] = bs ++ [x] := by
  rw [poke_zero]
  unfold poke
  simp

theorem full_header_pass (deal : Handler) (conv : Str → Option Int) (c : HttpConn)
    (sock : List ReadEvent) (hst : c.conn_status = .kHeader)
    (hpos : c.rbuf_pos = kHttpMaxHeader) :
    getPass deal conv c sock = .ret .kReadClose c sock := by
  have hcount : (kHttpMaxHeader + 2 ^ 32 - c.rbuf_pos % 2 ^ 32) % 2 ^ 32 = 0 := by
    rw [hpos]
    decide
  unfold getPass
  rw [hst]
  simp only
  unfold getHeader
  simp only [hcount, sockRead_zero]
  rw [if_neg (by decide), if_pos (by decide)]

theorem fill_header_pass (deal : Handler) (conv : Str → Option Int) (bs : List Char)
    (rest : List ReadEvent) (hlen : bs.length = kHttpMaxHeader)
    (hno : strstr (bs ++ ['\x00']) = none) :
    getPass deal conv HttpConn.new (.bytes bs :: rest)
      = .next { HttpConn.new with rbuf := bs ++ ['\x00'], rbuf_pos := bs.length } rest := by
  have hcount : (kHttpMaxHeader + 2 ^ 32 - HttpConn.new.rbuf_pos % 2 ^ 32) % 2 ^ 32
      = kHttpMaxHeader := by
    decide
  have hH : kHttpMaxHeader = 65536 := by norm_num [kHttpMaxHeader]
  have hne : ¬ kHttpMaxHeader = 0 := by decide
  have hread : sockRead (.bytes bs :: rest) kHttpMaxHeader
      = ({ nread := bs.length, eagain := false, data := bs }, rest) := by
    simp only [sockRead]
    rw [if_neg hne, if_pos (le_of_eq hlen)]
  have hmod : (0 + bs.length) % 2 ^ 32 = bs.length := by
    omega
  have h1 : ¬ (((bs.length : Nat) : Int) = -1 ∧ false = true) := by
    simp
  have h2 : ¬ (((bs.length : Nat) : Int) ≤ 0) := by
    omega
  unfold getPass getHeader
  simp only [HttpConn.new] at hcount ⊢
  simp only [hcount, hread, if_neg h1, if_neg h2, Int.toNat_ofNat, hmod, poke_fill, hno]

theorem getLoop_succ (deal : Handler) (conv : Str → Option Int) (fuel : Nat) (c : HttpConn)
    (sock : List ReadEvent) :
    getLoop deal conv (fuel + 1) c sock
      = match getPass deal conv c sock with
        | .ret st c1 sock1 => some (st, c1, sock1)
        | .next c1 sock1 => getLoop deal conv fuel c1 sock1
        | .stuck => none :=
  rfl

theorem fill_then_close (deal : Handler) (conv : Str → Option Int) (rest : List ReadEvent) :
    GetRequest deal conv HttpConn.new (.bytes (List.replicate kHttpMaxHeader 'a') :: rest)
      = some (.kReadClose, fullHeaderBuffer, rest) := by
  have hfirst : getPass deal conv HttpConn.new
      (.bytes (List.replicate kHttpMaxHeader 'a') :: rest) = .next fullHeaderBuffer rest := by
    have h := fill_header_pass deal conv (List.replicate kHttpMaxHeader 'a') rest
      (List.length_replicate _ _) (strstr_replicate kHttpMaxHeader [])
    rw [List.length_replicate] at h
    exact h
  have hsecond := full_header_pass deal conv fullHeaderBuffer rest rfl rfl
  have hloop : getLoop deal conv (0 + 1 + 1) HttpConn.new
      (.bytes (List.replicate kHttpMaxHeader 'a') :: rest)
        = some (.kReadClose, fullHeaderBuffer, rest) := by
    rw [getLoop_succ, hfirst]
    simp only
    rw [getLoop_succ, hsecond]
  have hfuel : sockBytes (.bytes (List.replicate kHttpMaxHeader 'a') :: rest) + 3
      = 0 + 1 + 1 + (sockBytes (.bytes (List.replicate kHttpMaxHeader 'a') :: rest) + 1) := by
    omega
  unfold GetRequest
  rw [hfuel]
  exact getLoop_mono _ _ _ _ _ _ _ hloop

theorem runCalls_get (deal : Handler) (conv : Str → Option Int) (c c1 : HttpConn)
    (sock s1 : List ReadEvent) (st : ReadStatus)
    (h : c.GetRequest deal conv sock = some (st, c1, s1)) :
    runCalls c [.get deal conv sock] = some c1 := by
  simp only [runCalls, h]

theorem fill_run (deal : Handler) (conv : Str → Option Int) :
    runCalls HttpConn.new [.get deal conv [.bytes (List.replicate kHttpMaxHeader 'a')]]
      = some fullHeaderBuffer :=
  runCalls_get deal conv _ _ _ _ _ (fill_then_close deal conv [])

theorem getPass_half (deal : Handler) (conv : Str → Option Int) (c : HttpConn)
    (sock : List ReadEvent) (hinv : ReadInv c) (c1 : HttpConn) (s1 : List ReadEvent)
    (h : getPass deal conv c sock = .ret .kReadHalf c1 s1) (h1 : c1.conn_status = .kHeader) :
    c1.rbuf_pos < kHttpMaxHeader := by
  have hH : kHttpMaxHeader = 65536 := by norm_num [kHttpMaxHeader]
  unfold getPass at h
  split at h
  · rename_i hst
    have hp := hinv.2 hst
    unfold getHeader at h
    simp only [readInv_header_count _ hp] at h
    by_cases hfull : kHttpMaxHeader - c.rbuf_pos = 0
    · rw [hfull] at h
      simp only [sockRead_zero] at h
      rw [if_neg (by decide), if_pos (by decide)] at h
      cases h
    · split at h
      · cases h
        omega
      · split at h
        · cases h
        · split at h
          · cases h
          · split at h
            · cases h
            · cases h
            · cases h
  · rename_i hst
    unfold getPacket at h
    simp only at h
    have hend := (packetEnd_drained c sock).1
    split at h
    · cases h
    · split at h
      · split at h
        · cases h
          rw [hst] at h1
          cases h1
        · split at h
          · cases h
          · exact ((packetEnd_drained _ _).1 _ _ _ h).elim
      · exact (hend _ _ _ h).elim
  · unfold getComplete at h
    split at h <;> cases h
  · cases h

theorem getLoop_half (deal : Handler) (conv : Str → Option Int) :
    ∀ (fuel : Nat) (c : HttpConn) (sock : List ReadEvent) c1 s1, ReadInv c →
      getLoop deal conv fuel c sock = some (.kReadHalf, c1, s1) →
        c1.conn_status = .kHeader → c1.rbuf_pos < kHttpMaxHeader := by
  intro fuel
  induction fuel with
  | zero => intro c sock c1 s1 _ h; cases h
  | succ fuel ih =>
    intro c sock c1 s1 hinv h h1
    rw [getLoop_succ] at h
    cases hp : getPass deal conv c sock with
    | ret st c2 s2 =>
      rw [hp] at h
      cases h
      exact getPass_half deal conv c sock hinv c1 s1 hp h1
    | next c2 s2 =>
      rw [hp] at h
      exact ih c2 s2 c1 s1 ((getPass_readInv deal conv c sock hinv).2 _ _ hp) h h1
    | stuck => rw [hp] at h; cases h

/-- C18 (the claim fails): a new connection reads 64 KiB that hold no `\r\n\r\n`, and four
more bytes are waiting in the socket.  `GetRequest` finds the header part of the buffer
full, asks `read` for 0 bytes, gets 0 and returns `kReadClose`, not `kReadError`. -/
theorem c18_full_header_is_read_close :
    GetRequest echoPath string2l HttpConn.new
        [.bytes (List.replicate kHttpMaxHeader 'a'), .bytes "\r\n\r\n".toList]
      = some (.kReadClose, fullHeaderBuffer, [.bytes "\r\n\r\n".toList]) :=
  fill_then_close echoPath string2l [.bytes "\r\n\r\n".toList]

/-- C18 (amended): in every state that `GetRequest` and `SendReply` calls reach from a new
connection, a `GetRequest` call that leaves the connection in the state `kHeader` returns
`kReadHalf` only while the header part of the buffer is not yet full
(`rbuf_pos_ < kHttpMaxHeader`).  Once `kHttpMaxHeader` bytes have been read in the state
`kHeader` without a `\r\n\r\n` among them (the state is still `kHeader`, with `rbuf_pos_`
at 64 KiB), `GetRequest` asks `read` for 0 bytes, gets 0 and returns `kReadClose`, not
`kReadError`, whatever the socket holds, and leaves the connection and the socket as they
were.  While the buffer is not full and the socket would block, it returns
`kReadHalf`. -/
theorem c18_full_header_buffer (calls : List Call) (c : HttpConn)
    (h : runCalls HttpConn.new calls = some c) (deal : Handler) (conv : Str → Option Int)
    (sock : List ReadEvent) :
    (∀ c1 s1, c.GetRequest deal conv sock = some (.kReadHalf, c1, s1) →
        c1.conn_status = .kHeader → c1.rbuf_pos < kHttpMaxHeader) ∧
      (c.conn_status = .kHeader → c.rbuf_pos = kHttpMaxHeader →
        c.GetRequest deal conv sock = some (.kReadClose, c, sock)) ∧
      (c.conn_status = .kHeader → c.rbuf_pos < kHttpMaxHeader →
        c.GetRequest deal conv [] = some (.kReadHalf, c, [])) := by
  have hnew : ReadInv HttpConn.new :=
    ⟨by simp [HttpConn.new], fun _ => by simp [HttpConn.new]⟩
  have hinv := runCalls_readInv calls HttpConn.new c hnew h
  refine ⟨fun c1 s1 hg h1 => getLoop_half deal conv _ c sock c1 s1 hinv hg h1, ?_,
    fun hst hpos => GetRequest_would_block deal conv c hst hpos⟩
  intro hst hpos
  unfold GetRequest
  rw [getLoop_succ, full_header_pass deal conv c sock hst hpos]

/-- C18 (amended), at the connection that has read 64 KiB of `a`: it is in the state
`kHeader` with `rbuf_pos_` at `kHttpMaxHeader`, and `GetRequest` returns `kReadClose` both
when the socket is idle and when bytes are waiting; a new connection, whose buffer is not
full, gets `kReadHalf` from an idle socket. -/
theorem c18_full_header_buffer_witness :
    runCalls HttpConn.new [.get echoPath string2l [.bytes (List.replicate kHttpMaxHeader 'a')]]
        = some fullHeaderBuffer ∧
      fullHeaderBuffer.conn_status = .kHeader ∧ fullHeaderBuffer.rbuf_pos = kHttpMaxHeader ∧
      fullHeaderBuffer.GetRequest echoPath string2l []
        = some (.kReadClose, fullHeaderBuffer, []) ∧
      fullHeaderBuffer.GetRequest echoPath string2l [.bytes "\r\n\r\n".toList]
        = some (.kReadClose, fullHeaderBuffer, [.bytes "\r\n\r\n".toList]) ∧
      HttpConn.new.GetRequest echoPath string2l [] = some (.kReadHalf, HttpConn.new, []) :=
  ⟨fill_run echoPath string2l, rfl, rfl,
    (c18_full_header_buffer _ fullHeaderBuffer (fill_run echoPath string2l) echoPath string2l
      []).2.1 rfl rfl,
    (c18_full_header_buffer _ fullHeaderBuffer (fill_run echoPath string2l) echoPath string2l
      [.bytes "\r\n\r\n".toList]).2.1 rfl rfl,
    (c18_full_header_buffer [] HttpConn.new rfl echoPath string2l []).2.2 rfl
      (Nat.succ_pos _)⟩

/-- C19: there are a byte array and a size for which `ParseHeadFromArray(data, size)`
reads `data` at an index `>= size`.  For `GET /a\nX` with size 7, `find_lf` returns 6, so
`line_end` is 7, and `ParseHeadLine` reads `data[0 .. 7]` with both ends: the byte at
index 7 ends up in `path`.  The array `GET /a\nY` has the same first 7 bytes and gives
another `path`, so the result depends on a byte that lies beyond the size.  The same
happens after a complete header block with three header lines: what follows the block
(`k v\r` here) is read as one more header line. -/
theorem c19_parse_head_reads_past_size :
    (∃ (d1 d2 : List Char) (size : Nat),
      (∀ i, i < size → peek d1 i = peek d2 i) ∧
      find_lf d1 0 size + 1 = size ∧
      (ParseHeadFromArray HttpRequest.blank d1 size).map (fun r => r.2.path)
        = some "/a\nX".toList ∧
      (ParseHeadFromArray HttpRequest.blank d2 size).map (fun r => r.2.path)
        = some "/a\nY".toList) ∧
    ("GET / HTTP/1.1\r\nA: 1\r\nB: 2\r\nC: 3\r\n\r\n".toList.length = 36 ∧
      (ParseHeadFromArray HttpRequest.blank
          "GET / HTTP/1.1\r\nA: 1\r\nB: 2\r\nC: 3\r\n\r\nk v\r".toList 36).map
          (fun r => r.2.headers)
        = some [([], "1".toList), ("B".toList, "2".toList), ("C".toList, "3".toList),
            ("k".toList, "v".toList)] ∧
      (ParseHeadFromArray HttpRequest.blank
          "GET / HTTP/1.1\r\nA: 1\r\nB: 2\r\nC: 3\r\n\r\n".toList 36).map
          (fun r => r.2.headers)
        = some [([], "1".toList), ("B".toList, "2".toList), ("C".toList, "3".toList)]) := by
  refine ⟨⟨"GET /a\nX".toList, "GET /a\nY".toList, 7, ?_, ?_, ?_, ?_⟩, ?_, ?_, ?_⟩ <;> decide

theorem strFind_bounds (data : Str) (c : Char) (pre : Nat) (h : pre ≤ data.length) :
    pre ≤ (strFind data c pre).getD data.length ∧
      (strFind data c pre).getD data.length ≤ data.length := by
  rw [strFind_getD data c pre h]
  have h1 := (List.takeWhile_prefix (fun x => decide (x ≠ c)) (l := data.drop pre)).length_le
  rw [List.length_drop] at h1
  omega

theorem paramLoop_bound (data : Str) :
    ∀ (fuel pre : Nat) (qp : StrMap), data.length ≤ fuel + pre →
      (paramLoop data fuel pre qp).isSome = true := by
  intro fuel
  induction fuel with
  | zero =>
    intro pre qp h
    have h1 : ¬ pre < data.length := by omega
    simp only [paramLoop, if_neg h1, Option.isSome_some]
  | succ fuel ih =>
    intro pre qp h
    by_cases hp : pre < data.length
    · have hb := strFind_bounds data '&' pre (le_of_lt hp)
      simp only [paramLoop, if_pos hp]
      split
      · exact ih _ _ (by omega)
      · exact ih _ _ (by omega)
    · simp only [paramLoop, if_neg hp, Option.isSome_some]

/-- C20: `ParseParameters` returns, and returns `true`, for every string and every start
offset.  The loop ends within `data.size() - line_start` passes: started with that many
passes allowed it comes to its end.  In every pass `end` lies between `pre` and
`data.size()`, so the new `pre = end + 1` is larger than the old one and at most
`data.size() + 1`. -/
theorem c20_parse_parameters_terminates (req : HttpRequest) (data : Str) (line_start : Nat) :
    (∃ r, ParseParameters req data line_start = some (true, r)) ∧
      (paramLoop data (data.length - line_start) line_start req.query_params).isSome = true ∧
      (∀ pre, pre < data.length →
        pre < (strFind data '&' pre).getD data.length + 1 ∧
          (strFind data '&' pre).getD data.length + 1 ≤ data.length + 1) := by
  refine ⟨⟨_, ParseParameters_eq req data line_start⟩, paramLoop_bound data _ _ _ (by omega), ?_⟩
  intro pre hp
  have hb := strFind_bounds data '&' pre (le_of_lt hp)
  omega

end Limits

end pink
